import Mathlib

/-! lineq: a static linear-equation parser (`src/main.c`).

The program turns a text `CALCk = <expression over INd and literals>` into a
coefficient vector `a` (one entry per input slot) and a scalar `b`.

Embedding conventions.

* A C string is the list of its characters before the terminating NUL, each
  an ASCII character; the cursor `(s, len)` of the source always moves both
  fields together, so it is the list of the characters that remain.
* Numbers come in two readings.  In the first a `double` is an exact
  rational: `strtod` yields the decimal value of the text it converts and
  `+ - * /` are exact; it serves the statements about tokens, cursors, signs,
  grouping and range checks, whose branches do not depend on rounding.  In the
  second a `double` is an IEEE 754 binary64 value (`F64`, `round64`) and
  `epsilon` is the double nearest to 0.000000001; the functions of this
  reading carry the suffix `64`, and every statement that turns on the
  comparison with `epsilon` is made about them.  The buffers handed to
  `strtod` hold at most 31 characters out of digits, `.`, `+`, `-`, so `errno`
  is never set by overflow or underflow.
* The vector `double a[n]` is a list of length `n`; loops `for (i = 0; i != n; ++i)`
  over it are the matching whole-list operations.
* `malloc` of the scratch vector succeeds.
* The two `while (1)` loops are recursive functions of their own; all
  recursion is by a fuel counter, and `parse_lineq` supplies fuel from the
  length of its text.
-/

namespace Lineq

/-! ## Tokens -/

/-- The token type `lineq_tok_t`: the enum tag together with its union payload. -/
inductive lineq_tok where
  | EQ
  | MUL
  | DIV
  | ADD
  | SUB
  | LPAR
  | RPAR
  | REAL (real : ℚ)
  | CALC (id : Nat)
  | IN (id : Nat)
  | INVALID
  deriving DecidableEq, Repr

/-- Outcome of the recursive parsers: the C return value `0` with the data
written through the out-pointers, the C return value `-1`, or the fuel of the
model ran out. -/
inductive Res (α : Type) where
  | ok (v : α)
  | error
  | nofuel
  deriving DecidableEq, Repr

/-! ## Character classes -/

def is_ws (c : Char) : Bool := c = ' ' || c = '\t'

def is_digit (c : Char) : Bool := decide ('0'.toNat ≤ c.toNat) && decide (c.toNat ≤ '9'.toNat)

def is_sign (c : Char) : Bool := c = '-' || c = '+'

def is_real (c : Char) : Bool := c = '.' || is_digit c || is_sign c

def skip_ws : List Char → List Char
  | [] => []
  | c :: s => if is_ws c then skip_ws s else c :: s

/-- The constant `epsilon = 0.000000001` of `is_real_zero`. -/
def epsilon : ℚ := 1 / 1000000000

def is_real_zero (real : ℚ) : Bool :=
  decide (real ≥ epsilon * (-1)) && decide (real ≤ epsilon)

/-! ## `strtod` on the scan buffer -/

/-- Longest prefix of decimal digits, and what follows it. -/
def spanDigits : List Char → List Char × List Char
  | [] => ([], [])
  | c :: s =>
    if is_digit c then ((spanDigits s).1.cons c, (spanDigits s).2) else ([], c :: s)

/-- Value of a string of decimal digits read in base ten. -/
def digitsToNat (ds : List Char) : Nat :=
  ds.foldl (fun acc c => 10 * acc + (c.toNat - 48)) 0

/-- Unsigned part of `strtod`: digits, optionally a point and more digits.
With no digit at all no conversion is performed and the value is `0`. -/
def strtod_unsigned (s : List Char) : ℚ :=
  let ip := (spanDigits s).1
  let fp := match (spanDigits s).2 with
    | '.' :: r => (spanDigits r).1
    | _ => []
  if ip.length + fp.length = 0 then 0
  else (digitsToNat (ip ++ fp) : ℚ) / (10 : ℚ) ^ fp.length

/-- The libc function `strtod` on a buffer of digits, points and signs: an
optional sign, then the longest decimal numeral; anything after it is ignored. -/
def strtod : List Char → ℚ
  | '-' :: s => - strtod_unsigned s
  | '+' :: s => strtod_unsigned s
  | s => strtod_unsigned s

/-! ## Scanners -/

/-- The copy loop of `parse_real`: `k` free slots of `buf`; gives the copied
characters and the advanced cursor. -/
def scan_real : Nat → List Char → List Char × List Char
  | 0, s => ([], s)
  | _ + 1, [] => ([], [])
  | k + 1, c :: s =>
    if is_real c then ((scan_real k s).1.cons c, (scan_real k s).2) else ([], c :: s)

/-- The function `parse_real`: the value on success, and in every case the cursor it leaves. -/
def parse_real (s : List Char) : Option ℚ × List Char :=
  let r := scan_real 32 (skip_ws s)
  if r.1.length = 0 ∨ r.1.length = 32 then (none, r.2)
  else (some (strtod r.1), r.2)

/-- The conversion `(size_t)(c - '1')` on a 64-bit `size_t`. -/
def digit_index (c : Char) : Nat := (c.toNat + 2 ^ 64 - 49) % 2 ^ 64

/-- The function `parse_in_or_calc` with prefix `p` (its length is the C argument `n`). -/
def parse_in_or_calc (s : List Char) (p : List Char) : Option Nat × List Char :=
  let s1 := skip_ws s
  if s1.length ≤ p.length then (none, s1)
  else if s1.take p.length ≠ p then (none, s1)
  else match s1.drop p.length with
    | c :: r => (some (digit_index c), r)
    | [] => (none, s1)

def parse_calc (s : List Char) : Option Nat × List Char :=
  parse_in_or_calc s ['C', 'A', 'L', 'C']

def parse_in (s : List Char) : Option Nat × List Char :=
  parse_in_or_calc s ['I', 'N']

/-- The `switch` of `parse_tok` on the current character. -/
def op_tok (c : Char) : lineq_tok :=
  if c = '=' then .EQ
  else if c = '*' then .MUL
  else if c = '+' then .ADD
  else if c = '-' then .SUB
  else if c = '/' then .DIV
  else if c = '(' then .LPAR
  else if c = ')' then .RPAR
  else .INVALID

/-- The function `parse_tok`: the token on success (`none` for the return
value `-1`), and in every case the cursor it leaves. -/
def parse_tok (s : List Char) : Option lineq_tok × List Char :=
  match skip_ws s with
  | [] => (none, [])
  | c :: r =>
    if op_tok c ≠ .INVALID then (some (op_tok c), r)
    else match parse_real (c :: r) with
      | (some x, s1) => (some (.REAL x), s1)
      | (none, s1) =>
        match parse_in s1 with
        | (some id, s2) => (some (.IN id), s2)
        | (none, s2) =>
          match parse_calc s2 with
          | (some id, s3) => (some (.CALC id), s3)
          | (none, s3) => (none, s3)

/-! ## The reducers -/

/-- The body of the `*` / `/` branch of `parse_addsub_expr` once the right
term `(ar, br)` is parsed: side detection, the swap of form 1 with its
non-linearity check, then the scaling.  `none` is `goto on_error`. -/
def muldiv (isDiv : Bool) (a : List ℚ) (b : ℚ) (ar : List ℚ) (br : ℚ) :
    Option (List ℚ × ℚ) :=
  let sw : Option (ℚ × List ℚ × ℚ) :=
    if ar.all is_real_zero then some (br, a, b)
    else if a.all is_real_zero then some (b, ar, br)
    else none
  match sw with
  | none => none
  | some (konst, a1, b1) =>
    if isDiv then
      if is_real_zero konst then some (a1.map (fun _ => 0), 0)
      else some (a1.map (fun x => x / konst), b1 / konst)
    else some (a1.map (fun x => x * konst), b1 * konst)

mutual
/-- The sign loop and the atom dispatch of `parse_one_term`; `sign` is the
local of that name. -/
def parse_one_term_loop : Nat → List Char → Nat → ℚ → Res (List ℚ × ℚ × List Char)
  | 0, _, _, _ => .nofuel
  | fuel + 1, s, n, sign =>
    match parse_tok s with
    | (none, _) => .error
    | (some .SUB, s1) => parse_one_term_loop fuel s1 n (sign * (-1))
    | (some .ADD, s1) => parse_one_term_loop fuel s1 n sign
    | (some .LPAR, s1) =>
      match parse_addsub_expr fuel s1 n with
      | .ok (a, b, s2) =>
        match parse_tok s2 with
        | (some .RPAR, s3) => .ok (a.map (fun x => x * sign), b * sign, s3)
        | _ => .error
      | .error => .error
      | .nofuel => .nofuel
    | (some (.IN id), s1) =>
      if id ≥ n then .error
      else .ok (((List.replicate n (0 : ℚ)).set id 1).map (fun x => x * sign), 0 * sign, s1)
    | (some (.REAL x), s1) =>
      .ok ((List.replicate n (0 : ℚ)).map (fun x => x * sign), x * sign, s1)
    | (some _, _) => .error
/-- The function `parse_addsub_expr`: the left term, then the operator loop. -/
def parse_addsub_expr : Nat → List Char → Nat → Res (List ℚ × ℚ × List Char)
  | 0, _, _ => .nofuel
  | fuel + 1, s, n =>
    match parse_one_term_loop fuel s n 1 with
    | .ok (a, b, s1) => parse_addsub_expr_loop fuel s1 n a b
    | .error => .error
    | .nofuel => .nofuel
/-- The `while (1)` loop of `parse_addsub_expr` with the accumulated `(a, b)`. -/
def parse_addsub_expr_loop : Nat → List Char → Nat → List ℚ → ℚ →
    Res (List ℚ × ℚ × List Char)
  | 0, _, _, _, _ => .nofuel
  | fuel + 1, s, n, a, b =>
    match parse_tok s with
    | (none, s1) => .ok (a, b, s1)
    | (some .RPAR, _) => .ok (a, b, s)
    | (some .ADD, s1) =>
      match parse_addsub_expr fuel s1 n with
      | .ok (ar, br, s2) =>
        parse_addsub_expr_loop fuel s2 n (List.zipWith (fun x y => x + y * 1) a ar) (b + br * 1)
      | .error => .error
      | .nofuel => .nofuel
    | (some .SUB, s1) =>
      match parse_addsub_expr fuel s1 n with
      | .ok (ar, br, s2) =>
        parse_addsub_expr_loop fuel s2 n (List.zipWith (fun x y => x + y * (-1)) a ar)
          (b + br * (-1))
      | .error => .error
      | .nofuel => .nofuel
    | (some .MUL, s1) =>
      match parse_one_term_loop fuel s1 n 1 with
      | .ok (ar, br, s2) =>
        match muldiv false a b ar br with
        | some (a1, b1) => parse_addsub_expr_loop fuel s2 n a1 b1
        | none => .error
      | .error => .error
      | .nofuel => .nofuel
    | (some .DIV, s1) =>
      match parse_one_term_loop fuel s1 n 1 with
      | .ok (ar, br, s2) =>
        match muldiv true a b ar br with
        | some (a1, b1) => parse_addsub_expr_loop fuel s2 n a1 b1
        | none => .error
      | .error => .error
      | .nofuel => .nofuel
    | (some _, s1) => parse_addsub_expr_loop fuel s1 n a b
end

/-- The function `parse_one_term`: starts the sign loop with `sign = 1.0`. -/
def parse_one_term (fuel : Nat) (s : List Char) (n : Nat) : Res (List ℚ × ℚ × List Char) :=
  parse_one_term_loop fuel s n 1

/-- The function `parse_lineq` with an explicit fuel for the right-hand side:
on success the target index `calc_id`, the vector `a` and the scalar `b`. -/
def parse_lineq_fuel (fuel : Nat) (s : List Char) (n : Nat) : Res (Nat × List ℚ × ℚ) :=
  match parse_tok s with
  | (some (.CALC id), s1) =>
    match parse_tok s1 with
    | (some .EQ, s2) =>
      match parse_addsub_expr fuel s2 n with
      | .ok (a, b, _) => .ok (id, a, b)
      | .error => .error
      | .nofuel => .nofuel
    | _ => .error
  | _ => .error

/-- The function `parse_lineq` on the text `s` with `n` input slots. -/
def parse_lineq (s : List Char) (n : Nat) : Res (Nat × List ℚ × ℚ) :=
  parse_lineq_fuel (2 * s.length + 2) s n

/-! ## Binary64 arithmetic

The claims that turn on the comparison with `epsilon` are settled on the
values the program computes with: IEEE 754 binary64 numbers, every operation
rounded once to nearest with ties to even, `strtod` correctly rounded (the
evaluation of a C implementation with `FLT_EVAL_METHOD` 0 and the default
rounding mode).  The only products the program adds to something are products
by `sign`, which is 1 or -1 and makes them exact, so a fused multiply-add
yields the same values.  The two zeros are one value here: the program never
divides by a zero (every division is guarded by `is_real_zero`), so the sign
of a zero changes no comparison and no value other than the sign of a zero. -/

/-- A `double`: a finite value, an infinity with its sign bit, or a NaN. -/
inductive F64 where
  | num (q : ℚ)
  | inf (neg : Bool)
  | nan
  deriving DecidableEq, Repr

/-- The power of two `2 ^ e` for an integer exponent. -/
def pow2 (e : Int) : ℚ :=
  if 0 ≤ e then ((2 ^ e.toNat : Nat) : ℚ) else 1 / ((2 ^ (-e).toNat : Nat) : ℚ)

/-- Halving count: for `1 ≤ n ≤ fuel` the `k` with `2 ^ k ≤ n < 2 ^ (k + 1)`. -/
def log2_fuel : Nat → Nat → Nat
  | 0, _ => 0
  | fuel + 1, n => if 2 ≤ n then log2_fuel fuel (n / 2) + 1 else 0

/-- The binary exponent of a positive rational: the `e` with
`2 ^ e ≤ a < 2 ^ (e + 1)`. -/
def ilog2 (a : ℚ) : Int :=
  let e0 : Int := (log2_fuel a.num.natAbs a.num.natAbs : Int) - (log2_fuel a.den a.den : Int)
  if a < pow2 e0 then e0 - 1 else e0

/-- Round a non-negative rational to the nearest natural number, ties to even. -/
def round_even (x : ℚ) : Nat :=
  let f := x.num.natAbs / x.den
  let r := x.num.natAbs % x.den
  if 2 * r < x.den then f
  else if x.den < 2 * r then f + 1
  else if f % 2 = 0 then f else f + 1

/-- Rounding of an exact value to binary64: 53 significant bits, exponent at
least -1022 (below that the subnormal spacing `2 ^ -1074`), overflow to an
infinity from `2 ^ 1024` on. -/
def round64 (q : ℚ) : F64 :=
  if q = 0 then .num 0
  else
    let e := max (ilog2 |q|) (-1022)
    let v : ℚ := (round_even (|q| / pow2 (e - 52)) : ℚ) * pow2 (e - 52)
    if pow2 1024 ≤ v then .inf (decide (q < 0))
    else .num (if q < 0 then -v else v)

/-- The operator `+` on doubles. -/
def fadd : F64 → F64 → F64
  | .num a, .num b => round64 (a + b)
  | .num _, .inf t => .inf t
  | .inf s, .num _ => .inf s
  | .inf s, .inf t => if s = t then .inf s else .nan
  | _, _ => .nan

/-- The operator `*` on doubles. -/
def fmul : F64 → F64 → F64
  | .num a, .num b => round64 (a * b)
  | .num a, .inf t => if a = 0 then .nan else .inf (xor (decide (a < 0)) t)
  | .inf s, .num b => if b = 0 then .nan else .inf (xor s (decide (b < 0)))
  | .inf s, .inf t => .inf (xor s t)
  | _, _ => .nan

/-- The operator `/` on doubles.  The program never divides a finite value by
a zero; that case is given the sign of the dividend. -/
def fdiv : F64 → F64 → F64
  | .num a, .num b =>
    if b = 0 then (if a = 0 then .nan else .inf (decide (a < 0))) else round64 (a / b)
  | .num _, .inf _ => .num 0
  | .inf s, .num b => .inf (xor s (decide (b < 0)))
  | _, _ => .nan

/-- The comparison `x <= y` on doubles; false when either side is a NaN. -/
def fle : F64 → F64 → Bool
  | .num a, .num b => decide (a ≤ b)
  | .num _, .inf t => !t
  | .inf s, .num _ => s
  | .inf s, .inf t => s || !t
  | _, _ => false

/-- The constant `epsilon = 0.000000001` of `is_real_zero` as it is stored: the
double nearest to the decimal. -/
def epsilon64 : F64 := round64 (1 / 1000000000)

/-- The function `is_real_zero` on doubles:
`(real >= (epsilon * -1.0)) && (real <= epsilon)`. -/
def is_real_zero64 (real : F64) : Bool :=
  fle (fmul epsilon64 (.num (-1))) real && fle real epsilon64

/-- A value that binary64 arithmetic can hold: a finite one is left unchanged
by rounding. -/
def F64.is_double : F64 → Prop
  | .num q => round64 q = .num q
  | _ => True

/-! ## The reducers on binary64 values

The same functions as above with `double` read as `F64`.  The tokenizer is
shared: a `REAL` token carries the exact decimal value of the text that
`strtod` converts, and the double stored in `tok.val.real` is that value
rounded, `round64 x`. -/

/-- The body of the `*` / `/` branch of `parse_addsub_expr` on binary64
values, once the right term `(ar, br)` is parsed: side detection, the swap of
form 1 with its non-linearity check, then the scaling.  `none` is
`goto on_error`. -/
def muldiv64 (isDiv : Bool) (a : List F64) (b : F64) (ar : List F64) (br : F64) :
    Option (List F64 × F64) :=
  let sw : Option (F64 × List F64 × F64) :=
    if ar.all is_real_zero64 then some (br, a, b)
    else if a.all is_real_zero64 then some (b, ar, br)
    else none
  match sw with
  | none => none
  | some (konst, a1, b1) =>
    if isDiv then
      if is_real_zero64 konst then some (a1.map (fun _ => .num 0), .num 0)
      else some (a1.map (fun x => fdiv x konst), fdiv b1 konst)
    else some (a1.map (fun x => fmul x konst), fmul b1 konst)

mutual
/-- The sign loop and the atom dispatch of `parse_one_term` on binary64
values; the double stored in `tok.val.real` is the rounded value of the
decimal text. -/
def parse_one_term_loop64 : Nat → List Char → Nat → F64 → Res (List F64 × F64 × List Char)
  | 0, _, _, _ => .nofuel
  | fuel + 1, s, n, sign =>
    match parse_tok s with
    | (none, _) => .error
    | (some .SUB, s1) => parse_one_term_loop64 fuel s1 n (fmul sign (.num (-1)))
    | (some .ADD, s1) => parse_one_term_loop64 fuel s1 n sign
    | (some .LPAR, s1) =>
      match parse_addsub_expr64 fuel s1 n with
      | .ok (a, b, s2) =>
        match parse_tok s2 with
        | (some .RPAR, s3) => .ok (a.map (fun x => fmul x sign), fmul b sign, s3)
        | _ => .error
      | .error => .error
      | .nofuel => .nofuel
    | (some (.IN id), s1) =>
      if id ≥ n then .error
      else .ok (((List.replicate n (F64.num 0)).set id (.num 1)).map (fun x => fmul x sign),
        fmul (.num 0) sign, s1)
    | (some (.REAL x), s1) =>
      .ok ((List.replicate n (F64.num 0)).map (fun x => fmul x sign), fmul (round64 x) sign, s1)
    | (some _, _) => .error
/-- The function `parse_addsub_expr` on binary64 values: the left term, then
the operator loop. -/
def parse_addsub_expr64 : Nat → List Char → Nat → Res (List F64 × F64 × List Char)
  | 0, _, _ => .nofuel
  | fuel + 1, s, n =>
    match parse_one_term_loop64 fuel s n (.num 1) with
    | .ok (a, b, s1) => parse_addsub_expr_loop64 fuel s1 n a b
    | .error => .error
    | .nofuel => .nofuel
/-- The `while (1)` loop of `parse_addsub_expr` on binary64 values with the
accumulated `(a, b)`. -/
def parse_addsub_expr_loop64 : Nat → List Char → Nat → List F64 → F64 →
    Res (List F64 × F64 × List Char)
  | 0, _, _, _, _ => .nofuel
  | fuel + 1, s, n, a, b =>
    match parse_tok s with
    | (none, s1) => .ok (a, b, s1)
    | (some .RPAR, _) => .ok (a, b, s)
    | (some .ADD, s1) =>
      match parse_addsub_expr64 fuel s1 n with
      | .ok (ar, br, s2) =>
        parse_addsub_expr_loop64 fuel s2 n
          (List.zipWith (fun x y => fadd x (fmul y (.num 1))) a ar) (fadd b (fmul br (.num 1)))
      | .error => .error
      | .nofuel => .nofuel
    | (some .SUB, s1) =>
      match parse_addsub_expr64 fuel s1 n with
      | .ok (ar, br, s2) =>
        parse_addsub_expr_loop64 fuel s2 n
          (List.zipWith (fun x y => fadd x (fmul y (.num (-1)))) a ar)
          (fadd b (fmul br (.num (-1))))
      | .error => .error
      | .nofuel => .nofuel
    | (some .MUL, s1) =>
      match parse_one_term_loop64 fuel s1 n (.num 1) with
      | .ok (ar, br, s2) =>
        match muldiv64 false a b ar br with
        | some (a1, b1) => parse_addsub_expr_loop64 fuel s2 n a1 b1
        | none => .error
      | .error => .error
      | .nofuel => .nofuel
    | (some .DIV, s1) =>
      match parse_one_term_loop64 fuel s1 n (.num 1) with
      | .ok (ar, br, s2) =>
        match muldiv64 true a b ar br with
        | some (a1, b1) => parse_addsub_expr_loop64 fuel s2 n a1 b1
        | none => .error
      | .error => .error
      | .nofuel => .nofuel
    | (some _, s1) => parse_addsub_expr_loop64 fuel s1 n a b
end

/-- The function `parse_one_term` on binary64 values: starts the sign loop
with `sign = 1.0`. -/
def parse_one_term64 (fuel : Nat) (s : List Char) (n : Nat) : Res (List F64 × F64 × List Char) :=
  parse_one_term_loop64 fuel s n (.num 1)

/-- The function `parse_lineq` on binary64 values with an explicit fuel for
the right-hand side. -/
def parse_lineq_fuel64 (fuel : Nat) (s : List Char) (n : Nat) : Res (Nat × List F64 × F64) :=
  match parse_tok s with
  | (some (.CALC id), s1) =>
    match parse_tok s1 with
    | (some .EQ, s2) =>
      match parse_addsub_expr64 fuel s2 n with
      | .ok (a, b, _) => .ok (id, a, b)
      | .error => .error
      | .nofuel => .nofuel
    | _ => .error
  | _ => .error

/-- The function `parse_lineq` on binary64 values, on the text `s` with `n`
input slots. -/
def parse_lineq64 (s : List Char) (n : Nat) : Res (Nat × List F64 × F64) :=
  parse_lineq_fuel64 (2 * s.length + 2) s n

/-! ## Reading the claims: literals, digits, coefficient vectors -/

/-- A plain decimal literal: only digits and at most one point, at least one
digit, and short enough (31 characters) for the scan buffer of `parse_real`. -/
def is_literal (lit : List Char) : Bool :=
  lit.all (fun c => is_digit c || c = '.') && decide (lit.count '.' ≤ 1) &&
    lit.any is_digit && decide (lit.length ≤ 31)

/-- The decimal value of a plain literal: its digits read as a natural number,
scaled down by one power of ten per digit behind the point. -/
def literal_value (lit : List Char) : ℚ :=
  (digitsToNat (lit.filter is_digit) : ℚ) /
    (10 : ℚ) ^ ((lit.dropWhile (fun c => !decide (c = '.'))).length - 1)

/-- A digit `1` to `9`, as `IN<d>` and `CALC<d>` are written. -/
def is_digit19 (c : Char) : Bool := decide ('1'.toNat ≤ c.toNat) && decide (c.toNat ≤ '9'.toNat)

/-- The zero-based index written by the digit `d`. -/
def slot (d : Char) : Nat := d.toNat - '1'.toNat

/-- The vector of `n` coefficients whose entry at index `i` is `f i`. -/
def vec (n : Nat) (f : Nat → ℚ) : List ℚ := (List.range n).map f

/-- The vector of `n` binary64 coefficients whose entry at index `i` is `f i`. -/
def vec64 (n : Nat) (f : Nat → F64) : List F64 := (List.range n).map f

/-- What can follow a literal so that the numeric scan stops right after it:
the end of the text or a character outside digits, points and signs. -/
def delim : List Char → Bool
  | [] => true
  | c :: _ => !is_real c

/-- What the final loop of `parse_one_term` does to a result: every coefficient
and the constant are multiplied by `sign`. -/
def apply_sign (sign : ℚ) : Res (List ℚ × ℚ × List Char) → Res (List ℚ × ℚ × List Char)
  | .ok (a, b, s) => .ok (a.map (fun x => x * sign), b * sign, s)
  | .error => .error
  | .nofuel => .nofuel

/-- The text ` op c1 op c2 ...`: every literal of `cs` preceded by the operator
character `op` between two blanks. -/
def op_chain (op : Char) : List (List Char) → List Char
  | [] => []
  | c :: cs => ' ' :: op :: ' ' :: (c ++ op_chain op cs)

/-- A term of an equation text: a plain literal or an input reference `IN<d>`. -/
inductive Atom where
  | lit (text : List Char)
  | inp (d : Char)

/-- How the term is written. -/
def Atom.text : Atom → List Char
  | .lit t => t
  | .inp d => ['I', 'N', d]

/-- The term is a plain literal, or an input reference with a digit from 1 to 9
that names one of the `n` slots. -/
def Atom.wf (n : Nat) : Atom → Bool
  | .lit t => is_literal t
  | .inp d => is_digit19 d && decide (slot d < n)

/-- The term carries a variable. -/
def Atom.is_var : Atom → Bool
  | .lit _ => false
  | .inp _ => true

/-- The affine form a term stands for: the coefficient at every index, and the constant. -/
def Atom.form : Atom → (Nat → ℚ) × ℚ
  | .lit t => (fun _ => 0, literal_value t)
  | .inp d => (fun i => if i = slot d then 1 else 0, 0)

/-- Sum of two affine forms. -/
def form_add (F G : (Nat → ℚ) × ℚ) : (Nat → ℚ) × ℚ :=
  (fun i => F.1 i + G.1 i, F.2 + G.2)

/-- Product of two affine forms of which at most one carries a variable. -/
def form_mul (F G : (Nat → ℚ) × ℚ) : (Nat → ℚ) × ℚ :=
  (fun i => F.1 i * G.2 + G.1 i * F.2, F.2 * G.2)

/-- The text ` + t1 + t2 ...`: every term of `ts` preceded by `+` between two blanks. -/
def plus_chain : List Atom → List Char
  | [] => []
  | t :: ts => ' ' :: '+' :: ' ' :: (t.text ++ plus_chain ts)

/-- The term is the input reference whose zero-based index is `i`. -/
def Atom.refers (i : Nat) : Atom → Bool
  | .lit _ => false
  | .inp d => decide (slot d = i)

/-- The number of terms of `ts` that are the input reference of index `i`. -/
def occurrences (ts : List Atom) (i : Nat) : Nat := ts.countP (Atom.refers i)

/-- The sum of the values of the literals among `ts`. -/
def literal_sum (ts : List Atom) : ℚ :=
  (ts.map (fun t => match t with
    | .lit c => literal_value c
    | .inp _ => 0)).sum

/-! ## Coefficient vectors -/

theorem replicate_eq_vec (n : Nat) (x : ℚ) : List.replicate n x = vec n (fun _ => x) := by
  apply List.ext_getElem <;> simp [vec]

theorem vec_length (n : Nat) (f : Nat → ℚ) : (vec n f).length = n := by simp [vec]

theorem vec_map (n : Nat) (f : Nat → ℚ) (g : ℚ → ℚ) :
    (vec n f).map g = vec n (fun i => g (f i)) := by
  simp [vec, Function.comp_def]

theorem vec_zipWith (n : Nat) (f g : Nat → ℚ) (h : ℚ → ℚ → ℚ) :
    List.zipWith h (vec n f) (vec n g) = vec n (fun i => h (f i) (g i)) := by
  apply List.ext_getElem <;> simp [vec]

theorem vec_set (n : Nat) (f : Nat → ℚ) (i : Nat) (x : ℚ) :
    (vec n f).set i x = vec n (fun j => if j = i then x else f j) := by
  apply List.ext_getElem
  · simp [vec]
  · intro j h1 h2
    simp only [vec, List.getElem_set, List.getElem_map, List.getElem_range]
    by_cases h : i = j
    · simp [h]
    · simp [h, Ne.symm h]

theorem vec_all (n : Nat) (f : Nat → ℚ) (p : ℚ → Bool) :
    (vec n f).all p = true ↔ ∀ i, i < n → p (f i) = true := by
  simp [vec]

theorem vec_congr (n : Nat) (f g : Nat → ℚ) (h : ∀ i, i < n → f i = g i) :
    vec n f = vec n g := by
  apply List.map_congr_left
  intro i hi
  exact h i (List.mem_range.mp hi)

/-! ## The tokenizer on the pieces of an equation text -/

theorem parse_tok_ws (c : Char) (s : List Char) (h : is_ws c = true) :
    parse_tok (c :: s) = parse_tok s := by
  simp [parse_tok, skip_ws, h]

theorem parse_tok_space (s : List Char) : parse_tok (' ' :: s) = parse_tok s :=
  parse_tok_ws ' ' s (by decide)

theorem parse_tok_op (c : Char) (s : List Char) (hws : is_ws c = false)
    (h : op_tok c ≠ .INVALID) : parse_tok (c :: s) = (some (op_tok c), s) := by
  simp [parse_tok, skip_ws, hws, h]

theorem parse_tok_eq (s : List Char) : parse_tok ('=' :: s) = (some .EQ, s) :=
  parse_tok_op '=' s (by decide) (by decide)

theorem parse_tok_mul (s : List Char) : parse_tok ('*' :: s) = (some .MUL, s) :=
  parse_tok_op '*' s (by decide) (by decide)

theorem parse_tok_div (s : List Char) : parse_tok ('/' :: s) = (some .DIV, s) :=
  parse_tok_op '/' s (by decide) (by decide)

theorem parse_tok_add (s : List Char) : parse_tok ('+' :: s) = (some .ADD, s) :=
  parse_tok_op '+' s (by decide) (by decide)

theorem parse_tok_sub (s : List Char) : parse_tok ('-' :: s) = (some .SUB, s) :=
  parse_tok_op '-' s (by decide) (by decide)

theorem parse_tok_lpar (s : List Char) : parse_tok ('(' :: s) = (some .LPAR, s) :=
  parse_tok_op '(' s (by decide) (by decide)

theorem parse_tok_rpar (s : List Char) : parse_tok (')' :: s) = (some .RPAR, s) :=
  parse_tok_op ')' s (by decide) (by decide)

theorem parse_tok_nil : parse_tok [] = (none, []) := by
  simp [parse_tok, skip_ws]

theorem parse_tok_IN (d : Char) (s : List Char) :
    parse_tok ('I' :: 'N' :: d :: s) = (some (.IN (digit_index d)), s) := by
  have h1 : is_ws 'I' = false := by decide
  have h2 : op_tok 'I' = .INVALID := by decide
  have h3 : is_real 'I' = false := by decide
  simp [parse_tok, skip_ws, h1, h2, parse_real, scan_real, h3, parse_in, parse_in_or_calc]

theorem parse_tok_CALC (d : Char) (s : List Char) :
    parse_tok ('C' :: 'A' :: 'L' :: 'C' :: d :: s) = (some (.CALC (digit_index d)), s) := by
  have h1 : is_ws 'C' = false := by decide
  have h2 : op_tok 'C' = .INVALID := by decide
  have h3 : is_real 'C' = false := by decide
  simp [parse_tok, skip_ws, h1, h2, parse_real, scan_real, h3, parse_in, parse_calc,
    parse_in_or_calc]

theorem digit_index_of_digit19 (d : Char) (h : is_digit19 d = true) :
    digit_index d = slot d := by
  simp only [is_digit19, Bool.and_eq_true, decide_eq_true_eq] at h
  have h1 : '1'.toNat = 49 := by decide
  have h9 : '9'.toNat = 57 := by decide
  simp only [digit_index, slot, h1]
  omega

/-! ## Literals -/

theorem is_digit_facts (c : Char) (h : is_digit c = true) :
    is_ws c = false ∧ op_tok c = .INVALID ∧ is_real c = true ∧ c ≠ '.' ∧ c ≠ '-' ∧ c ≠ '+' := by
  have key : ∀ x : Char, is_digit x = false → c ≠ x := by
    intro x hx hcx
    rw [hcx, hx] at h
    exact Bool.false_ne_true h
  have e1 := key ' ' (by decide)
  have e2 := key '\t' (by decide)
  have e3 := key '=' (by decide)
  have e4 := key '*' (by decide)
  have e5 := key '+' (by decide)
  have e6 := key '-' (by decide)
  have e7 := key '/' (by decide)
  have e8 := key '(' (by decide)
  have e9 := key ')' (by decide)
  have e10 := key '.' (by decide)
  simp [is_ws, op_tok, is_real, h, e1, e2, e3, e4, e5, e6, e7, e8, e9, e10]

theorem litchar_facts (c : Char) (h : (is_digit c || decide (c = '.')) = true) :
    is_ws c = false ∧ op_tok c = .INVALID ∧ is_real c = true ∧ c ≠ '-' ∧ c ≠ '+' := by
  rcases Bool.or_eq_true _ _ |>.mp h with h | h
  · have := is_digit_facts c h
    tauto
  · have hc : c = '.' := of_decide_eq_true h
    subst hc
    decide

theorem scan_real_append (lit rest : List Char) (k : Nat)
    (hl : ∀ c ∈ lit, is_real c = true) (hk : lit.length < k) (hr : delim rest = true) :
    scan_real k (lit ++ rest) = (lit, rest) := by
  induction lit generalizing k with
  | nil =>
    obtain ⟨k, rfl⟩ : ∃ j, k = j + 1 := ⟨k - 1, by simp at hk; omega⟩
    cases rest with
    | nil => simp [scan_real]
    | cons c r =>
      have : is_real c = false := by simpa [delim] using hr
      simp [scan_real, this]
  | cons c l ih =>
    obtain ⟨k, rfl⟩ : ∃ j, k = j + 1 := ⟨k - 1, by simp at hk; omega⟩
    have hc : is_real c = true := hl c (by simp)
    have := ih k (fun x hx => hl x (by simp [hx])) (by simp at hk; omega)
    simp [scan_real, hc, this]

theorem spanDigits_all (s : List Char) (h : ∀ c ∈ s, is_digit c = true) :
    spanDigits s = (s, []) := by
  induction s with
  | nil => rfl
  | cons c l ih =>
    have hc : is_digit c = true := h c (by simp)
    simp [spanDigits, hc, ih (fun x hx => h x (by simp [hx]))]

theorem spanDigits_append_dot (ds r : List Char) (h : ∀ c ∈ ds, is_digit c = true) :
    spanDigits (ds ++ '.' :: r) = (ds, '.' :: r) := by
  induction ds with
  | nil =>
    have : is_digit '.' = false := by decide
    simp [spanDigits, this]
  | cons c l ih =>
    have hc : is_digit c = true := h c (by simp)
    simp [spanDigits, hc, ih (fun x hx => h x (by simp [hx]))]

/-- A plain literal is a run of digits, or a run of digits, a point and a run of digits. -/
theorem literal_shape (lit : List Char) (h : is_literal lit = true) :
    (∀ c ∈ lit, is_digit c = true) ∨
    ∃ ds fs, lit = ds ++ '.' :: fs ∧ (∀ c ∈ ds, is_digit c = true) ∧
      (∀ c ∈ fs, is_digit c = true) := by
  simp only [is_literal, Bool.and_eq_true, List.all_eq_true, decide_eq_true_eq,
    Bool.or_eq_true] at h
  obtain ⟨⟨⟨hall, hcount⟩, -⟩, -⟩ := h
  clear * - hall hcount
  induction lit with
  | nil => left; simp
  | cons c l ih =>
    by_cases hc : c = '.'
    · subst hc
      right
      refine ⟨[], l, rfl, by simp, ?_⟩
      intro x hx
      have hx2 : x ≠ '.' := by
        intro hxe
        subst hxe
        have : 0 < List.count '.' l := List.count_pos_iff.mpr hx
        simp [List.count_cons] at hcount
        omega
      rcases hall x (by simp [hx]) with h | h
      · exact h
      · exact absurd h hx2
    · have hcd : is_digit c = true := by
        rcases hall c (by simp) with h | h
        · exact h
        · exact absurd h hc
      have hcount2 : List.count '.' l ≤ 1 := by
        have : List.count '.' l ≤ List.count '.' (c :: l) := by
          simp [List.count_cons]
        omega
      rcases ih (fun x hx => hall x (by simp [hx])) hcount2 with h | ⟨ds, fs, rfl, h1, h2⟩
      · left
        intro x hx
        rcases List.mem_cons.mp hx with rfl | hx
        · exact hcd
        · exact h x hx
      · right
        refine ⟨c :: ds, fs, rfl, ?_, h2⟩
        intro x hx
        rcases List.mem_cons.mp hx with rfl | hx
        · exact hcd
        · exact h1 x hx

theorem dropWhile_ne_dot_digits (ds r : List Char) (h : ∀ c ∈ ds, is_digit c = true) :
    (ds ++ r).dropWhile (fun c => !decide (c = '.')) = r.dropWhile (fun c => !decide (c = '.')) := by
  induction ds with
  | nil => rfl
  | cons c l ih =>
    have hc : c ≠ '.' := (is_digit_facts c (h c (by simp))).2.2.2.1
    simp [List.dropWhile, hc, ih (fun x hx => h x (by simp [hx]))]

theorem strtod_unsigned_literal (lit : List Char) (h : is_literal lit = true) :
    strtod_unsigned lit = literal_value lit := by
  have hany : ∃ c ∈ lit, is_digit c = true := by
    simp only [is_literal, Bool.and_eq_true, List.any_eq_true] at h
    exact h.1.2
  rcases literal_shape lit h with hd | ⟨ds, fs, rfl, h1, h2⟩
  · have hne : lit.length ≠ 0 := by
      obtain ⟨c, hc, -⟩ := hany
      exact List.length_pos_of_mem hc |>.ne'
    have e1 : lit.filter is_digit = lit := List.filter_eq_self.mpr hd
    have e2 : lit.dropWhile (fun c => !decide (c = '.')) = [] := by
      have := dropWhile_ne_dot_digits lit [] hd
      simpa using this
    simp [strtod_unsigned, literal_value, spanDigits_all lit hd, hne, e1, e2]
  · have hne : ds.length + fs.length ≠ 0 := by
      obtain ⟨c, hc, hcd⟩ := hany
      rcases List.mem_append.mp hc with hc | hc
      · have := List.length_pos_of_mem hc
        omega
      · rcases List.mem_cons.mp hc with rfl | hc
        · exact absurd hcd (by decide)
        · have := List.length_pos_of_mem hc
          omega
    have hdot : is_digit '.' = false := by decide
    have e1 : (ds ++ '.' :: fs).filter is_digit = ds ++ fs := by
      simp [List.filter_append, List.filter_cons, hdot, List.filter_eq_self.mpr h1,
        List.filter_eq_self.mpr h2]
    have e2 : (ds ++ '.' :: fs).dropWhile (fun c => !decide (c = '.')) = '.' :: fs := by
      rw [dropWhile_ne_dot_digits ds _ h1]
      simp [List.dropWhile]
    simp [strtod_unsigned, literal_value, spanDigits_append_dot ds fs h1, spanDigits_all fs h2,
      hne, e1, e2]

theorem literal_chars (lit : List Char) (h : is_literal lit = true) :
    ∀ c ∈ lit, (is_digit c || decide (c = '.')) = true := by
  simp only [is_literal, Bool.and_eq_true, List.all_eq_true] at h
  exact h.1.1.1

theorem strtod_literal (lit : List Char) (h : is_literal lit = true) :
    strtod lit = literal_value lit := by
  rw [← strtod_unsigned_literal lit h]
  cases lit with
  | nil => rfl
  | cons c l =>
    have hc := litchar_facts c (literal_chars _ h c (by simp))
    unfold strtod
    split
    · exact absurd (List.cons.inj ‹_›).1 hc.2.2.2.1
    · exact absurd (List.cons.inj ‹_›).1 hc.2.2.2.2
    · rfl

/-- The tokenizer reads a plain literal as one `REAL` token of its decimal
value when the literal is followed by the end of the text or by a character
that is no digit, point or sign. -/
theorem parse_tok_lit (lit rest : List Char) (h : is_literal lit = true)
    (hr : delim rest = true) :
    parse_tok (lit ++ rest) = (some (.REAL (literal_value lit)), rest) := by
  have hch := literal_chars lit h
  have hlen : lit.length ≤ 31 := by
    simp only [is_literal, Bool.and_eq_true, decide_eq_true_eq] at h
    exact h.2
  have hscan := scan_real_append lit rest 32
    (fun c hc => (litchar_facts c (hch c hc)).2.2.1) (by omega) hr
  cases lit with
  | nil => simp [is_literal] at h
  | cons c l =>
    have hc := litchar_facts c (hch c (by simp))
    have hl0 : (c :: l).length ≠ 0 := by simp
    have hl32 : (c :: l).length ≠ 32 := by omega
    have hpr : parse_real (c :: (l ++ rest)) = (some (literal_value (c :: l)), rest) := by
      have hs : skip_ws (c :: (l ++ rest)) = c :: (l ++ rest) := by simp [skip_ws, hc.1]
      simp only [parse_real, hs]
      rw [show c :: (l ++ rest) = (c :: l) ++ rest from rfl, hscan]
      simp only [hl0, hl32, or_self, if_false, strtod_literal _ h]
    simp [parse_tok, skip_ws, hc.1, hc.2.1, hpr]

theorem parse_tok_lit_end (lit : List Char) (h : is_literal lit = true) :
    parse_tok lit = (some (.REAL (literal_value lit)), []) := by
  simpa using parse_tok_lit lit [] h rfl

/-! ## Fuel -/

/-- More fuel never changes an outcome other than `nofuel`. -/
theorem fuel_mono (f : Nat) :
    (∀ s n sign, parse_one_term_loop f s n sign ≠ .nofuel →
      ∀ g, f ≤ g → parse_one_term_loop g s n sign = parse_one_term_loop f s n sign) ∧
    (∀ s n, parse_addsub_expr f s n ≠ .nofuel →
      ∀ g, f ≤ g → parse_addsub_expr g s n = parse_addsub_expr f s n) ∧
    (∀ s n a b, parse_addsub_expr_loop f s n a b ≠ .nofuel →
      ∀ g, f ≤ g → parse_addsub_expr_loop g s n a b = parse_addsub_expr_loop f s n a b) := by
  induction f with
  | zero =>
    refine ⟨?_, ?_, ?_⟩
    · intro s n sign h
      exact absurd (by simp [parse_one_term_loop]) h
    · intro s n h
      exact absurd (by simp [parse_addsub_expr]) h
    · intro s n a b h
      exact absurd (by simp [parse_addsub_expr_loop]) h
  | succ f ih =>
    obtain ⟨ihT, ihE, ihL⟩ := ih
    refine ⟨?_, ?_, ?_⟩
    · intro s n sign h g hg
      obtain ⟨g, rfl⟩ : ∃ j, g = j + 1 := ⟨g - 1, by omega⟩
      have hg2 : f ≤ g := by omega
      rw [parse_one_term_loop] at h
      rw [parse_one_term_loop, parse_one_term_loop]
      rcases hp : parse_tok s with ⟨_ | tok, s1⟩
      · rfl
      · cases tok <;> simp only [hp] at h ⊢
        case SUB => exact ihT _ _ _ h g hg2
        case ADD => exact ihT _ _ _ h g hg2
        case LPAR =>
          have key : parse_addsub_expr f s1 n ≠ .nofuel := by
            intro e
            rw [e] at h
            exact h rfl
          rw [ihE _ _ key g hg2]
    · intro s n h g hg
      obtain ⟨g, rfl⟩ : ∃ j, g = j + 1 := ⟨g - 1, by omega⟩
      have hg2 : f ≤ g := by omega
      rw [parse_addsub_expr] at h
      rw [parse_addsub_expr, parse_addsub_expr]
      have key : parse_one_term_loop f s n 1 ≠ .nofuel := by
        intro e
        rw [e] at h
        exact h rfl
      rw [ihT _ _ _ key g hg2]
      rcases hq : parse_one_term_loop f s n 1 with ⟨a, b, s1⟩ | _ | _
      · simp only [hq] at h ⊢
        exact ihL _ _ _ _ h g hg2
      · rfl
      · rfl
    · intro s n a b h g hg
      obtain ⟨g, rfl⟩ : ∃ j, g = j + 1 := ⟨g - 1, by omega⟩
      have hg2 : f ≤ g := by omega
      rw [parse_addsub_expr_loop] at h
      rw [parse_addsub_expr_loop, parse_addsub_expr_loop]
      rcases hp : parse_tok s with ⟨_ | tok, s1⟩
      · rfl
      · cases tok <;> simp only [hp] at h ⊢
        case EQ => exact ihL _ _ _ _ h g hg2
        case LPAR => exact ihL _ _ _ _ h g hg2
        case REAL => exact ihL _ _ _ _ h g hg2
        case CALC => exact ihL _ _ _ _ h g hg2
        case IN => exact ihL _ _ _ _ h g hg2
        case INVALID => exact ihL _ _ _ _ h g hg2
        case ADD =>
          have key : parse_addsub_expr f s1 n ≠ .nofuel := by
            intro e
            rw [e] at h
            exact h rfl
          rw [ihE _ _ key g hg2]
          rcases hq : parse_addsub_expr f s1 n with ⟨ar, br, s2⟩ | _ | _
          · simp only [hq] at h ⊢
            exact ihL _ _ _ _ h g hg2
          · rfl
          · rfl
        case SUB =>
          have key : parse_addsub_expr f s1 n ≠ .nofuel := by
            intro e
            rw [e] at h
            exact h rfl
          rw [ihE _ _ key g hg2]
          rcases hq : parse_addsub_expr f s1 n with ⟨ar, br, s2⟩ | _ | _
          · simp only [hq] at h ⊢
            exact ihL _ _ _ _ h g hg2
          · rfl
          · rfl
        case MUL =>
          have key : parse_one_term_loop f s1 n 1 ≠ .nofuel := by
            intro e
            rw [e] at h
            exact h rfl
          rw [ihT _ _ _ key g hg2]
          rcases hq : parse_one_term_loop f s1 n 1 with ⟨ar, br, s2⟩ | _ | _
          · simp only [hq] at h ⊢
            cases hm : muldiv false a b ar br with
            | none => rfl
            | some v =>
              simp only [hm] at h ⊢
              exact ihL _ _ _ _ h g hg2
          · rfl
          · rfl
        case DIV =>
          have key : parse_one_term_loop f s1 n 1 ≠ .nofuel := by
            intro e
            rw [e] at h
            exact h rfl
          rw [ihT _ _ _ key g hg2]
          rcases hq : parse_one_term_loop f s1 n 1 with ⟨ar, br, s2⟩ | _ | _
          · simp only [hq] at h ⊢
            cases hm : muldiv true a b ar br with
            | none => rfl
            | some v =>
              simp only [hm] at h ⊢
              exact ihL _ _ _ _ h g hg2
          · rfl
          · rfl

theorem parse_lineq_fuel_mono (f g : Nat) (s : List Char) (n : Nat)
    (h : parse_lineq_fuel f s n ≠ .nofuel) (hg : f ≤ g) :
    parse_lineq_fuel g s n = parse_lineq_fuel f s n := by
  unfold parse_lineq_fuel at h ⊢
  rcases hp : parse_tok s with ⟨_ | tok, s1⟩
  · rfl
  · cases tok <;> simp only [hp] at h ⊢
    case CALC id =>
      rcases hq : parse_tok s1 with ⟨_ | tok2, s2⟩
      · rfl
      · cases tok2 <;> simp only [hq] at h ⊢
        case EQ =>
          have key : parse_addsub_expr f s2 n ≠ .nofuel := by
            intro e
            rw [e] at h
            exact h rfl
          rw [(fuel_mono f).2.1 _ _ key g hg]

/-- An outcome computed with some fuel below the budget of `parse_lineq` is the
outcome of `parse_lineq`. -/
theorem parse_lineq_of_fuel (f : Nat) (s : List Char) (n : Nat) (r : Nat × List ℚ × ℚ)
    (h : parse_lineq_fuel f s n = .ok r) (hf : f ≤ 2 * s.length + 2) :
    parse_lineq s n = .ok r := by
  unfold parse_lineq
  rw [parse_lineq_fuel_mono f _ s n (by rw [h]; exact fun e => by cases e) hf, h]

theorem parse_lineq_error_of_fuel (f : Nat) (s : List Char) (n : Nat)
    (h : parse_lineq_fuel f s n = .error) (hf : f ≤ 2 * s.length + 2) :
    parse_lineq s n = .error := by
  unfold parse_lineq
  rw [parse_lineq_fuel_mono f _ s n (by rw [h]; exact fun e => by cases e) hf, h]

theorem parse_lineq_eq_of_fuel (f : Nat) (s : List Char) (n : Nat)
    (h : parse_lineq_fuel f s n ≠ .nofuel) (hf : f ≤ 2 * s.length + 2) :
    parse_lineq s n = parse_lineq_fuel f s n := by
  unfold parse_lineq
  exact parse_lineq_fuel_mono f _ s n h hf

/-! ## What may follow a literal -/

theorem delim_nil : delim [] = true := rfl

theorem delim_space (s : List Char) : delim (' ' :: s) = true := by
  simp [delim, is_real, is_digit, is_sign]

theorem delim_rpar (s : List Char) : delim (')' :: s) = true := by
  simp [delim, is_real, is_digit, is_sign]

/-! ## The zero test -/

theorem is_real_zero_iff (x : ℚ) : is_real_zero x = true ↔ |x| ≤ 1 / 1000000000 := by
  simp only [is_real_zero, epsilon, Bool.and_eq_true, decide_eq_true_eq, abs_le]
  constructor <;> rintro ⟨h1, h2⟩ <;> constructor <;> linarith

theorem is_real_zero_eq_false_iff (x : ℚ) : is_real_zero x = false ↔ 1 / 1000000000 < |x| := by
  rw [← not_le, ← is_real_zero_iff]
  simp

theorem is_real_zero_zero : is_real_zero 0 = true := by
  rw [is_real_zero_iff]
  norm_num

theorem is_real_zero_one : is_real_zero 1 = false := by
  rw [is_real_zero_eq_false_iff]
  norm_num

theorem vec_all_zero (n : Nat) : (vec n (fun _ => 0)).all is_real_zero = true := by
  rw [vec_all]
  intro i _
  exact is_real_zero_zero

theorem vec_all_false (n : Nat) (f : Nat → ℚ) (i : Nat) (hi : i < n)
    (h : is_real_zero (f i) = false) : (vec n f).all is_real_zero = false := by
  rw [← Bool.not_eq_true, vec_all]
  intro hall
  rw [hall i hi] at h
  exact Bool.noConfusion h

theorem vec_all_unit (n i : Nat) (hi : i < n) :
    (vec n (fun j => if j = i then 1 else 0)).all is_real_zero = false :=
  vec_all_false n _ i hi (by simp [is_real_zero_one])

theorem vec_all_unit_of_not_le (n i : Nat) (hi : ¬ n ≤ i) :
    (vec n (fun j => if j = i then 1 else 0)).all is_real_zero = false :=
  vec_all_unit n i (by omega)

/-! ## The `*` / `/` step -/

theorem muldiv_right_const (isDiv : Bool) (a : List ℚ) (b : ℚ) (ar : List ℚ) (br : ℚ)
    (h : ar.all is_real_zero = true) :
    muldiv isDiv a b ar br =
      some (if isDiv then
          (if is_real_zero br then (a.map (fun _ => 0), 0)
            else (a.map (fun x => x / br), b / br))
        else (a.map (fun x => x * br), b * br)) := by
  cases isDiv
  · simp [muldiv, h]
  · by_cases hz : is_real_zero br = true <;> simp [muldiv, h, hz]

theorem muldiv_left_const (isDiv : Bool) (a : List ℚ) (b : ℚ) (ar : List ℚ) (br : ℚ)
    (h : ar.all is_real_zero = false) (ha : a.all is_real_zero = true) :
    muldiv isDiv a b ar br =
      some (if isDiv then
          (if is_real_zero b then (ar.map (fun _ => 0), 0)
            else (ar.map (fun x => x / b), br / b))
        else (ar.map (fun x => x * b), br * b)) := by
  cases isDiv
  · simp [muldiv, h, ha]
  · by_cases hz : is_real_zero b = true <;> simp [muldiv, h, ha, hz]

/-! ## Signs -/

theorem apply_sign_one (r : Res (List ℚ × ℚ × List Char)) : apply_sign 1 r = r := by
  rcases r with ⟨a, b, s⟩ | _ | _
  · simp [apply_sign]
  · rfl
  · rfl

theorem parse_one_term_loop_ws (f : Nat) (c : Char) (s : List Char) (n : Nat) (sign : ℚ)
    (h : is_ws c = true) :
    parse_one_term_loop f (c :: s) n sign = parse_one_term_loop f s n sign := by
  cases f with
  | zero => simp [parse_one_term_loop]
  | succ f => rw [parse_one_term_loop, parse_one_term_loop, parse_tok_ws c s h]

/-! ## Chains of scalar operators -/

theorem delim_op_chain (op : Char) (cs : List (List Char)) : delim (op_chain op cs) = true := by
  cases cs with
  | nil => rfl
  | cons c cs => exact delim_space _

theorem op_chain_length (op : Char) (cs : List (List Char)) :
    cs.length ≤ (op_chain op cs).length := by
  induction cs with
  | nil => simp
  | cons c cs ih =>
    simp only [op_chain, List.length_cons, List.length_append]
    omega

/-! ## Two texts of the tests -/

theorem sum_then_quotient (n : Nat) (k p q : Char) (c c1 c2 d : List Char)
    (hk : is_digit19 k = true) (hp : is_digit19 p = true) (hq : is_digit19 q = true)
    (hpn : slot p < n) (hqn : slot q < n) (hc : is_literal c = true)
    (h1 : is_literal c1 = true) (h2 : is_literal c2 = true) (hd : is_literal d = true)
    (hz : is_real_zero (literal_value d) = false) :
    parse_lineq ("CALC".toList ++ [k] ++ " = ".toList ++ c ++ " + ((IN".toList ++ [p] ++
        " + ".toList ++ c1 ++ ") + (IN".toList ++ [q] ++ " + ".toList ++ c2 ++
        ")) / ".toList ++ d) n =
      .ok (slot k,
        vec n (fun i => ((if i = slot p then 1 else 0) + (if i = slot q then 1 else 0)) /
          literal_value d),
        literal_value c + (literal_value c1 + literal_value c2) / literal_value d) := by
  have hp2 : ¬ (n ≤ slot p) := by omega
  have hq2 : ¬ (n ≤ slot q) := by omega
  apply parse_lineq_of_fuel 14
  · simp [parse_lineq_fuel, parse_addsub_expr, parse_one_term_loop, parse_addsub_expr_loop,
      parse_tok_CALC, parse_tok_IN, parse_tok_space, parse_tok_eq, parse_tok_add,
      parse_tok_div, parse_tok_lpar, parse_tok_rpar, parse_tok_nil, parse_tok_lit,
      parse_tok_lit_end, delim_space, delim_rpar, digit_index_of_digit19, hk, hp, hq, hp2,
      hq2, hc, h1, h2, hd, muldiv_right_const, vec_all_zero, hz, replicate_eq_vec, vec_set,
      vec_zipWith, vec_map]
  · simp
    omega

theorem quotient_then_sum (n : Nat) (k p q : Char) (c c1 c2 d : List Char)
    (hk : is_digit19 k = true) (hp : is_digit19 p = true) (hq : is_digit19 q = true)
    (hpn : slot p < n) (hqn : slot q < n) (hc : is_literal c = true)
    (h1 : is_literal c1 = true) (h2 : is_literal c2 = true) (hd : is_literal d = true)
    (hz : is_real_zero (literal_value d) = false) :
    parse_lineq ("CALC".toList ++ [k] ++ " = ((IN".toList ++ [p] ++ " + ".toList ++ c1 ++
        ") + (IN".toList ++ [q] ++ " + ".toList ++ c2 ++ ")) / ".toList ++ d ++
        " + ".toList ++ c) n =
      .ok (slot k,
        vec n (fun i => ((if i = slot p then 1 else 0) + (if i = slot q then 1 else 0)) /
          literal_value d),
        (literal_value c1 + literal_value c2) / literal_value d + literal_value c) := by
  have hp2 : ¬ (n ≤ slot p) := by omega
  have hq2 : ¬ (n ≤ slot q) := by omega
  apply parse_lineq_of_fuel 14
  · simp [parse_lineq_fuel, parse_addsub_expr, parse_one_term_loop, parse_addsub_expr_loop,
      parse_tok_CALC, parse_tok_IN, parse_tok_space, parse_tok_eq, parse_tok_add,
      parse_tok_div, parse_tok_lpar, parse_tok_rpar, parse_tok_nil, parse_tok_lit,
      parse_tok_lit_end, delim_space, delim_rpar, digit_index_of_digit19, hk, hp, hq, hp2,
      hq2, hc, h1, h2, hd, muldiv_right_const, vec_all_zero, hz, replicate_eq_vec, vec_set,
      vec_zipWith, vec_map]
  · simp
    omega

theorem half_half_vec (n : Nat) :
    vec n (fun i => ((if i = 1 then 1 else 0) + (if i = 2 then 1 else 0)) / (2 : ℚ)) =
      vec n (fun i => if i = 1 ∨ i = 2 then 1 / 2 else 0) := by
  apply vec_congr
  intro i _
  by_cases e1 : i = 1 <;> by_cases e2 : i = 2 <;> simp [e1, e2]

theorem test_sum_then_quotient (n : Nat) (hn : 3 ≤ n) :
    parse_lineq "CALC4 = 4.68 + ((IN2 + 3) + (IN3 + 5)) / 2".toList n =
      .ok (3, vec n (fun i => if i = 1 ∨ i = 2 then 1 / 2 else 0), 868 / 100) := by
  have v2 : literal_value "2".toList = 2 := by with_unfolding_all decide
  have v3 : literal_value "3".toList = 3 := by with_unfolding_all decide
  have v5 : literal_value "5".toList = 5 := by with_unfolding_all decide
  have v : literal_value "4.68".toList = 468 / 100 := by with_unfolding_all decide
  have h := sum_then_quotient n '4' '2' '3' "4.68".toList "3".toList "5".toList "2".toList
    (by decide) (by decide) (by decide) (by simp [slot]; omega) (by simp [slot]; omega)
    (by decide) (by decide) (by decide) (by decide)
    (by rw [v2, is_real_zero_eq_false_iff]; norm_num)
  have e1 : "CALC".toList ++ ['4'] ++ " = ".toList ++ "4.68".toList ++ " + ((IN".toList ++
      ['2'] ++ " + ".toList ++ "3".toList ++ ") + (IN".toList ++ ['3'] ++ " + ".toList ++
      "5".toList ++ ")) / ".toList ++ "2".toList =
      "CALC4 = 4.68 + ((IN2 + 3) + (IN3 + 5)) / 2".toList := by decide
  have s4 : slot '4' = 3 := by decide
  have s2 : slot '2' = 1 := by decide
  have s3 : slot '3' = 2 := by decide
  have ec : (468 / 100 : ℚ) + (3 + 5) / 2 = 868 / 100 := by norm_num
  rw [e1, v, v2, v3, v5, s4, s2, s3, half_half_vec, ec] at h
  exact h

theorem test_quotient_then_sum (n : Nat) (hn : 3 ≤ n) :
    parse_lineq "CALC4 = ((IN2 + 3) + (IN3 + 5)) / 2 + 4.68".toList n =
      .ok (3, vec n (fun i => if i = 1 ∨ i = 2 then 1 / 2 else 0), 868 / 100) := by
  have v2 : literal_value "2".toList = 2 := by with_unfolding_all decide
  have v3 : literal_value "3".toList = 3 := by with_unfolding_all decide
  have v5 : literal_value "5".toList = 5 := by with_unfolding_all decide
  have v : literal_value "4.68".toList = 468 / 100 := by with_unfolding_all decide
  have h := quotient_then_sum n '4' '2' '3' "4.68".toList "3".toList "5".toList "2".toList
    (by decide) (by decide) (by decide) (by simp [slot]; omega) (by simp [slot]; omega)
    (by decide) (by decide) (by decide) (by decide)
    (by rw [v2, is_real_zero_eq_false_iff]; norm_num)
  have e1 : "CALC".toList ++ ['4'] ++ " = ((IN".toList ++ ['2'] ++ " + ".toList ++
      "3".toList ++ ") + (IN".toList ++ ['3'] ++ " + ".toList ++ "5".toList ++
      ")) / ".toList ++ "2".toList ++ " + ".toList ++ "4.68".toList =
      "CALC4 = ((IN2 + 3) + (IN3 + 5)) / 2 + 4.68".toList := by decide
  have s4 : slot '4' = 3 := by decide
  have s2 : slot '2' = 1 := by decide
  have s3 : slot '3' = 2 := by decide
  have ec : ((3 : ℚ) + 5) / 2 + 468 / 100 = 868 / 100 := by norm_num
  rw [e1, v, v2, v3, v5, s4, s2, s3, half_half_vec, ec] at h
  exact h

/-! ## The cursor only moves forward -/

theorem skip_ws_suffix (s : List Char) : skip_ws s <:+ s := by
  induction s with
  | nil => exact List.suffix_refl _
  | cons c s ih =>
    unfold skip_ws
    split
    · exact ih.trans (List.suffix_cons c s)
    · exact List.suffix_refl _

theorem scan_real_append_eq (k : Nat) (s : List Char) :
    (scan_real k s).1 ++ (scan_real k s).2 = s := by
  induction k generalizing s with
  | zero => simp [scan_real]
  | succ k ih =>
    cases s with
    | nil => simp [scan_real]
    | cons c s =>
      unfold scan_real
      split
      · simp [ih s]
      · simp

theorem parse_real_suffix (s : List Char) : (parse_real s).2 <:+ s := by
  have h := scan_real_append_eq 32 (skip_ws s)
  have h2 : (scan_real 32 (skip_ws s)).2 <:+ skip_ws s := ⟨_, h⟩
  unfold parse_real
  dsimp only
  split <;> exact h2.trans (skip_ws_suffix s)

theorem parse_real_length (s : List Char) (x : ℚ) (s1 : List Char)
    (h : parse_real s = (some x, s1)) : s1.length < s.length := by
  have h1 := scan_real_append_eq 32 (skip_ws s)
  have h2 := (skip_ws_suffix s).length_le
  have h3 := congrArg List.length h1
  rw [List.length_append] at h3
  unfold parse_real at h
  dsimp only at h
  split at h
  · cases h
  · rename_i hne
    simp only [Prod.mk.injEq] at h
    rw [← h.2]
    have : (scan_real 32 (skip_ws s)).1.length ≠ 0 := fun e => hne (Or.inl e)
    omega

theorem parse_in_or_calc_suffix (s p : List Char) : (parse_in_or_calc s p).2 <:+ s := by
  unfold parse_in_or_calc
  dsimp only
  split
  · exact skip_ws_suffix s
  · split
    · exact skip_ws_suffix s
    · split
      · rename_i c r hd
        have h1 : List.drop p.length (skip_ws s) <:+ skip_ws s := List.drop_suffix _ _
        rw [hd] at h1
        exact ((List.suffix_cons c r).trans h1).trans (skip_ws_suffix s)
      · exact skip_ws_suffix s

theorem parse_in_or_calc_length (s p : List Char) (x : Nat) (s1 : List Char)
    (h : parse_in_or_calc s p = (some x, s1)) : s1.length < s.length := by
  have h2 := (skip_ws_suffix s).length_le
  unfold parse_in_or_calc at h
  dsimp only at h
  split at h
  · cases h
  · split at h
    · cases h
    · split at h
      · rename_i c r hd
        simp only [Prod.mk.injEq] at h
        rw [← h.2]
        have h1 : (List.drop p.length (skip_ws s)).length ≤ (skip_ws s).length := by
          simp
        rw [hd] at h1
        simp only [List.length_cons] at h1
        omega
      · cases h

/-- The cursor left by `parse_tok` is a suffix of the one it was given. -/
theorem parse_tok_suffix (s : List Char) : (parse_tok s).2 <:+ s := by
  unfold parse_tok
  split
  · exact List.nil_suffix
  · rename_i c r hs
    have h0 : c :: r <:+ s := hs ▸ skip_ws_suffix s
    split
    · exact (List.suffix_cons c r).trans h0
    · have h1 := parse_real_suffix (c :: r)
      split
      · rename_i x s1 hr
        rw [hr] at h1
        exact h1.trans h0
      · rename_i s1 hr
        rw [hr] at h1
        have h2 := parse_in_or_calc_suffix s1 ['I', 'N']
        unfold parse_in
        split
        · rename_i id s2 hi
          rw [hi] at h2
          exact (h2.trans h1).trans h0
        · rename_i s2 hi
          rw [hi] at h2
          have h3 := parse_in_or_calc_suffix s2 ['C', 'A', 'L', 'C']
          unfold parse_calc
          split
          · rename_i id s3 hc
            rw [hc] at h3
            exact ((h3.trans h2).trans h1).trans h0
          · rename_i s3 hc
            rw [hc] at h3
            exact ((h3.trans h2).trans h1).trans h0

/-- A successful `parse_tok` leaves strictly fewer characters. -/
theorem parse_tok_length (s : List Char) (tok : lineq_tok) (s1 : List Char)
    (h : parse_tok s = (some tok, s1)) : s1.length < s.length := by
  unfold parse_tok at h
  split at h
  · cases h
  · rename_i c r hs
    have h0 : (c :: r).length ≤ s.length := (hs ▸ skip_ws_suffix s).length_le
    simp only [List.length_cons] at h0
    split at h
    · simp only [Prod.mk.injEq] at h
      rw [← h.2]
      omega
    · split at h
      · rename_i x s2 hr
        have h1 := parse_real_length _ _ _ hr
        simp only [Prod.mk.injEq] at h
        rw [← h.2]
        simp only [List.length_cons] at h1
        omega
      · rename_i s2 hr
        have h1 : s2.length ≤ (c :: r).length := by
          have := (parse_real_suffix (c :: r)).length_le
          rwa [hr] at this
        simp only [List.length_cons] at h1
        unfold parse_in at h
        split at h
        · rename_i id s3 hi
          have h2 := parse_in_or_calc_length _ _ _ _ hi
          simp only [Prod.mk.injEq] at h
          rw [← h.2]
          omega
        · rename_i s3 hi
          have h2 : s3.length ≤ s2.length := by
            have := (parse_in_or_calc_suffix s2 ['I', 'N']).length_le
            rwa [hi] at this
          unfold parse_calc at h
          split at h
          · rename_i id s4 hc
            have h3 := parse_in_or_calc_length _ _ _ _ hc
            simp only [Prod.mk.injEq] at h
            rw [← h.2]
            omega
          · cases h

theorem parse_tok_suffix_of_eq (s : List Char) (t : Option lineq_tok) (s1 : List Char)
    (h : parse_tok s = (t, s1)) : s1 <:+ s := by
  have := parse_tok_suffix s
  rwa [h] at this

/-- On success the term and the expression parser leave a strict suffix of
their cursor, and the operator loop leaves a suffix. -/
theorem parsers_cursor (f : Nat) :
    (∀ s n sign a b s', parse_one_term_loop f s n sign = .ok (a, b, s') →
      s' <:+ s ∧ s'.length < s.length) ∧
    (∀ s n a b s', parse_addsub_expr f s n = .ok (a, b, s') →
      s' <:+ s ∧ s'.length < s.length) ∧
    (∀ s n a0 b0 a b s', parse_addsub_expr_loop f s n a0 b0 = .ok (a, b, s') → s' <:+ s) := by
  induction f with
  | zero =>
    refine ⟨?_, ?_, ?_⟩
    · intro s n sign a b s' h
      simp [parse_one_term_loop] at h
    · intro s n a b s' h
      simp [parse_addsub_expr] at h
    · intro s n a0 b0 a b s' h
      simp [parse_addsub_expr_loop] at h
  | succ f ih =>
    obtain ⟨ihT, ihE, ihL⟩ := ih
    refine ⟨?_, ?_, ?_⟩
    · intro s n sign a b s' h
      rw [parse_one_term_loop] at h
      rcases hp : parse_tok s with ⟨_ | tok, s1⟩
      · simp [hp] at h
      · have hs1 := parse_tok_suffix_of_eq _ _ _ hp
        have hl1 := parse_tok_length _ _ _ hp
        cases tok <;> simp only [hp] at h
        case SUB =>
          obtain ⟨h1, h2⟩ := ihT _ _ _ _ _ _ h
          exact ⟨h1.trans hs1, by omega⟩
        case ADD =>
          obtain ⟨h1, h2⟩ := ihT _ _ _ _ _ _ h
          exact ⟨h1.trans hs1, by omega⟩
        case LPAR =>
          rcases he : parse_addsub_expr f s1 n with ⟨a1, b1, s2⟩ | _ | _
          · simp only [he] at h
            obtain ⟨h1, h2⟩ := ihE _ _ _ _ _ he
            rcases hq : parse_tok s2 with ⟨_ | tok2, s3⟩
            · simp [hq] at h
            · have hs3 := parse_tok_suffix_of_eq _ _ _ hq
              have hl3 := parse_tok_length _ _ _ hq
              cases tok2 <;> simp only [hq] at h
              case RPAR =>
                simp only [Res.ok.injEq, Prod.mk.injEq] at h
                obtain ⟨-, -, rfl⟩ := h
                exact ⟨(hs3.trans h1).trans hs1, by omega⟩
              all_goals cases h
          · simp [he] at h
          · simp [he] at h
        case IN id =>
          split at h
          · cases h
          · simp only [Res.ok.injEq, Prod.mk.injEq] at h
            obtain ⟨-, -, rfl⟩ := h
            exact ⟨hs1, hl1⟩
        case REAL x =>
          simp only [Res.ok.injEq, Prod.mk.injEq] at h
          obtain ⟨-, -, rfl⟩ := h
          exact ⟨hs1, hl1⟩
        all_goals cases h
    · intro s n a b s' h
      rw [parse_addsub_expr] at h
      rcases ht : parse_one_term_loop f s n 1 with ⟨a1, b1, s1⟩ | _ | _
      · simp only [ht] at h
        obtain ⟨h1, h2⟩ := ihT _ _ _ _ _ _ ht
        have h3 := ihL _ _ _ _ _ _ _ h
        exact ⟨h3.trans h1, by have := h3.length_le; omega⟩
      · simp [ht] at h
      · simp [ht] at h
    · intro s n a0 b0 a b s' h
      rw [parse_addsub_expr_loop] at h
      rcases hp : parse_tok s with ⟨_ | tok, s1⟩
      · simp only [hp, Res.ok.injEq, Prod.mk.injEq] at h
        obtain ⟨-, -, rfl⟩ := h
        exact parse_tok_suffix_of_eq _ _ _ hp
      · have hs1 := parse_tok_suffix_of_eq _ _ _ hp
        cases tok <;> simp only [hp] at h
        case RPAR =>
          simp only [Res.ok.injEq, Prod.mk.injEq] at h
          obtain ⟨-, -, rfl⟩ := h
          exact List.suffix_refl _
        case ADD =>
          rcases he : parse_addsub_expr f s1 n with ⟨ar, br, s2⟩ | _ | _
          · simp only [he] at h
            exact ((ihL _ _ _ _ _ _ _ h).trans (ihE _ _ _ _ _ he).1).trans hs1
          · simp [he] at h
          · simp [he] at h
        case SUB =>
          rcases he : parse_addsub_expr f s1 n with ⟨ar, br, s2⟩ | _ | _
          · simp only [he] at h
            exact ((ihL _ _ _ _ _ _ _ h).trans (ihE _ _ _ _ _ he).1).trans hs1
          · simp [he] at h
          · simp [he] at h
        case MUL =>
          rcases he : parse_one_term_loop f s1 n 1 with ⟨ar, br, s2⟩ | _ | _
          · simp only [he] at h
            cases hm : muldiv false a0 b0 ar br with
            | none => simp [hm] at h
            | some v =>
              simp only [hm] at h
              exact ((ihL _ _ _ _ _ _ _ h).trans (ihT _ _ _ _ _ _ he).1).trans hs1
          · simp [he] at h
          · simp [he] at h
        case DIV =>
          rcases he : parse_one_term_loop f s1 n 1 with ⟨ar, br, s2⟩ | _ | _
          · simp only [he] at h
            cases hm : muldiv true a0 b0 ar br with
            | none => simp [hm] at h
            | some v =>
              simp only [hm] at h
              exact ((ihL _ _ _ _ _ _ _ h).trans (ihT _ _ _ _ _ _ he).1).trans hs1
          · simp [he] at h
          · simp [he] at h
        all_goals exact (ihL _ _ _ _ _ _ _ h).trans hs1

/-- Fuel above twice the remaining length is never used up. -/
theorem fuel_enough (f : Nat) :
    (∀ s n sign, 2 * s.length + 1 ≤ f → parse_one_term_loop f s n sign ≠ .nofuel) ∧
    (∀ s n, 2 * s.length + 2 ≤ f → parse_addsub_expr f s n ≠ .nofuel) ∧
    (∀ s n a b, 2 * s.length + 1 ≤ f → parse_addsub_expr_loop f s n a b ≠ .nofuel) := by
  induction f with
  | zero =>
    refine ⟨?_, ?_, ?_⟩
    · intro s n sign h
      omega
    · intro s n h
      omega
    · intro s n a b h
      omega
  | succ f ih =>
    obtain ⟨ihT, ihE, ihL⟩ := ih
    have hcur := parsers_cursor f
    refine ⟨?_, ?_, ?_⟩
    · intro s n sign hf
      rw [parse_one_term_loop]
      rcases hp : parse_tok s with ⟨_ | tok, s1⟩
      · simp
      · have hl1 := parse_tok_length _ _ _ hp
        cases tok <;> simp only
        case SUB => exact ihT _ _ _ (by omega)
        case ADD => exact ihT _ _ _ (by omega)
        case LPAR =>
          have hE := ihE s1 n (by omega)
          rcases he : parse_addsub_expr f s1 n with ⟨a1, b1, s2⟩ | _ | _
          · simp only
            rcases hq : parse_tok s2 with ⟨_ | tok2, s3⟩
            · simp
            · cases tok2 <;> simp
          · simp
          · exact absurd he hE
        case IN id =>
          split <;> simp
        all_goals simp
    · intro s n hf
      rw [parse_addsub_expr]
      have hT := ihT s n 1 (by omega)
      rcases ht : parse_one_term_loop f s n 1 with ⟨a1, b1, s1⟩ | _ | _
      · simp only
        have := (hcur.1 _ _ _ _ _ _ ht).2
        exact ihL _ _ _ _ (by omega)
      · simp
      · exact absurd ht hT
    · intro s n a b hf
      rw [parse_addsub_expr_loop]
      rcases hp : parse_tok s with ⟨_ | tok, s1⟩
      · simp
      · have hl1 := parse_tok_length _ _ _ hp
        cases tok <;> simp only
        case RPAR => simp
        case ADD =>
          have hE := ihE s1 n (by omega)
          rcases he : parse_addsub_expr f s1 n with ⟨ar, br, s2⟩ | _ | _
          · simp only
            have := (hcur.2.1 _ _ _ _ _ he).2
            exact ihL _ _ _ _ (by omega)
          · simp
          · exact absurd he hE
        case SUB =>
          have hE := ihE s1 n (by omega)
          rcases he : parse_addsub_expr f s1 n with ⟨ar, br, s2⟩ | _ | _
          · simp only
            have := (hcur.2.1 _ _ _ _ _ he).2
            exact ihL _ _ _ _ (by omega)
          · simp
          · exact absurd he hE
        case MUL =>
          have hT := ihT s1 n 1 (by omega)
          rcases he : parse_one_term_loop f s1 n 1 with ⟨ar, br, s2⟩ | _ | _
          · simp only
            have := (hcur.1 _ _ _ _ _ _ he).2
            cases hm : muldiv false a b ar br with
            | none => simp
            | some v => exact ihL _ _ _ _ (by omega)
          · simp
          · exact absurd he hT
        case DIV =>
          have hT := ihT s1 n 1 (by omega)
          rcases he : parse_one_term_loop f s1 n 1 with ⟨ar, br, s2⟩ | _ | _
          · simp only
            have := (hcur.1 _ _ _ _ _ _ he).2
            cases hm : muldiv true a b ar br with
            | none => simp
            | some v => exact ihL _ _ _ _ (by omega)
          · simp
          · exact absurd he hT
        all_goals exact ihL _ _ _ _ (by omega)

/-- The function `parse_lineq` never runs out of fuel. -/
theorem parse_lineq_ne_nofuel (s : List Char) (n : Nat) : parse_lineq s n ≠ .nofuel := by
  unfold parse_lineq parse_lineq_fuel
  rcases hp : parse_tok s with ⟨_ | tok, s1⟩
  · simp
  · have hl1 := parse_tok_length _ _ _ hp
    cases tok <;> simp only
    case CALC id =>
      rcases hq : parse_tok s1 with ⟨_ | tok2, s2⟩
      · simp
      · have hl2 := parse_tok_length _ _ _ hq
        cases tok2 <;> simp only
        case EQ =>
          have hE := (fuel_enough (2 * s.length + 2)).2.1 s2 n (by omega)
          rcases he : parse_addsub_expr (2 * s.length + 2) s2 n with ⟨a, b, s3⟩ | _ | _
          · simp
          · simp
          · exact absurd he hE
        all_goals simp
    all_goals simp

/-! ## Sums of terms -/

theorem delim_plus_chain (ts : List Atom) : delim (plus_chain ts) = true := by
  cases ts with
  | nil => rfl
  | cons t ts => exact delim_space _

theorem plus_chain_length (ts : List Atom) : ts.length ≤ (plus_chain ts).length := by
  induction ts with
  | nil => simp
  | cons t ts ih =>
    simp only [plus_chain, List.length_cons, List.length_append]
    omega

theorem parse_one_term_atom (f n : Nat) (t : Atom) (rest : List Char)
    (hw : t.wf n = true) (hd : delim rest = true) :
    parse_one_term_loop (f + 1) (t.text ++ rest) n 1 = .ok (vec n t.form.1, t.form.2, rest) := by
  cases t with
  | lit c =>
    simp only [Atom.wf] at hw
    simp [Atom.text, Atom.form, parse_one_term_loop, parse_tok_lit _ _ hw hd, replicate_eq_vec,
      vec_map]
  | inp d =>
    simp only [Atom.wf, Bool.and_eq_true, decide_eq_true_eq, ← not_le] at hw
    simp [Atom.text, Atom.form, parse_one_term_loop, parse_tok_IN, digit_index_of_digit19, hw,
      replicate_eq_vec, vec_set, vec_map]

theorem parse_addsub_expr_ws (f : Nat) (c : Char) (s : List Char) (n : Nat)
    (h : is_ws c = true) : parse_addsub_expr f (c :: s) n = parse_addsub_expr f s n := by
  cases f with
  | zero => simp [parse_addsub_expr]
  | succ f => rw [parse_addsub_expr, parse_addsub_expr, parse_one_term_loop_ws _ c _ _ _ h]

theorem occurrences_cons (t : Atom) (ts : List Atom) (i : Nat) :
    ((occurrences (t :: ts) i : Nat) : ℚ) = t.form.1 i + (occurrences ts i : ℚ) := by
  cases t with
  | lit c => simp [occurrences, Atom.refers, Atom.form, List.countP_cons]
  | inp d =>
    by_cases h : slot d = i
    · simp [occurrences, Atom.refers, Atom.form, List.countP_cons, h, add_comm]
    · have h2 : ¬ i = slot d := fun e => h e.symm
      simp [occurrences, Atom.refers, Atom.form, List.countP_cons, h, h2]

theorem literal_sum_cons (t : Atom) (ts : List Atom) :
    literal_sum (t :: ts) = t.form.2 + literal_sum ts := by
  cases t <;> simp [literal_sum, Atom.form]

theorem parse_addsub_expr_plus_chain (n : Nat) (ts : List Atom) :
    ∀ (t : Atom) (f : Nat), 2 * (ts.length + 1) ≤ f → t.wf n = true →
      (∀ u ∈ ts, u.wf n = true) →
      parse_addsub_expr f (t.text ++ plus_chain ts) n =
        .ok (vec n (fun i => (occurrences (t :: ts) i : ℚ)), literal_sum (t :: ts), []) := by
  induction ts with
  | nil =>
    intro t f hf hw _
    obtain ⟨g, rfl⟩ : ∃ j, f = j + 2 := ⟨f - 2, by simp at hf; omega⟩
    rw [parse_addsub_expr, plus_chain, parse_one_term_atom g n t [] hw rfl]
    simp only [parse_addsub_expr_loop, parse_tok_nil]
    congr 2
    · apply vec_congr
      intro i _
      rw [occurrences_cons]
      simp [occurrences]
    · rw [literal_sum_cons]
      simp [literal_sum]
  | cons u us ih =>
    intro t f hf hw hts
    obtain ⟨g, rfl⟩ : ∃ j, f = j + 2 := ⟨f - 2, by simp at hf; omega⟩
    have hg : 2 * (us.length + 1) ≤ g := by simp at hf; omega
    obtain ⟨g', rfl⟩ : ∃ j, g = j + 1 := ⟨g - 1, by omega⟩
    have ih2 := ih u (g' + 1) hg (hts u (by simp)) (fun x hx => hts x (by simp [hx]))
    rw [parse_addsub_expr, parse_one_term_atom (g' + 1) n t _ hw (delim_plus_chain _)]
    simp only [plus_chain, parse_addsub_expr_loop, parse_tok_space, parse_tok_add]
    rw [parse_addsub_expr_ws _ ' ' _ _ (by decide), ih2]
    simp only [parse_tok_nil, vec_zipWith]
    congr 2
    · apply vec_congr
      intro i _
      rw [occurrences_cons t]
      simp
    · rw [literal_sum_cons t]
      simp

/-! ## Powers of two and exponents -/

theorem pow2_eq (e : Int) : pow2 e = (2 : ℚ) ^ e := by
  unfold pow2
  split
  · rename_i h
    obtain ⟨k, rfl⟩ := Int.eq_ofNat_of_zero_le h
    simp
  · rename_i h
    obtain ⟨k, hk⟩ : ∃ k : Nat, e = -(k : Int) := ⟨(-e).toNat, by omega⟩
    subst hk
    simp

theorem pow2_pos (e : Int) : 0 < pow2 e := by
  rw [pow2_eq]
  positivity

theorem pow2_add (a b : Int) : pow2 (a + b) = pow2 a * pow2 b := by
  simp only [pow2_eq]
  exact zpow_add₀ (by norm_num) a b

theorem pow2_lt_iff (a b : Int) : pow2 a < pow2 b ↔ a < b := by
  simp only [pow2_eq]
  exact zpow_lt_zpow_iff_right₀ (by norm_num)

theorem pow2_le_iff (a b : Int) : pow2 a ≤ pow2 b ↔ a ≤ b := by
  simp only [pow2_eq]
  exact zpow_le_zpow_iff_right₀ (by norm_num)

theorem pow2_natCast (k : Nat) : pow2 (k : Int) = ((2 ^ k : Nat) : ℚ) := by
  simp [pow2_eq]

theorem log2_fuel_spec (fuel n : Nat) (hn : 1 ≤ n) (hf : n ≤ fuel) :
    2 ^ log2_fuel fuel n ≤ n ∧ n < 2 ^ (log2_fuel fuel n + 1) := by
  induction fuel generalizing n with
  | zero => omega
  | succ fuel ih =>
    unfold log2_fuel
    split
    · rename_i h2
      have := ih (n / 2) (by omega) (by omega)
      rw [pow_succ, pow_succ]
      constructor
      · have := this.1
        omega
      · have := this.2
        rw [pow_succ] at this
        omega
    · simp
      omega

theorem pow2_sub_nat (a b : Nat) : pow2 ((a : Int) - (b : Int)) = (2 : ℚ) ^ a / (2 : ℚ) ^ b := by
  rw [pow2_eq, zpow_sub₀ (by norm_num)]
  simp

/-- The exponent found by `ilog2` brackets a positive rational. -/
theorem ilog2_spec (a : ℚ) (ha : 0 < a) : pow2 (ilog2 a) ≤ a ∧ a < pow2 (ilog2 a + 1) := by
  have hnum : 0 < a.num := Rat.num_pos.mpr ha
  have hn1 : 1 ≤ a.num.natAbs := by omega
  have hd1 : 1 ≤ a.den := a.den_pos
  have hq : a = (a.num.natAbs : ℚ) / (a.den : ℚ) := by
    have h1 : (a.num.natAbs : ℚ) = (a.num : ℚ) := by
      rw [Nat.cast_natAbs, abs_of_pos hnum]
    rw [h1]
    exact (Rat.num_div_den a).symm
  unfold ilog2
  simp only
  obtain ⟨hn_lo, hn_hi⟩ := log2_fuel_spec a.num.natAbs a.num.natAbs hn1 (le_refl _)
  obtain ⟨hd_lo, hd_hi⟩ := log2_fuel_spec a.den a.den hd1 (le_refl _)
  generalize log2_fuel a.num.natAbs a.num.natAbs = ln at hn_lo hn_hi ⊢
  generalize log2_fuel a.den a.den = ld at hd_lo hd_hi ⊢
  have hdpos : (0 : ℚ) < (a.den : ℚ) := by exact_mod_cast hd1
  have c1 : ((2 : ℚ) ^ ln) ≤ (a.num.natAbs : ℚ) := by exact_mod_cast hn_lo
  have c2 : (a.num.natAbs : ℚ) < (2 : ℚ) ^ (ln + 1) := by exact_mod_cast hn_hi
  have c3 : ((2 : ℚ) ^ ld) ≤ (a.den : ℚ) := by exact_mod_cast hd_lo
  have c4 : (a.den : ℚ) < (2 : ℚ) ^ (ld + 1) := by exact_mod_cast hd_hi
  have p1 : (0 : ℚ) < 2 ^ ld := by positivity
  have p2 : (0 : ℚ) < 2 ^ ln := by positivity
  -- bounds with e0 = ln - ld
  have up : a < pow2 ((ln : Int) - (ld : Int) + 1) := by
    rw [pow2_add, pow2_sub_nat]
    rw [hq, div_lt_iff₀ hdpos]
    have : pow2 1 = 2 := by simp [pow2_eq]
    rw [this]
    calc (a.num.natAbs : ℚ) < 2 ^ (ln + 1) := c2
      _ = 2 ^ ln / 2 ^ ld * 2 * 2 ^ ld := by field_simp; ring
      _ ≤ 2 ^ ln / 2 ^ ld * 2 * (a.den : ℚ) := by
        apply mul_le_mul_of_nonneg_left c3
        positivity
  have lo : pow2 ((ln : Int) - (ld : Int) - 1) ≤ a := by
    have e : (ln : Int) - (ld : Int) - 1 = ((ln : Int) - (ld : Int)) + (-1) := by ring
    rw [e, pow2_add, pow2_sub_nat]
    have : pow2 (-1) = 1 / 2 := by simp [pow2_eq]
    rw [this, hq, le_div_iff₀ hdpos]
    calc 2 ^ ln / 2 ^ ld * (1 / 2) * (a.den : ℚ)
        ≤ 2 ^ ln / 2 ^ ld * (1 / 2) * 2 ^ (ld + 1) := by
          apply mul_le_mul_of_nonneg_left c4.le
          positivity
      _ = 2 ^ ln := by field_simp; ring
      _ ≤ (a.num.natAbs : ℚ) := c1
  split
  · rename_i h
    refine ⟨lo, ?_⟩
    have e : (ln : Int) - (ld : Int) - 1 + 1 = (ln : Int) - (ld : Int) := by ring
    rw [e]
    exact h
  · rename_i h
    exact ⟨not_lt.mp h, up⟩

/-! ## Rounding -/

theorem round_even_natCast (k : Nat) : round_even (k : ℚ) = k := by
  simp [round_even, Nat.mod_one]

theorem natAbs_div_den (x : ℚ) (hx : 0 ≤ x) : x = (x.num.natAbs : ℚ) / (x.den : ℚ) := by
  have hnum : 0 ≤ x.num := Rat.num_nonneg.mpr hx
  have h1 : (x.num.natAbs : ℚ) = (x.num : ℚ) := by
    rw [Nat.cast_natAbs, abs_of_nonneg hnum]
  rw [h1]
  exact (Rat.num_div_den x).symm

theorem round_even_le (x : ℚ) (N : Nat) (hx : 0 ≤ x) (hN : x < N) : round_even x ≤ N := by
  have hd : 0 < x.den := x.den_pos
  have hq := natAbs_div_den x hx
  have hlt : x.num.natAbs < N * x.den := by
    have hdq : (0 : ℚ) < (x.den : ℚ) := by exact_mod_cast hd
    rw [hq, div_lt_iff₀ hdq] at hN
    exact_mod_cast hN
  have hf : x.num.natAbs / x.den < N := by
    rw [Nat.div_lt_iff_lt_mul hd]
    exact hlt
  unfold round_even
  simp only
  split
  · omega
  · split
    · omega
    · split <;> omega

/-- A value `m * 2 ^ E` with `m < 2 ^ 53`, `E ≥ -1074` and magnitude below
`2 ^ 1024` is a binary64 number: rounding leaves it as it is. -/
theorem round64_of_repr (q : ℚ) (m : Nat) (E : Int) (hq : |q| = (m : ℚ) * pow2 E)
    (hm : m < 2 ^ 53) (hE : -1074 ≤ E) (hv : |q| < pow2 1024) : round64 q = .num q := by
  by_cases h0 : q = 0
  · simp [round64, h0]
  · have ha : 0 < |q| := abs_pos.mpr h0
    have key : max (ilog2 |q|) (-1022) - 52 ≤ E := by
      rcases le_total (ilog2 |q|) (-1022) with h | h
      · rw [max_eq_right h]
        omega
      · rw [max_eq_left h]
        have h1 := (ilog2_spec |q| ha).1
        have h2 : |q| < pow2 (53 + E) := by
          rw [hq, pow2_add]
          have : ((m : ℚ)) < pow2 53 := by
            rw [show (53 : Int) = ((53 : Nat) : Int) from rfl, pow2_natCast]
            exact_mod_cast hm
          exact mul_lt_mul_of_pos_right this (pow2_pos E)
        have h3 := lt_of_le_of_lt h1 h2
        rw [pow2_lt_iff] at h3
        omega
    unfold round64
    rw [if_neg h0]
    dsimp only
    generalize max (ilog2 |q|) (-1022) = e at key ⊢
    obtain ⟨k, hk⟩ : ∃ k : Nat, E = (e - 52) + (k : Int) := ⟨(E - (e - 52)).toNat, by omega⟩
    have hpos := pow2_pos (e - 52)
    have hdiv : |q| / pow2 (e - 52) = ((m * 2 ^ k : Nat) : ℚ) := by
      rw [hq, hk, pow2_add, pow2_natCast]
      field_simp
      ring
    have hv2 : ((m * 2 ^ k : Nat) : ℚ) * pow2 (e - 52) = |q| := by
      rw [← hdiv]
      field_simp
    simp only [hdiv, round_even_natCast, hv2, if_neg (not_le.mpr hv)]
    congr 1
    split
    · rename_i hneg
      rw [abs_of_neg hneg]
      ring
    · rename_i hneg
      exact abs_of_nonneg (not_lt.mp hneg)

/-- Rounding a value that rounding produced changes nothing. -/
theorem round64_idem (q w : ℚ) (h : round64 q = .num w) : round64 w = .num w := by
  by_cases h0 : q = 0
  · simp only [round64, h0, if_true, F64.num.injEq] at h
    rw [← h]
    simp [round64]
  · have ha : 0 < |q| := abs_pos.mpr h0
    have hspec := ilog2_spec |q| ha
    unfold round64 at h
    rw [if_neg h0] at h
    dsimp only at h
    have hle1 : ilog2 |q| ≤ max (ilog2 |q|) (-1022) := le_max_left _ _
    have hle2 : (-1022 : Int) ≤ max (ilog2 |q|) (-1022) := le_max_right _ _
    generalize max (ilog2 |q|) (-1022) = e at h hle1 hle2
    have hpos := pow2_pos (e - 52)
    have hx0 : 0 ≤ |q| / pow2 (e - 52) := div_nonneg ha.le hpos.le
    have hxN : |q| / pow2 (e - 52) < ((2 ^ 53 : Nat) : ℚ) := by
      rw [div_lt_iff₀ hpos, ← pow2_natCast, ← pow2_add]
      have : pow2 (ilog2 |q| + 1) ≤ pow2 (((53 : Nat) : Int) + (e - 52)) := by
        rw [pow2_le_iff]
        push_cast
        omega
      exact lt_of_lt_of_le hspec.2 this
    have hM := round_even_le _ _ hx0 hxN
    generalize round_even (|q| / pow2 (e - 52)) = M at h hM
    split at h
    · cases h
    · rename_i hov
      simp only [F64.num.injEq] at h
      have hw : |w| = (M : ℚ) * pow2 (e - 52) := by
        have hnn : 0 ≤ (M : ℚ) * pow2 (e - 52) := by positivity
        rw [← h]
        split
        · rw [abs_neg, abs_of_nonneg hnn]
        · rw [abs_of_nonneg hnn]
      have hlt : |w| < pow2 1024 := by
        rw [hw]
        exact not_le.mp hov
      rcases Nat.lt_or_ge M (2 ^ 53) with hlt53 | hge53
      · exact round64_of_repr w M (e - 52) hw hlt53 (by omega) hlt
      · have hMe : M = 2 ^ 53 := le_antisymm hM hge53
        apply round64_of_repr w (2 ^ 52) (e - 51) _ (by norm_num) (by omega) hlt
        rw [hw, hMe, show e - 52 = (e - 51) + (-1) by ring, pow2_add]
        have : pow2 (-1) = 1 / 2 := by simp [pow2_eq]
        rw [this]
        push_cast
        ring

theorem round64_finite (q : ℚ) (hq : |q| < pow2 1000) : ∃ w, round64 q = .num w := by
  by_cases h0 : q = 0
  · exact ⟨0, by simp [round64, h0]⟩
  · have ha : 0 < |q| := abs_pos.mpr h0
    have hspec := ilog2_spec |q| ha
    have hlog : ilog2 |q| < 1000 := by
      have := lt_of_le_of_lt hspec.1 hq
      rwa [pow2_lt_iff] at this
    unfold round64
    rw [if_neg h0]
    dsimp only
    have hle1 : ilog2 |q| ≤ max (ilog2 |q|) (-1022) := le_max_left _ _
    have hle3 : max (ilog2 |q|) (-1022) < 1000 := max_lt hlog (by norm_num)
    generalize max (ilog2 |q|) (-1022) = e at hle1 hle3 ⊢
    have hpos := pow2_pos (e - 52)
    have hx0 : 0 ≤ |q| / pow2 (e - 52) := div_nonneg ha.le hpos.le
    have hxN : |q| / pow2 (e - 52) < ((2 ^ 53 : Nat) : ℚ) := by
      rw [div_lt_iff₀ hpos, ← pow2_natCast, ← pow2_add]
      have : pow2 (ilog2 |q| + 1) ≤ pow2 (((53 : Nat) : Int) + (e - 52)) := by
        rw [pow2_le_iff]
        push_cast
        omega
      exact lt_of_lt_of_le hspec.2 this
    have hM := round_even_le _ _ hx0 hxN
    generalize round_even (|q| / pow2 (e - 52)) = M at hM ⊢
    have hv : (M : ℚ) * pow2 (e - 52) < pow2 1024 := by
      have h1 : (M : ℚ) ≤ pow2 53 := by
        rw [show (53 : Int) = ((53 : Nat) : Int) from rfl, pow2_natCast]
        exact_mod_cast hM
      have h2 : (M : ℚ) * pow2 (e - 52) ≤ pow2 53 * pow2 (e - 52) :=
        mul_le_mul_of_nonneg_right h1 hpos.le
      rw [← pow2_add] at h2
      have h3 : pow2 (53 + (e - 52)) < pow2 1024 := by
        rw [pow2_lt_iff]
        omega
      exact lt_of_le_of_lt h2 h3
    rw [if_neg (not_le.mpr hv)]
    exact ⟨_, rfl⟩

/-! ## Values of binary64 arithmetic -/

theorem is_double_round64 (q : ℚ) : (round64 q).is_double := by
  cases h : round64 q with
  | num w => exact round64_idem q w h
  | inf s => trivial
  | nan => trivial

theorem is_double_fadd (x y : F64) : (fadd x y).is_double := by
  cases x <;> cases y <;> simp only [fadd] <;> first | exact is_double_round64 _ | trivial | skip
  split <;> trivial

theorem is_double_fmul (x y : F64) : (fmul x y).is_double := by
  cases x <;> cases y <;> simp only [fmul] <;>
    first | exact is_double_round64 _ | trivial | (split <;> trivial)

theorem is_double_fdiv (x y : F64) : (fdiv x y).is_double := by
  cases x <;> cases y <;> simp only [fdiv] <;> first | trivial | skip
  · split
    · split <;> trivial
    · exact is_double_round64 _

theorem is_double_zero : (F64.num 0).is_double := by
  show round64 0 = .num 0
  simp [round64]

theorem is_double_one : (F64.num 1).is_double := by
  show round64 1 = .num 1
  decide!

theorem fmul_one (x : F64) (h : x.is_double) : fmul x (.num 1) = x := by
  cases x with
  | num q =>
    simp only [fmul, mul_one]
    exact h
  | inf s => cases s <;> simp [fmul]
  | nan => rfl

theorem fadd_zero_left (x : F64) (h : x.is_double) : fadd (.num 0) x = x := by
  cases x with
  | num q =>
    simp only [fadd, zero_add]
    exact h
  | inf s => rfl
  | nan => rfl

/-! ## Fuel of the binary64 reducers -/

/-- More fuel never changes an outcome of the binary64 reducers other than
`nofuel`. -/
theorem fuel_mono64 (f : Nat) :
    (∀ s n sign, parse_one_term_loop64 f s n sign ≠ .nofuel →
      ∀ g, f ≤ g → parse_one_term_loop64 g s n sign = parse_one_term_loop64 f s n sign) ∧
    (∀ s n, parse_addsub_expr64 f s n ≠ .nofuel →
      ∀ g, f ≤ g → parse_addsub_expr64 g s n = parse_addsub_expr64 f s n) ∧
    (∀ s n a b, parse_addsub_expr_loop64 f s n a b ≠ .nofuel →
      ∀ g, f ≤ g → parse_addsub_expr_loop64 g s n a b = parse_addsub_expr_loop64 f s n a b) := by
  induction f with
  | zero =>
    refine ⟨?_, ?_, ?_⟩
    · intro s n sign h
      exact absurd (by simp [parse_one_term_loop64]) h
    · intro s n h
      exact absurd (by simp [parse_addsub_expr64]) h
    · intro s n a b h
      exact absurd (by simp [parse_addsub_expr_loop64]) h
  | succ f ih =>
    obtain ⟨ihT, ihE, ihL⟩ := ih
    refine ⟨?_, ?_, ?_⟩
    · intro s n sign h g hg
      obtain ⟨g, rfl⟩ : ∃ j, g = j + 1 := ⟨g - 1, by omega⟩
      have hg2 : f ≤ g := by omega
      rw [parse_one_term_loop64] at h
      rw [parse_one_term_loop64, parse_one_term_loop64]
      rcases hp : parse_tok s with ⟨_ | tok, s1⟩
      · rfl
      · cases tok <;> simp only [hp] at h ⊢
        case SUB => exact ihT _ _ _ h g hg2
        case ADD => exact ihT _ _ _ h g hg2
        case LPAR =>
          have key : parse_addsub_expr64 f s1 n ≠ .nofuel := by
            intro e
            rw [e] at h
            exact h rfl
          rw [ihE _ _ key g hg2]
    · intro s n h g hg
      obtain ⟨g, rfl⟩ : ∃ j, g = j + 1 := ⟨g - 1, by omega⟩
      have hg2 : f ≤ g := by omega
      rw [parse_addsub_expr64] at h
      rw [parse_addsub_expr64, parse_addsub_expr64]
      have key : parse_one_term_loop64 f s n (.num 1) ≠ .nofuel := by
        intro e
        rw [e] at h
        exact h rfl
      rw [ihT _ _ _ key g hg2]
      rcases hq : parse_one_term_loop64 f s n (.num 1) with ⟨a, b, s1⟩ | _ | _
      · simp only [hq] at h ⊢
        exact ihL _ _ _ _ h g hg2
      · rfl
      · rfl
    · intro s n a b h g hg
      obtain ⟨g, rfl⟩ : ∃ j, g = j + 1 := ⟨g - 1, by omega⟩
      have hg2 : f ≤ g := by omega
      rw [parse_addsub_expr_loop64] at h
      rw [parse_addsub_expr_loop64, parse_addsub_expr_loop64]
      rcases hp : parse_tok s with ⟨_ | tok, s1⟩
      · rfl
      · cases tok <;> simp only [hp] at h ⊢
        case EQ => exact ihL _ _ _ _ h g hg2
        case LPAR => exact ihL _ _ _ _ h g hg2
        case REAL => exact ihL _ _ _ _ h g hg2
        case CALC => exact ihL _ _ _ _ h g hg2
        case IN => exact ihL _ _ _ _ h g hg2
        case INVALID => exact ihL _ _ _ _ h g hg2
        case ADD =>
          have key : parse_addsub_expr64 f s1 n ≠ .nofuel := by
            intro e
            rw [e] at h
            exact h rfl
          rw [ihE _ _ key g hg2]
          rcases hq : parse_addsub_expr64 f s1 n with ⟨ar, br, s2⟩ | _ | _
          · simp only [hq] at h ⊢
            exact ihL _ _ _ _ h g hg2
          · rfl
          · rfl
        case SUB =>
          have key : parse_addsub_expr64 f s1 n ≠ .nofuel := by
            intro e
            rw [e] at h
            exact h rfl
          rw [ihE _ _ key g hg2]
          rcases hq : parse_addsub_expr64 f s1 n with ⟨ar, br, s2⟩ | _ | _
          · simp only [hq] at h ⊢
            exact ihL _ _ _ _ h g hg2
          · rfl
          · rfl
        case MUL =>
          have key : parse_one_term_loop64 f s1 n (.num 1) ≠ .nofuel := by
            intro e
            rw [e] at h
            exact h rfl
          rw [ihT _ _ _ key g hg2]
          rcases hq : parse_one_term_loop64 f s1 n (.num 1) with ⟨ar, br, s2⟩ | _ | _
          · simp only [hq] at h ⊢
            cases hm : muldiv64 false a b ar br with
            | none => rfl
            | some v =>
              simp only [hm] at h ⊢
              exact ihL _ _ _ _ h g hg2
          · rfl
          · rfl
        case DIV =>
          have key : parse_one_term_loop64 f s1 n (.num 1) ≠ .nofuel := by
            intro e
            rw [e] at h
            exact h rfl
          rw [ihT _ _ _ key g hg2]
          rcases hq : parse_one_term_loop64 f s1 n (.num 1) with ⟨ar, br, s2⟩ | _ | _
          · simp only [hq] at h ⊢
            cases hm : muldiv64 true a b ar br with
            | none => rfl
            | some v =>
              simp only [hm] at h ⊢
              exact ihL _ _ _ _ h g hg2
          · rfl
          · rfl

theorem parse_lineq_fuel64_mono (f g : Nat) (s : List Char) (n : Nat)
    (h : parse_lineq_fuel64 f s n ≠ .nofuel) (hg : f ≤ g) :
    parse_lineq_fuel64 g s n = parse_lineq_fuel64 f s n := by
  unfold parse_lineq_fuel64 at h ⊢
  rcases hp : parse_tok s with ⟨_ | tok, s1⟩
  · rfl
  · cases tok <;> simp only [hp] at h ⊢
    case CALC id =>
      rcases hq : parse_tok s1 with ⟨_ | tok2, s2⟩
      · rfl
      · cases tok2 <;> simp only [hq] at h ⊢
        case EQ =>
          have key : parse_addsub_expr64 f s2 n ≠ .nofuel := by
            intro e
            rw [e] at h
            exact h rfl
          rw [(fuel_mono64 f).2.1 _ _ key g hg]

/-- An outcome computed with some fuel below the budget of `parse_lineq64` is
the outcome of `parse_lineq64`. -/
theorem parse_lineq64_of_fuel (f : Nat) (s : List Char) (n : Nat) (r : Nat × List F64 × F64)
    (h : parse_lineq_fuel64 f s n = .ok r) (hf : f ≤ 2 * s.length + 2) :
    parse_lineq64 s n = .ok r := by
  unfold parse_lineq64
  rw [parse_lineq_fuel64_mono f _ s n (by rw [h]; exact fun e => by cases e) hf, h]

theorem parse_lineq64_error_of_fuel (f : Nat) (s : List Char) (n : Nat)
    (h : parse_lineq_fuel64 f s n = .error) (hf : f ≤ 2 * s.length + 2) :
    parse_lineq64 s n = .error := by
  unfold parse_lineq64
  rw [parse_lineq_fuel64_mono f _ s n (by rw [h]; exact fun e => by cases e) hf, h]

/-! ## Binary64 coefficient vectors -/

theorem replicate_eq_vec64 (n : Nat) (x : F64) : List.replicate n x = vec64 n (fun _ => x) := by
  apply List.ext_getElem <;> simp [vec64]

theorem vec64_length (n : Nat) (f : Nat → F64) : (vec64 n f).length = n := by simp [vec64]

theorem vec64_map (n : Nat) (f : Nat → F64) (g : F64 → F64) :
    (vec64 n f).map g = vec64 n (fun i => g (f i)) := by
  simp [vec64, Function.comp_def]

theorem vec64_zipWith (n : Nat) (f g : Nat → F64) (h : F64 → F64 → F64) :
    List.zipWith h (vec64 n f) (vec64 n g) = vec64 n (fun i => h (f i) (g i)) := by
  apply List.ext_getElem <;> simp [vec64]

theorem vec64_set (n : Nat) (f : Nat → F64) (i : Nat) (x : F64) :
    (vec64 n f).set i x = vec64 n (fun j => if j = i then x else f j) := by
  apply List.ext_getElem
  · simp [vec64]
  · intro j h1 h2
    simp only [vec64, List.getElem_set, List.getElem_map, List.getElem_range]
    by_cases h : i = j
    · simp [h]
    · simp [h, Ne.symm h]

theorem vec64_all (n : Nat) (f : Nat → F64) (p : F64 → Bool) :
    (vec64 n f).all p = true ↔ ∀ i, i < n → p (f i) = true := by
  simp [vec64]

theorem vec64_congr (n : Nat) (f g : Nat → F64) (h : ∀ i, i < n → f i = g i) :
    vec64 n f = vec64 n g := by
  apply List.map_congr_left
  intro i hi
  exact h i (List.mem_range.mp hi)

/-! ## The zero test on binary64 values -/

theorem epsilon64_eq : epsilon64 = .num (4835703278458517 / 4835703278458516698824704) := by
  decide!

theorem neg_epsilon64_eq :
    fmul epsilon64 (.num (-1)) = .num (-(4835703278458517 / 4835703278458516698824704)) := by
  decide!

/-- On a finite value the test is the comparison of its absolute value with
the stored constant, which lies a little above 1e-9. -/
theorem is_real_zero64_num (q : ℚ) :
    is_real_zero64 (.num q) = decide (|q| ≤ 4835703278458517 / 4835703278458516698824704) := by
  unfold is_real_zero64
  rw [neg_epsilon64_eq, epsilon64_eq]
  simp only [fle, abs_le]
  by_cases h1 : -(4835703278458517 / 4835703278458516698824704 : ℚ) ≤ q <;>
    by_cases h2 : q ≤ (4835703278458517 / 4835703278458516698824704 : ℚ) <;> simp [h1, h2]

theorem is_real_zero64_of_abs_le (q : ℚ) (h : |q| ≤ 1 / 1000000000) :
    is_real_zero64 (.num q) = true := by
  rw [is_real_zero64_num, decide_eq_true_eq]
  refine le_trans h ?_
  norm_num

theorem is_real_zero64_zero : is_real_zero64 (.num 0) = true :=
  is_real_zero64_of_abs_le 0 (by norm_num)

theorem is_real_zero64_one : is_real_zero64 (.num 1) = false := by
  rw [is_real_zero64_num, decide_eq_false_iff_not, abs_one]
  norm_num

theorem vec64_all_zero (n : Nat) : (vec64 n (fun _ => .num 0)).all is_real_zero64 = true := by
  rw [vec64_all]
  intro i _
  exact is_real_zero64_zero

theorem vec64_all_false (n : Nat) (f : Nat → F64) (i : Nat) (hi : i < n)
    (h : is_real_zero64 (f i) = false) : (vec64 n f).all is_real_zero64 = false := by
  rw [← Bool.not_eq_true, vec64_all]
  intro hall
  rw [hall i hi] at h
  exact Bool.noConfusion h

theorem vec64_all_unit (n i : Nat) (hi : i < n) :
    (vec64 n (fun j => if j = i then .num 1 else .num 0)).all is_real_zero64 = false :=
  vec64_all_false n _ i hi (by simp [is_real_zero64_one])

theorem vec64_all_unit_of_not_le (n i : Nat) (hi : ¬ n ≤ i) :
    (vec64 n (fun j => if j = i then .num 1 else .num 0)).all is_real_zero64 = false :=
  vec64_all_unit n i (by omega)

theorem all_is_real_zero64_false (l : List F64) (h : ∃ x ∈ l, is_real_zero64 x = false) :
    l.all is_real_zero64 = false := by
  obtain ⟨x, hx, hxe⟩ := h
  rw [← Bool.not_eq_true, List.all_eq_true]
  intro hall
  rw [hall x hx] at hxe
  exact Bool.noConfusion hxe

/-! ## The `*` / `/` step on binary64 values -/

theorem muldiv64_right_const (isDiv : Bool) (a : List F64) (b : F64) (ar : List F64) (br : F64)
    (h : ar.all is_real_zero64 = true) :
    muldiv64 isDiv a b ar br =
      some (if isDiv then
          (if is_real_zero64 br then (a.map (fun _ => .num 0), .num 0)
            else (a.map (fun x => fdiv x br), fdiv b br))
        else (a.map (fun x => fmul x br), fmul b br)) := by
  cases isDiv
  · simp [muldiv64, h]
  · by_cases hz : is_real_zero64 br = true <;> simp [muldiv64, h, hz]

theorem muldiv64_left_const (isDiv : Bool) (a : List F64) (b : F64) (ar : List F64) (br : F64)
    (h : ar.all is_real_zero64 = false) (ha : a.all is_real_zero64 = true) :
    muldiv64 isDiv a b ar br =
      some (if isDiv then
          (if is_real_zero64 b then (ar.map (fun _ => .num 0), .num 0)
            else (ar.map (fun x => fdiv x b), fdiv br b))
        else (ar.map (fun x => fmul x b), fmul br b)) := by
  cases isDiv
  · simp [muldiv64, h, ha]
  · by_cases hz : is_real_zero64 b = true <;> simp [muldiv64, h, ha, hz]

theorem muldiv64_nonlinear (isDiv : Bool) (a : List F64) (b : F64) (ar : List F64) (br : F64)
    (h : ar.all is_real_zero64 = false) (ha : a.all is_real_zero64 = false) :
    muldiv64 isDiv a b ar br = none := by
  simp [muldiv64, h, ha]

/-! ## Arithmetic on the values of terms -/

theorem round64_zero : round64 0 = .num 0 := by simp [round64]

theorem round64_ne_nan (q : ℚ) : round64 q ≠ .nan := by
  unfold round64
  split
  · exact fun e => by cases e
  · dsimp only
    split <;> exact fun e => by cases e

theorem fmul_comm (x y : F64) : fmul x y = fmul y x := by
  cases x <;> cases y <;> simp [fmul, mul_comm, Bool.xor_comm]

theorem fmul_round64_one (q : ℚ) : fmul (round64 q) (.num 1) = round64 q :=
  fmul_one _ (is_double_round64 q)

theorem fmul_zero_one : fmul (.num 0) (.num 1) = .num 0 := fmul_one _ is_double_zero

theorem fmul_one_one : fmul (.num 1) (.num 1) = .num 1 := fmul_one _ is_double_one

theorem fmul_zero_num (w : ℚ) : fmul (.num 0) (.num w) = .num 0 := by
  simp [fmul, round64_zero]

theorem fadd_zero_round64 (q : ℚ) : fadd (.num 0) (round64 q) = round64 q :=
  fadd_zero_left _ (is_double_round64 q)

theorem fmul_fadd_one (x y : F64) : fmul (fadd x y) (.num 1) = fadd x y :=
  fmul_one _ (is_double_fadd x y)

theorem fadd_zero_fadd (x y : F64) : fadd (.num 0) (fadd x y) = fadd x y :=
  fadd_zero_left _ (is_double_fadd x y)

theorem fmul_unit_one (c : Prop) [Decidable c] :
    fmul (if c then .num 1 else .num 0) (.num 1) = if c then .num 1 else .num 0 := by
  split
  · exact fmul_one_one
  · exact fmul_zero_one

/-- A zero coefficient stays zero when divided by a constant that the zero
test does not accept. -/
theorem fdiv_zero_round64 (q : ℚ) (h : is_real_zero64 (round64 q) = false) :
    fdiv (.num 0) (round64 q) = .num 0 := by
  cases hr : round64 q with
  | num w =>
    have hw : w ≠ 0 := by
      rintro rfl
      rw [hr, is_real_zero64_zero] at h
      exact Bool.noConfusion h
    simp [fdiv, hw, round64_zero]
  | inf s => rfl
  | nan => exact absurd hr (round64_ne_nan q)

theorem term_unit64 (n id : Nat) :
    ((List.replicate n (F64.num 0)).set id (.num 1)).map (fun x => fmul x (.num 1)) =
      vec64 n (fun j => if j = id then .num 1 else .num 0) := by
  rw [replicate_eq_vec64, vec64_set, vec64_map]
  apply vec64_congr
  intro i _
  by_cases e : i = id <;> simp [e, fmul_zero_one, fmul_one_one]

/-! ## Literals are finite doubles -/

theorem digitsToNat_foldl_lt (ds : List Char) (h : ∀ c ∈ ds, is_digit c = true) (acc : Nat) :
    ds.foldl (fun a c => 10 * a + (c.toNat - 48)) acc < (acc + 1) * 10 ^ ds.length := by
  induction ds generalizing acc with
  | nil => simp
  | cons c cs ih =>
    have hc := h c (by simp)
    simp only [is_digit, Bool.and_eq_true, decide_eq_true_eq] at hc
    have h9 : c.toNat - 48 ≤ 9 := by
      have : '9'.toNat = 57 := by decide
      omega
    have := ih (fun x hx => h x (by simp [hx])) (10 * acc + (c.toNat - 48))
    simp only [List.foldl_cons, List.length_cons]
    calc _ < (10 * acc + (c.toNat - 48) + 1) * 10 ^ cs.length := this
      _ ≤ ((acc + 1) * 10) * 10 ^ cs.length := by
        apply Nat.mul_le_mul_right
        omega
      _ = (acc + 1) * 10 ^ (cs.length + 1) := by ring

theorem literal_value_lt (c : List Char) (h : is_literal c = true) :
    literal_value c < 10 ^ 31 := by
  simp only [is_literal, Bool.and_eq_true, decide_eq_true_eq] at h
  obtain ⟨⟨⟨_, _⟩, _⟩, hlen⟩ := h
  have hd : ∀ x ∈ c.filter is_digit, is_digit x = true := fun x hx => (List.mem_filter.mp hx).2
  have h1 := digitsToNat_foldl_lt (c.filter is_digit) hd 0
  have h2 : (c.filter is_digit).length ≤ 31 := le_trans (List.length_filter_le _ _) hlen
  have h3 : digitsToNat (c.filter is_digit) < 10 ^ 31 := by
    unfold digitsToNat
    refine lt_of_lt_of_le h1 ?_
    rw [Nat.zero_add, Nat.one_mul]
    exact Nat.pow_le_pow_right (by norm_num) h2
  unfold literal_value
  have hpos : (1 : ℚ) ≤ (10 : ℚ) ^ ((c.dropWhile (fun x => !decide (x = '.'))).length - 1) :=
    one_le_pow₀ (by norm_num)
  generalize (10 : ℚ) ^ ((c.dropWhile (fun x => !decide (x = '.'))).length - 1) = P at hpos ⊢
  have h4 : (digitsToNat (c.filter is_digit) : ℚ) < 10 ^ 31 := by exact_mod_cast h3
  have h5 : (digitsToNat (c.filter is_digit) : ℚ) / P ≤ digitsToNat (c.filter is_digit) :=
    div_le_self (Nat.cast_nonneg _) hpos
  exact lt_of_le_of_lt h5 h4

theorem literal_value_nonneg (c : List Char) : 0 ≤ literal_value c := by
  unfold literal_value
  positivity

/-- The double of a plain literal is finite: a scan of at most 31 characters
stays below `10 ^ 31`. -/
theorem round64_literal_finite (c : List Char) (h : is_literal c = true) :
    ∃ w, round64 (literal_value c) = .num w := by
  apply round64_finite
  rw [abs_of_nonneg (literal_value_nonneg c)]
  refine lt_trans (literal_value_lt c h) ?_
  rw [pow2_eq]
  norm_num

theorem fmul_zero_literal (c : List Char) (h : is_literal c = true) :
    fmul (.num 0) (round64 (literal_value c)) = .num 0 := by
  obtain ⟨w, hw⟩ := round64_literal_finite c h
  rw [hw, fmul_zero_num]

/-! ## Texts of the tests on binary64 values -/

theorem spaced_sum_over64 (n : Nat) (k p q : Char) (c1 c2 d : List Char)
    (hk : is_digit19 k = true) (hp : is_digit19 p = true) (hq : is_digit19 q = true)
    (hpn : slot p < n) (hqn : slot q < n)
    (h1 : is_literal c1 = true) (h2 : is_literal c2 = true) (hd : is_literal d = true)
    (hz : is_real_zero64 (round64 (literal_value d)) = false) :
    parse_lineq64 ("CALC".toList ++ [k] ++ " = (IN".toList ++ [p] ++ " + ".toList ++ c1 ++
          " + IN".toList ++ [q] ++ " + ".toList ++ c2 ++ ") / ".toList ++ d) n =
        .ok (slot k,
          vec64 n (fun i => fdiv (.num ((if i = slot p then 1 else 0) +
            (if i = slot q then 1 else 0))) (round64 (literal_value d))),
          fdiv (fadd (round64 (literal_value c1)) (round64 (literal_value c2)))
            (round64 (literal_value d))) := by
  have hp2 : ¬ (n ≤ slot p) := by omega
  have hq2 : ¬ (n ≤ slot q) := by omega
  apply parse_lineq64_of_fuel 12
  · simp [parse_lineq_fuel64, parse_addsub_expr64, parse_one_term_loop64, parse_addsub_expr_loop64,
          parse_tok_CALC, parse_tok_IN, parse_tok_space, parse_tok_eq, parse_tok_add,
          parse_tok_div, parse_tok_lpar, parse_tok_rpar, parse_tok_nil, parse_tok_lit,
          parse_tok_lit_end, delim_space, delim_rpar, digit_index_of_digit19, hk, hp, hq, hp2,
          hq2, h1, h2, hd, muldiv64_right_const, vec64_all_zero, hz, replicate_eq_vec64, vec64_set,
          vec64_zipWith, vec64_map, fmul_zero_one, fmul_one_one, fmul_round64_one,
          fadd_zero_round64, fmul_fadd_one, fadd_zero_fadd]
    apply vec64_congr
    intro i _
    congr 1
    by_cases e1 : i = slot p <;> by_cases e2 : i = slot q
    · simp only [if_pos e1, if_pos e2]
      decide!
    · simp only [if_pos e1, if_neg e2]
      decide!
    · simp only [if_neg e1, if_pos e2]
      decide!
    · simp only [if_neg e1, if_neg e2]
      decide!
  · simp
    omega

theorem grouped_sum_over64 (n : Nat) (k p q : Char) (c1 c2 d : List Char)
    (hk : is_digit19 k = true) (hp : is_digit19 p = true) (hq : is_digit19 q = true)
    (hpn : slot p < n) (hqn : slot q < n)
    (h1 : is_literal c1 = true) (h2 : is_literal c2 = true) (hd : is_literal d = true)
    (hz : is_real_zero64 (round64 (literal_value d)) = false) :
    parse_lineq64 ("CALC".toList ++ [k] ++ " = ((IN".toList ++ [p] ++ " + ".toList ++ c1 ++
          ") + (IN".toList ++ [q] ++ " + ".toList ++ c2 ++ ")) / ".toList ++ d) n =
        .ok (slot k,
          vec64 n (fun i => fdiv (.num ((if i = slot p then 1 else 0) +
            (if i = slot q then 1 else 0))) (round64 (literal_value d))),
          fdiv (fadd (round64 (literal_value c1)) (round64 (literal_value c2)))
            (round64 (literal_value d))) := by
  have hp2 : ¬ (n ≤ slot p) := by omega
  have hq2 : ¬ (n ≤ slot q) := by omega
  apply parse_lineq64_of_fuel 12
  · simp [parse_lineq_fuel64, parse_addsub_expr64, parse_one_term_loop64, parse_addsub_expr_loop64,
          parse_tok_CALC, parse_tok_IN, parse_tok_space, parse_tok_eq, parse_tok_add,
          parse_tok_div, parse_tok_lpar, parse_tok_rpar, parse_tok_nil, parse_tok_lit,
          parse_tok_lit_end, delim_space, delim_rpar, digit_index_of_digit19, hk, hp, hq, hp2,
          hq2, h1, h2, hd, muldiv64_right_const, vec64_all_zero, hz, replicate_eq_vec64, vec64_set,
          vec64_zipWith, vec64_map, fmul_zero_one, fmul_one_one, fmul_round64_one,
          fadd_zero_round64, fmul_fadd_one, fadd_zero_fadd]
    apply vec64_congr
    intro i _
    congr 1
    by_cases e1 : i = slot p <;> by_cases e2 : i = slot q
    · simp only [if_pos e1, if_pos e2]
      decide!
    · simp only [if_pos e1, if_neg e2]
      decide!
    · simp only [if_neg e1, if_pos e2]
      decide!
    · simp only [if_neg e1, if_neg e2]
      decide!
  · simp
    omega

/-! ## Chains of scalar operators on binary64 values -/

/-- The operator loop on a chain of `/` (or of `*`) and literals, started with
all-zero coefficients: the constant is folded from the left. -/
theorem parse_addsub_expr_loop64_chain (isDiv : Bool) (n : Nat) (cs : List (List Char)) :
    ∀ (b : F64) (f : Nat), cs.length + 1 < f →
      (∀ c ∈ cs, is_literal c = true ∧
        (isDiv = true → is_real_zero64 (round64 (literal_value c)) = false)) →
      parse_addsub_expr_loop64 f (op_chain (if isDiv then '/' else '*') cs) n
          (vec64 n (fun _ => .num 0)) b =
        .ok (vec64 n (fun _ => .num 0),
          cs.foldl (fun x c => if isDiv then fdiv x (round64 (literal_value c))
            else fmul x (round64 (literal_value c))) b,
          []) := by
  induction cs with
  | nil =>
    intro b f hf _
    obtain ⟨f, rfl⟩ : ∃ j, f = j + 1 := ⟨f - 1, by omega⟩
    simp [op_chain, parse_addsub_expr_loop64, parse_tok_nil]
  | cons c cs ih =>
    intro b f hf hcs
    obtain ⟨f, rfl⟩ : ∃ j, f = j + 2 := ⟨f - 2, by simp at hf; omega⟩
    have hc := hcs c (by simp)
    have ih2 := fun b => ih b (f + 1) (by simp at hf; omega) (fun x hx => hcs x (by simp [hx]))
    have hd := delim_op_chain (if isDiv then '/' else '*') cs
    cases isDiv with
    | true =>
      have hz : is_real_zero64 (round64 (literal_value c)) = false := hc.2 rfl
      have ih3 := ih2 (fdiv b (round64 (literal_value c)))
      simp only [if_true] at ih3 hd ⊢
      rw [op_chain, parse_addsub_expr_loop64]
      simp only [parse_tok_space, parse_tok_div, parse_one_term_loop64,
        parse_tok_lit _ _ hc.1 hd]
      simp [muldiv64_right_const, replicate_eq_vec64, vec64_map, vec64_all_zero, hz, ih3,
        fmul_zero_one, fmul_round64_one, fdiv_zero_round64]
    | false =>
      have ih3 := ih2 (fmul b (round64 (literal_value c)))
      simp only [Bool.false_eq_true, if_false] at ih3 hd ⊢
      rw [op_chain, parse_addsub_expr_loop64]
      simp only [parse_tok_space, parse_tok_mul, parse_one_term_loop64,
        parse_tok_lit _ _ hc.1 hd]
      simp [muldiv64_right_const, replicate_eq_vec64, vec64_map, vec64_all_zero, ih3,
        fmul_zero_one, fmul_round64_one, fmul_zero_literal _ hc.1]

/-- The text `CALCk = c0 op c1 op ... op cm` for `op` one of `/` and `*`. -/
theorem parse_lineq64_chain (isDiv : Bool) (n : Nat) (k : Char) (c0 : List Char)
    (cs : List (List Char)) (hk : is_digit19 k = true) (h0 : is_literal c0 = true)
    (hcs : ∀ c ∈ cs, is_literal c = true ∧
      (isDiv = true → is_real_zero64 (round64 (literal_value c)) = false)) :
    parse_lineq64 ("CALC".toList ++ [k] ++ " = ".toList ++ c0 ++
        op_chain (if isDiv then '/' else '*') cs) n =
      .ok (slot k, vec64 n (fun _ => .num 0),
        cs.foldl (fun x c => if isDiv then fdiv x (round64 (literal_value c))
          else fmul x (round64 (literal_value c))) (round64 (literal_value c0))) := by
  apply parse_lineq64_of_fuel (cs.length + 3)
  · have hl := parse_addsub_expr_loop64_chain isDiv n cs (round64 (literal_value c0))
      (cs.length + 2) (by omega) hcs
    have hd := delim_op_chain (if isDiv then '/' else '*') cs
    simp [parse_lineq_fuel64, parse_tok_CALC, parse_tok_space, parse_tok_eq, parse_addsub_expr64,
      parse_one_term_loop64, parse_tok_lit _ _ h0 hd, digit_index_of_digit19, hk,
      replicate_eq_vec64, vec64_map, hl, fmul_zero_one, fmul_round64_one]
  · have := op_chain_length (if isDiv then '/' else '*') cs
    simp
    omega

/-! ## Division by a constant that the zero test accepts -/

/-- The difference `1.000000001 - 1` of doubles is `4503600 * 2 ^ -52`, about
1.00000008e-9: the zero test does not accept it, and at `n = 1` the text
`CALC1 = IN1 / (1.000000001 - 1)` divides by it. -/
theorem difference_above_epsilon :
    fadd (round64 (1000000001 / 1000000000)) (fmul (round64 1) (.num (-1))) =
      .num (4503600 / 4503599627370496) ∧
    is_real_zero64 (.num (4503600 / 4503599627370496)) = false ∧
    parse_lineq64 "CALC1 = IN1 / (1.000000001 - 1)".toList 1 =
      .ok (0, [fdiv (.num 1) (.num (4503600 / 4503599627370496))], .num 0) := by
  refine ⟨?_, ?_, ?_⟩ <;> decide!

theorem sum_over_zero64 (n : Nat) (k p : Char) (c z : List Char)
    (hk : is_digit19 k = true) (hp : is_digit19 p = true) (hpn : slot p < n)
    (hc : is_literal c = true) (hz : is_literal z = true)
    (hzero : is_real_zero64 (round64 (literal_value z)) = true) :
    parse_lineq64 ("CALC".toList ++ [k] ++ " = (IN".toList ++ [p] ++ " + ".toList ++ c ++
        ") / ".toList ++ z) n =
      .ok (slot k, List.replicate n (.num 0), .num 0) := by
  have hp2 : ¬ (n ≤ slot p) := by omega
  apply parse_lineq64_of_fuel 10
  · simp [parse_lineq_fuel64, parse_addsub_expr64, parse_one_term_loop64,
      parse_addsub_expr_loop64, parse_tok_CALC, parse_tok_IN, parse_tok_space, parse_tok_eq,
      parse_tok_add, parse_tok_div, parse_tok_lpar, parse_tok_rpar, parse_tok_nil, parse_tok_lit,
      parse_tok_lit_end, delim_space, delim_rpar, digit_index_of_digit19, hk, hp, hp2,
      hc, hz, muldiv64_right_const, vec64_all_zero, hzero, replicate_eq_vec64, vec64_set,
      vec64_zipWith, vec64_map, vec64_length, fmul_zero_one, fmul_one_one, fmul_round64_one]
  · simp
    omega

theorem ref_over_difference64 (n : Nat) (k p : Char) (c1 c2 : List Char)
    (hk : is_digit19 k = true) (hp : is_digit19 p = true) (hpn : slot p < n)
    (h1 : is_literal c1 = true) (h2 : is_literal c2 = true)
    (hzero : is_real_zero64 (fadd (round64 (literal_value c1))
      (fmul (round64 (literal_value c2)) (.num (-1)))) = true) :
    parse_lineq64 ("CALC".toList ++ [k] ++ " = IN".toList ++ [p] ++ " / (".toList ++ c1 ++
        " - ".toList ++ c2 ++ ")".toList) n =
      .ok (slot k, List.replicate n (.num 0), .num 0) := by
  have hp2 : ¬ (n ≤ slot p) := by omega
  have z1 : fadd (.num 0) (fmul (.num 0) (.num (-1))) = .num 0 := by decide!
  apply parse_lineq64_of_fuel 10
  · simp [parse_lineq_fuel64, parse_addsub_expr64, parse_one_term_loop64,
      parse_addsub_expr_loop64, parse_tok_CALC, parse_tok_IN, parse_tok_space, parse_tok_eq,
      parse_tok_sub, parse_tok_div, parse_tok_lpar, parse_tok_rpar, parse_tok_nil, parse_tok_lit,
      parse_tok_lit_end, delim_space, delim_rpar, digit_index_of_digit19, hk, hp, hp2,
      h1, h2, muldiv64_right_const, vec64_all_zero, replicate_eq_vec64,
      vec64_set, vec64_zipWith, vec64_map, vec64_length, fmul_zero_one, fmul_one_one,
      fmul_round64_one, fmul_fadd_one, z1, hzero]
  · simp
    omega

/-! ## A constant divided by an input reference, on binary64 values -/

theorem constant_over_ref64 (n : Nat) (k p : Char) (c : List Char)
    (hk : is_digit19 k = true) (hp : is_digit19 p = true) (hpn : slot p < n)
    (hc : is_literal c = true) (hz : is_real_zero64 (round64 (literal_value c)) = false) :
    parse_lineq64 ("CALC".toList ++ [k] ++ " = ".toList ++ c ++ " / IN".toList ++ [p]) n =
      .ok (slot k,
        vec64 n (fun i => if i = slot p then fdiv (.num 1) (round64 (literal_value c))
          else .num 0), .num 0) := by
  have hp2 : ¬ (n ≤ slot p) := by omega
  have hu := vec64_all_unit n (slot p) hpn
  apply parse_lineq64_of_fuel 6
  · simp [parse_lineq_fuel64, parse_addsub_expr64, parse_one_term_loop64,
      parse_addsub_expr_loop64, parse_tok_CALC, parse_tok_IN, parse_tok_space, parse_tok_eq,
      parse_tok_div, parse_tok_nil, parse_tok_lit, parse_tok_lit_end, delim_space,
      digit_index_of_digit19, hk, hp, hp2, hc, muldiv64_left_const, vec64_all_zero, hu, hz,
      replicate_eq_vec64, vec64_set, vec64_zipWith, vec64_map, fmul_zero_one, fmul_one_one,
      fmul_round64_one, fdiv_zero_round64, fmul_unit_one]
    apply vec64_congr
    intro i _
    by_cases e : i = slot p <;> simp [e, fdiv_zero_round64, hz]
  · simp
    omega

theorem ref_over_constant64 (n : Nat) (k p : Char) (c : List Char)
    (hk : is_digit19 k = true) (hp : is_digit19 p = true) (hpn : slot p < n)
    (hc : is_literal c = true) (hz : is_real_zero64 (round64 (literal_value c)) = false) :
    parse_lineq64 ("CALC".toList ++ [k] ++ " = IN".toList ++ [p] ++ " / ".toList ++ c) n =
      .ok (slot k,
        vec64 n (fun i => if i = slot p then fdiv (.num 1) (round64 (literal_value c))
          else .num 0), .num 0) := by
  have hp2 : ¬ (n ≤ slot p) := by omega
  apply parse_lineq64_of_fuel 6
  · simp [parse_lineq_fuel64, parse_addsub_expr64, parse_one_term_loop64,
      parse_addsub_expr_loop64, parse_tok_CALC, parse_tok_IN, parse_tok_space, parse_tok_eq,
      parse_tok_div, parse_tok_nil, parse_tok_lit, parse_tok_lit_end, delim_space,
      digit_index_of_digit19, hk, hp, hp2, hc, muldiv64_right_const, vec64_all_zero, hz,
      replicate_eq_vec64, vec64_set, vec64_zipWith, vec64_map, fmul_zero_one, fmul_one_one,
      fmul_round64_one, fdiv_zero_round64, fmul_unit_one]
    apply vec64_congr
    intro i _
    by_cases e : i = slot p <;> simp [e, fdiv_zero_round64, hz]
  · simp
    omega

end Lineq

open Lineq

/-- C1. For every slot count `n`, every target digit `k` from 1 to 9 and every
plain decimal literal (digits with at most one point, at most 31 characters as
the tokenizer reads them), the text `CALCk = <literal>` compiles: the target
index is `k - 1`, each of the `n` coefficients is 0 and the constant is the
value of the literal; so `CALC4 = 3.15` gives the constant 3.15 for every `n`. -/
theorem C1_constant_equation :
    (∀ (n : Nat) (k : Char) (lit : List Char), is_digit19 k = true → is_literal lit = true →
      parse_lineq ("CALC".toList ++ [k] ++ " = ".toList ++ lit) n =
        .ok (slot k, List.replicate n 0, literal_value lit)) ∧
    (∀ n : Nat, parse_lineq "CALC4 = 3.15".toList n = .ok (3, List.replicate n 0, 315 / 100)) := by
  have main : ∀ (n : Nat) (k : Char) (lit : List Char), is_digit19 k = true →
      is_literal lit = true →
      parse_lineq ("CALC".toList ++ [k] ++ " = ".toList ++ lit) n =
        .ok (slot k, List.replicate n 0, literal_value lit) := by
    intro n k lit hk hlit
    apply parse_lineq_of_fuel 4
    · simp [parse_lineq_fuel, parse_tok_CALC, parse_tok_space, parse_tok_eq, parse_addsub_expr,
        parse_one_term_loop, parse_addsub_expr_loop, parse_tok_lit_end, hlit, parse_tok_nil,
        digit_index_of_digit19, hk]
    · simp
  refine ⟨main, ?_⟩
  intro n
  have h := main n '4' "3.15".toList (by decide) (by decide)
  have e1 : "CALC".toList ++ ['4'] ++ " = ".toList ++ "3.15".toList = "CALC4 = 3.15".toList := by
    decide
  have e2 : slot '4' = 3 := by decide
  have e3 : literal_value "3.15".toList = 315 / 100 := by with_unfolding_all decide
  rw [e1, e2, e3] at h
  exact h

theorem C1_constant_equation_witness :
    parse_lineq ("CALC".toList ++ ['7'] ++ " = ".toList ++ "0.25".toList) 2 =
      .ok (slot '7', List.replicate 2 0, literal_value "0.25".toList) :=
  C1_constant_equation.1 2 '7' "0.25".toList (by decide) (by decide)

/-- C2, as stated, fails at the threshold: the text
`0.00000000100000000000000001` is read as the double nearest to it, which is
the stored constant `epsilon` itself and lies above 1e-9; with `n = 1`,
accumulated `([1], 8)` and that constant `k` as the right term of `/`, the loop
returns the all-zero form, not `([1 / k], 8 / k)`.  The whole text
`CALC1 = IN1 / 0.00000000100000000000000001` compiles to the all-zero form. -/
theorem C2_counterexample :
    parse_tok " / 0.00000000100000000000000001".toList =
      (some .DIV, " 0.00000000100000000000000001".toList) ∧
    parse_one_term64 2 " 0.00000000100000000000000001".toList 1 =
      .ok ([.num 0], .num (4835703278458517 / 4835703278458516698824704), []) ∧
    is_real_zero64 (.num 0) = true ∧
    (1 / 1000000000 : ℚ) < |4835703278458517 / 4835703278458516698824704| ∧
    parse_addsub_expr_loop64 (2 + 1) " / 0.00000000100000000000000001".toList 1 [.num 1]
      (.num 8) = .ok ([.num 0], .num 0, []) ∧
    parse_addsub_expr_loop64 2 [] 1
      ([F64.num 1].map (fun x => fdiv x (.num (4835703278458517 / 4835703278458516698824704))))
      (fdiv (.num 8) (.num (4835703278458517 / 4835703278458516698824704))) ≠
      .ok ([.num 0], .num 0, []) ∧
    parse_lineq64 "CALC1 = IN1 / 0.00000000100000000000000001".toList 1 =
      .ok (0, [.num 0], .num 0) := by
  refine ⟨?_, ?_, ?_, ?_, ?_, ?_, ?_⟩ <;> decide!

/-- C2 (amended). Division distributes over the accumulated form, in binary64
arithmetic and with the zero test the code performs: in the operator loop with
accumulated `(a, b)`, when the next token is `/` and the term after it reduces
to `(ar, k)` with every entry of `ar` accepted by `is_real_zero` and `k` not
accepted by it (`k` below `-epsilon` or above `epsilon` for the stored double
`epsilon`, or not a number), the loop goes on with `(a[i] / k, b / k)`.  For
every `n ≥ 3` the text `CALC4 = (IN2 + IN3 + 8) / 2` compiles to target index
3, coefficient 1/2 at the indices 1 and 2, 0 at every other index, and
constant 4. -/
theorem C2_division_distributes :
    (∀ (fuel : Nat) (s s1 s2 : List Char) (n : Nat) (a : List F64) (b : F64) (ar : List F64)
      (k : F64),
      parse_tok s = (some .DIV, s1) →
      parse_one_term64 fuel s1 n = .ok (ar, k, s2) →
      (∀ x ∈ ar, is_real_zero64 x = true) →
      is_real_zero64 k = false →
      parse_addsub_expr_loop64 (fuel + 1) s n a b =
        parse_addsub_expr_loop64 fuel s2 n (a.map (fun x => fdiv x k)) (fdiv b k)) ∧
    (∀ n : Nat, 3 ≤ n →
      parse_lineq64 "CALC4 = (IN2 + IN3 + 8) / 2".toList n =
        .ok (3, vec64 n (fun i => if i = 1 ∨ i = 2 then .num (1 / 2) else .num 0), .num 4)) := by
  constructor
  · intro fuel s s1 s2 n a b ar k htok hterm har hk
    have h1 : ar.all is_real_zero64 = true := List.all_eq_true.mpr har
    unfold parse_one_term64 at hterm
    rw [parse_addsub_expr_loop64]
    simp only [htok, hterm, muldiv64_right_const _ a b ar k h1, hk]
    simp
  · intro n hn
    apply parse_lineq64_of_fuel 12
    · have h1 : ¬ (n ≤ 1) := by omega
      have h2 : ¬ (n ≤ 2) := by omega
      have v8 : round64 8 = .num 8 := by decide!
      have v2 : round64 2 = .num 2 := by decide!
      have z2 : is_real_zero64 (.num 2) = false := by decide!
      have c1 : fmul (.num 8) (.num 1) = .num 8 := by decide!
      have c2 : fadd (.num 0) (.num 8) = .num 8 := by decide!
      have c3 : fmul (.num 2) (.num 1) = .num 2 := by decide!
      have c4 : fdiv (.num 8) (.num 2) = .num 4 := by decide!
      simp [parse_lineq_fuel64, parse_addsub_expr64, parse_one_term_loop64,
        parse_addsub_expr_loop64, parse_tok, skip_ws, is_ws, op_tok, parse_real, scan_real,
        is_real, is_digit, is_sign, strtod, strtod_unsigned, spanDigits, digitsToNat, parse_in,
        parse_calc, parse_in_or_calc, digit_index, h1, h2, replicate_eq_vec64, vec64_set,
        vec64_zipWith, vec64_map, v8, v2, fmul_zero_one, fmul_one_one, muldiv64_right_const,
        vec64_all_zero, z2, c1, c2, c3, c4]
      apply vec64_congr
      intro i _
      by_cases e1 : i = 1
      · subst e1
        decide!
      · by_cases e2 : i = 2
        · subst e2
          decide!
        · simp only [e1, e2, if_false, false_or]
          decide!
    · simp

theorem C2_division_distributes_witness :
    parse_addsub_expr_loop64 (1 + 1) " / 2".toList 2 [.num 1, .num 0] (.num 8) =
      parse_addsub_expr_loop64 1 [] 2 ([F64.num 1, .num 0].map (fun x => fdiv x (.num 2)))
        (fdiv (.num 8) (.num 2)) :=
  C2_division_distributes.1 1 " / 2".toList " 2".toList [] 2 [.num 1, .num 0] (.num 8)
    [.num 0, .num 0] (.num 2) (by decide) (by decide!) (by decide!) (by decide!)

/-- C3. At `n = 8` the text `CALC4 = (IN2+3+IN3+5)/2` compiles to coefficient
1/2 at index 1 only and constant 4, because the numeric scan reads `3+` as the
literal 3 and the `IN3` that follows is passed over; the text
`CALC4 = ((IN2+3)+(IN3+5))/2` compiles to coefficient 1/2 at the indices 1 and
2 and constant 4.  The two results differ. -/
theorem C3_unspaced_regrouping_differs :
    parse_tok "3+IN3+5)/2".toList = (some (.REAL 3), "IN3+5)/2".toList) ∧
    parse_lineq "CALC4 = (IN2+3+IN3+5)/2".toList 8 =
      .ok (3, [0, 1 / 2, 0, 0, 0, 0, 0, 0], 4) ∧
    parse_lineq "CALC4 = ((IN2+3)+(IN3+5))/2".toList 8 =
      .ok (3, [0, 1 / 2, 1 / 2, 0, 0, 0, 0, 0], 4) ∧
    parse_lineq "CALC4 = (IN2+3+IN3+5)/2".toList 8 ≠
      parse_lineq "CALC4 = ((IN2+3)+(IN3+5))/2".toList 8 := by
  refine ⟨?_, ?_, ?_, ?_⟩ <;> with_unfolding_all decide

/-- C4. At `n = 8` the text `CALC4 = (IN1+3+IN2+5)/2` compiles to coefficient
1/2 at index 0 only and constant 4, and the text `CALC4 = IN1*0.5+IN2*0.5+4`
compiles to coefficient 1/4 at index 0 only and constant 0: the numeric scan
takes the sign after a digit into the literal, so `IN2` is passed over in both
and the two results differ from each other and from (1/2, 1/2, 4). -/
theorem C4_unspaced_forms_differ :
    parse_tok "0.5+IN2*0.5+4".toList = (some (.REAL (1 / 2)), "IN2*0.5+4".toList) ∧
    parse_lineq "CALC4 = (IN1+3+IN2+5)/2".toList 8 =
      .ok (3, [1 / 2, 0, 0, 0, 0, 0, 0, 0], 4) ∧
    parse_lineq "CALC4 = IN1*0.5+IN2*0.5+4".toList 8 =
      .ok (3, [1 / 4, 0, 0, 0, 0, 0, 0, 0], 0) ∧
    parse_lineq "CALC4 = (IN1+3+IN2+5)/2".toList 8 ≠
      parse_lineq "CALC4 = IN1*0.5+IN2*0.5+4".toList 8 := by
  refine ⟨?_, ?_, ?_, ?_⟩ <;> with_unfolding_all decide

/-- C5, as stated, fails at the threshold: with `n = 1`, `p = q = 1`,
`c1 = c2 = 1` and the literal `d = 0.00000000100000000000000001`, whose value
is above 1e-9, both texts compile to the all-zero form, not to the coefficient
`2 / d` and the constant `(c1 + c2) / d`: the double of `d` is the stored
constant `epsilon`, which the zero test accepts. -/
theorem C5_counterexample :
    is_digit19 '1' = true ∧ slot '1' < 1 ∧ is_literal "1".toList = true ∧
    is_literal "0.00000000100000000000000001".toList = true ∧
    1 / 1000000000 < |literal_value "0.00000000100000000000000001".toList| ∧
    parse_lineq64 ("CALC".toList ++ ['1'] ++ " = (IN".toList ++ ['1'] ++ " + ".toList ++
        "1".toList ++ " + IN".toList ++ ['1'] ++ " + ".toList ++ "1".toList ++ ") / ".toList ++
        "0.00000000100000000000000001".toList) 1 = .ok (0, [.num 0], .num 0) ∧
    parse_lineq64 ("CALC".toList ++ ['1'] ++ " = ((IN".toList ++ ['1'] ++ " + ".toList ++
        "1".toList ++ ") + (IN".toList ++ ['1'] ++ " + ".toList ++ "1".toList ++
        ")) / ".toList ++ "0.00000000100000000000000001".toList) 1 =
      .ok (0, [.num 0], .num 0) ∧
    fdiv (.num 2) (round64 (literal_value "0.00000000100000000000000001".toList)) ≠ .num 0 ∧
    fdiv (fadd (round64 (literal_value "1".toList)) (round64 (literal_value "1".toList)))
      (round64 (literal_value "0.00000000100000000000000001".toList)) ≠ .num 0 := by
  refine ⟨?_, ?_, ?_, ?_, ?_, ?_, ?_, ?_, ?_⟩ <;> decide!

/-- C5 (amended). With whitespace around every token, for every `n`, all
digits `p`, `q` from 1 to 9 naming slots below `n`, all plain literals `c1`,
`c2` and every plain literal `d` whose double the zero test of the code does
not accept (it is above the stored double `epsilon`), the texts
`CALCk = (INp + c1 + INq + c2) / d` and `CALCk = ((INp + c1) + (INq + c2)) / d`
compile to one and the same form in binary64 arithmetic: the coefficient at
index `i` is `1 / d` counted once for `i = p - 1` and once for `i = q - 1` (so
`2 / d` when `p = q`) and 0 elsewhere, the constant is `(c1 + c2) / d`.  With
`p = 2`, `q = 3`, `c1 = 3`, `c2 = 5`, `d = 2` and `n ≥ 3` that is 1/2, 1/2
and 4. -/
theorem C5_spaced_regrouping :
    (∀ (n : Nat) (k p q : Char) (c1 c2 d : List Char),
      is_digit19 k = true → is_digit19 p = true → is_digit19 q = true →
      slot p < n → slot q < n →
      is_literal c1 = true → is_literal c2 = true → is_literal d = true →
      is_real_zero64 (round64 (literal_value d)) = false →
      parse_lineq64 ("CALC".toList ++ [k] ++ " = (IN".toList ++ [p] ++ " + ".toList ++ c1 ++
          " + IN".toList ++ [q] ++ " + ".toList ++ c2 ++ ") / ".toList ++ d) n =
        .ok (slot k,
          vec64 n (fun i => fdiv (.num ((if i = slot p then 1 else 0) +
            (if i = slot q then 1 else 0))) (round64 (literal_value d))),
          fdiv (fadd (round64 (literal_value c1)) (round64 (literal_value c2)))
            (round64 (literal_value d))) ∧
      parse_lineq64 ("CALC".toList ++ [k] ++ " = ((IN".toList ++ [p] ++ " + ".toList ++ c1 ++
          ") + (IN".toList ++ [q] ++ " + ".toList ++ c2 ++ ")) / ".toList ++ d) n =
        .ok (slot k,
          vec64 n (fun i => fdiv (.num ((if i = slot p then 1 else 0) +
            (if i = slot q then 1 else 0))) (round64 (literal_value d))),
          fdiv (fadd (round64 (literal_value c1)) (round64 (literal_value c2)))
            (round64 (literal_value d)))) ∧
    (∀ n : Nat, 3 ≤ n →
      parse_lineq64 "CALC4 = (IN2 + 3 + IN3 + 5) / 2".toList n =
        .ok (3, vec64 n (fun i => if i = 1 ∨ i = 2 then .num (1 / 2) else .num 0), .num 4) ∧
      parse_lineq64 "CALC4 = ((IN2 + 3) + (IN3 + 5)) / 2".toList n =
        .ok (3, vec64 n (fun i => if i = 1 ∨ i = 2 then .num (1 / 2) else .num 0), .num 4)) := by
  refine ⟨fun n k p q c1 c2 d hk hp hq hpn hqn h1 h2 hd hz =>
    ⟨spaced_sum_over64 n k p q c1 c2 d hk hp hq hpn hqn h1 h2 hd hz,
      grouped_sum_over64 n k p q c1 c2 d hk hp hq hpn hqn h1 h2 hd hz⟩, ?_⟩
  intro n hn
  have hz : is_real_zero64 (round64 (literal_value "2".toList)) = false := by decide!
  have ha := spaced_sum_over64 n '4' '2' '3' "3".toList "5".toList "2".toList (by decide)
    (by decide) (by decide) (by simp [slot]; omega) (by simp [slot]; omega) (by decide)
    (by decide) (by decide) hz
  have hb := grouped_sum_over64 n '4' '2' '3' "3".toList "5".toList "2".toList (by decide)
    (by decide) (by decide) (by simp [slot]; omega) (by simp [slot]; omega) (by decide)
    (by decide) (by decide) hz
  have e1 : "CALC".toList ++ ['4'] ++ " = (IN".toList ++ ['2'] ++ " + ".toList ++ "3".toList ++
      " + IN".toList ++ ['3'] ++ " + ".toList ++ "5".toList ++ ") / ".toList ++ "2".toList =
      "CALC4 = (IN2 + 3 + IN3 + 5) / 2".toList := by decide
  have e2 : "CALC".toList ++ ['4'] ++ " = ((IN".toList ++ ['2'] ++ " + ".toList ++ "3".toList ++
      ") + (IN".toList ++ ['3'] ++ " + ".toList ++ "5".toList ++ ")) / ".toList ++ "2".toList =
      "CALC4 = ((IN2 + 3) + (IN3 + 5)) / 2".toList := by decide
  have vb : fdiv (fadd (round64 (literal_value "3".toList)) (round64 (literal_value "5".toList)))
      (round64 (literal_value "2".toList)) = .num 4 := by decide!
  have s4 : slot '4' = 3 := by decide
  have ev : vec64 n (fun i => fdiv (.num ((if i = slot '2' then 1 else 0) +
      (if i = slot '3' then 1 else 0))) (round64 (literal_value "2".toList))) =
      vec64 n (fun i => if i = 1 ∨ i = 2 then .num (1 / 2) else .num 0) := by
    have s2 : slot '2' = 1 := by decide
    have s3 : slot '3' = 2 := by decide
    rw [s2, s3]
    apply vec64_congr
    intro i _
    by_cases e1 : i = 1
    · subst e1
      decide!
    · by_cases e2 : i = 2
      · subst e2
        decide!
      · simp only [if_neg e1, if_neg e2, e1, e2, false_or, if_false]
        decide!
  rw [e1, vb, s4, ev] at ha
  rw [e2, vb, s4, ev] at hb
  exact ⟨ha, hb⟩

theorem C5_spaced_regrouping_witness :
    parse_lineq64 ("CALC".toList ++ ['1'] ++ " = (IN".toList ++ ['1'] ++ " + ".toList ++
        "2.5".toList ++ " + IN".toList ++ ['1'] ++ " + ".toList ++ "1.5".toList ++
        ") / ".toList ++ "4".toList) 1 =
      .ok (slot '1',
        vec64 1 (fun i => fdiv (.num ((if i = slot '1' then 1 else 0) +
          (if i = slot '1' then 1 else 0))) (round64 (literal_value "4".toList))),
        fdiv (fadd (round64 (literal_value "2.5".toList)) (round64 (literal_value "1.5".toList)))
          (round64 (literal_value "4".toList))) ∧
    parse_lineq64 ("CALC".toList ++ ['1'] ++ " = ((IN".toList ++ ['1'] ++ " + ".toList ++
        "2.5".toList ++ ") + (IN".toList ++ ['1'] ++ " + ".toList ++ "1.5".toList ++
        ")) / ".toList ++ "4".toList) 1 =
      .ok (slot '1',
        vec64 1 (fun i => fdiv (.num ((if i = slot '1' then 1 else 0) +
          (if i = slot '1' then 1 else 0))) (round64 (literal_value "4".toList))),
        fdiv (fadd (round64 (literal_value "2.5".toList)) (round64 (literal_value "1.5".toList)))
          (round64 (literal_value "4".toList))) :=
  C5_spaced_regrouping.1 1 '1' '1' '1' "2.5".toList "1.5".toList "4".toList (by decide)
    (by decide) (by decide) (by decide) (by decide) (by decide) (by decide) (by decide)
    (by decide!)

/-- C6. Multiplication by a constant is commutative: for every `n`, every digit
`d` from 1 to 9 naming a slot below `n` and every plain literal `c`, the texts
`CALCk = c * INd` and `CALCk = INd * c` compile to the same form, with
coefficient `c` at index `d - 1`, every other coefficient 0 and constant 0; so
do `CALC4 = 3.15 * IN3` and `CALC4 = IN3 * 3.15` for every `n ≥ 3`. -/
theorem C6_constant_multiplication_commutes :
    (∀ (n : Nat) (k d : Char) (c : List Char),
      is_digit19 k = true → is_digit19 d = true → slot d < n → is_literal c = true →
      parse_lineq ("CALC".toList ++ [k] ++ " = ".toList ++ c ++ " * IN".toList ++ [d]) n =
        .ok (slot k, vec n (fun i => if i = slot d then literal_value c else 0), 0) ∧
      parse_lineq ("CALC".toList ++ [k] ++ " = IN".toList ++ [d] ++ " * ".toList ++ c) n =
        .ok (slot k, vec n (fun i => if i = slot d then literal_value c else 0), 0)) ∧
    (∀ n : Nat, 3 ≤ n →
      parse_lineq "CALC4 = 3.15 * IN3".toList n =
        .ok (3, vec n (fun i => if i = 2 then 315 / 100 else 0), 0) ∧
      parse_lineq "CALC4 = IN3 * 3.15".toList n =
        .ok (3, vec n (fun i => if i = 2 then 315 / 100 else 0), 0)) := by
  have main : ∀ (n : Nat) (k d : Char) (c : List Char),
      is_digit19 k = true → is_digit19 d = true → slot d < n → is_literal c = true →
      parse_lineq ("CALC".toList ++ [k] ++ " = ".toList ++ c ++ " * IN".toList ++ [d]) n =
        .ok (slot k, vec n (fun i => if i = slot d then literal_value c else 0), 0) ∧
      parse_lineq ("CALC".toList ++ [k] ++ " = IN".toList ++ [d] ++ " * ".toList ++ c) n =
        .ok (slot k, vec n (fun i => if i = slot d then literal_value c else 0), 0) := by
    intro n k d c hk hd hdn hc
    have hd2 : ¬ (n ≤ slot d) := by omega
    have hu := vec_all_unit n (slot d) hdn
    constructor
    · apply parse_lineq_of_fuel 6
      · simp [parse_lineq_fuel, parse_addsub_expr, parse_one_term_loop, parse_addsub_expr_loop,
          parse_tok_CALC, parse_tok_IN, parse_tok_space, parse_tok_eq, parse_tok_mul,
          parse_tok_nil, parse_tok_lit, parse_tok_lit_end, delim_space, digit_index_of_digit19,
          hk, hd, hd2, hc, muldiv_left_const, vec_all_zero, hu, replicate_eq_vec, vec_set,
          vec_zipWith, vec_map]
      · simp
        omega
    · apply parse_lineq_of_fuel 6
      · simp [parse_lineq_fuel, parse_addsub_expr, parse_one_term_loop, parse_addsub_expr_loop,
          parse_tok_CALC, parse_tok_IN, parse_tok_space, parse_tok_eq, parse_tok_mul,
          parse_tok_nil, parse_tok_lit, parse_tok_lit_end, delim_space, digit_index_of_digit19,
          hk, hd, hd2, hc, muldiv_right_const, vec_all_zero, replicate_eq_vec, vec_set,
          vec_zipWith, vec_map]
      · simp
        omega
  refine ⟨main, ?_⟩
  intro n hn
  have h := main n '4' '3' "3.15".toList (by decide) (by decide) (by simp [slot]; omega)
    (by decide)
  have e1 : "CALC".toList ++ ['4'] ++ " = ".toList ++ "3.15".toList ++ " * IN".toList ++ ['3'] =
      "CALC4 = 3.15 * IN3".toList := by decide
  have e2 : "CALC".toList ++ ['4'] ++ " = IN".toList ++ ['3'] ++ " * ".toList ++ "3.15".toList =
      "CALC4 = IN3 * 3.15".toList := by decide
  have v : literal_value "3.15".toList = 315 / 100 := by with_unfolding_all decide
  have s4 : slot '4' = 3 := by decide
  have s3 : slot '3' = 2 := by decide
  rw [e1, e2, v, s4, s3] at h
  exact h

theorem C6_constant_multiplication_commutes_witness :
    parse_lineq ("CALC".toList ++ ['2'] ++ " = ".toList ++ "0.5".toList ++ " * IN".toList ++
        ['1']) 1 =
      .ok (slot '2', vec 1 (fun i => if i = slot '1' then literal_value "0.5".toList else 0), 0) ∧
    parse_lineq ("CALC".toList ++ ['2'] ++ " = IN".toList ++ ['1'] ++ " * ".toList ++
        "0.5".toList) 1 =
      .ok (slot '2', vec 1 (fun i => if i = slot '1' then literal_value "0.5".toList else 0), 0) :=
  C6_constant_multiplication_commutes.1 1 '2' '1' "0.5".toList (by decide) (by decide)
    (by decide) (by decide)

/-- C8, as stated, fails at the threshold: the literal
`0.00000000100000000000000001` has a value above 1e-9, yet at `n = 1` the text
`CALC1 = 1 / 0.00000000100000000000000001` compiles to the constant 0, not to
the quotient: the double of the literal is the stored constant `epsilon`,
which the zero test accepts. -/
theorem C8_counterexample :
    is_digit19 '1' = true ∧ is_literal "1".toList = true ∧
    is_literal "0.00000000100000000000000001".toList = true ∧
    1 / 1000000000 < |literal_value "0.00000000100000000000000001".toList| ∧
    "CALC".toList ++ ['1'] ++ " = ".toList ++ "1".toList ++
      op_chain '/' ["0.00000000100000000000000001".toList] =
      "CALC1 = 1 / 0.00000000100000000000000001".toList ∧
    parse_lineq64 "CALC1 = 1 / 0.00000000100000000000000001".toList 1 =
      .ok (0, [.num 0], .num 0) ∧
    ["0.00000000100000000000000001".toList].foldl
      (fun x c => fdiv x (round64 (literal_value c))) (round64 (literal_value "1".toList)) ≠
      .num 0 := by
  refine ⟨?_, ?_, ?_, ?_, ?_, ?_, ?_⟩ <;> decide!

/-- C8 (amended). Chained scalar `/` and `*` are applied from left to right,
in binary64 arithmetic: for every `n`, every plain literal `c0` and every list
of plain literals `c1 ... cm` (in the case of `/` each with a double that the
zero test of the code does not accept, that is above the stored double
`epsilon`), written with blanks around every operator,
`CALCk = c0 / c1 / ... / cm` compiles to all-zero coefficients and the
constant `((c0 / c1) / ...) / cm`, and `CALCk = c0 * c1 * ... * cm` to all-zero
coefficients and `((c0 * c1) * ...) * cm`.  For every `n` the text
`CALC4 = 30 / 5 / 3` gives the constant 2. -/
theorem C8_scalar_chain_left_to_right :
    (∀ (n : Nat) (k : Char) (c0 : List Char) (cs : List (List Char)),
      is_digit19 k = true → is_literal c0 = true →
      (∀ c ∈ cs, is_literal c = true ∧ is_real_zero64 (round64 (literal_value c)) = false) →
      parse_lineq64 ("CALC".toList ++ [k] ++ " = ".toList ++ c0 ++ op_chain '/' cs) n =
        .ok (slot k, List.replicate n (.num 0),
          cs.foldl (fun x c => fdiv x (round64 (literal_value c)))
            (round64 (literal_value c0)))) ∧
    (∀ (n : Nat) (k : Char) (c0 : List Char) (cs : List (List Char)),
      is_digit19 k = true → is_literal c0 = true →
      (∀ c ∈ cs, is_literal c = true) →
      parse_lineq64 ("CALC".toList ++ [k] ++ " = ".toList ++ c0 ++ op_chain '*' cs) n =
        .ok (slot k, List.replicate n (.num 0),
          cs.foldl (fun x c => fmul x (round64 (literal_value c)))
            (round64 (literal_value c0)))) ∧
    (∀ n : Nat,
      parse_lineq64 "CALC4 = 30 / 5 / 3".toList n = .ok (3, List.replicate n (.num 0), .num 2)) := by
  have hdiv : ∀ (n : Nat) (k : Char) (c0 : List Char) (cs : List (List Char)),
      is_digit19 k = true → is_literal c0 = true →
      (∀ c ∈ cs, is_literal c = true ∧ is_real_zero64 (round64 (literal_value c)) = false) →
      parse_lineq64 ("CALC".toList ++ [k] ++ " = ".toList ++ c0 ++ op_chain '/' cs) n =
        .ok (slot k, List.replicate n (.num 0),
          cs.foldl (fun x c => fdiv x (round64 (literal_value c)))
            (round64 (literal_value c0))) := by
    intro n k c0 cs hk h0 hcs
    have h := parse_lineq64_chain true n k c0 cs hk h0
      (fun c hc => ⟨(hcs c hc).1, fun _ => (hcs c hc).2⟩)
    simpa [replicate_eq_vec64] using h
  refine ⟨hdiv, ?_, ?_⟩
  · intro n k c0 cs hk h0 hcs
    have h := parse_lineq64_chain false n k c0 cs hk h0
      (fun c hc => ⟨hcs c hc, fun e => by cases e⟩)
    simpa [replicate_eq_vec64] using h
  · intro n
    have h := hdiv n '4' "30".toList ["5".toList, "3".toList] (by decide) (by decide)
      (by decide!)
    have e1 : "CALC".toList ++ ['4'] ++ " = ".toList ++ "30".toList ++
        op_chain '/' ["5".toList, "3".toList] = "CALC4 = 30 / 5 / 3".toList := by decide
    have e2 : List.foldl (fun x c => fdiv x (round64 (literal_value c)))
        (round64 (literal_value "30".toList)) ["5".toList, "3".toList] = .num 2 := by decide!
    have s4 : slot '4' = 3 := by decide
    rw [e1, e2, s4] at h
    exact h

theorem C8_scalar_chain_left_to_right_witness :
    parse_lineq64 ("CALC".toList ++ ['1'] ++ " = ".toList ++ "12".toList ++
        op_chain '/' ["4".toList, "0.5".toList]) 3 =
      .ok (slot '1', List.replicate 3 (.num 0),
        ["4".toList, "0.5".toList].foldl (fun x c => fdiv x (round64 (literal_value c)))
          (round64 (literal_value "12".toList))) :=
  C8_scalar_chain_left_to_right.1 3 '1' "12".toList ["4".toList, "0.5".toList] (by decide)
    (by decide) (by decide!)

/-- C9. Chained `-` is grouped from the right by the recursion of
`parse_addsub_expr`: at `n = 8` the text `CALC1 = 10 - 3 - 2` compiles to the
constant 9, which is 10 - (3 - 2), and `CALC1 = 10 - 3 + 2` to the constant 5,
which is 10 - (3 + 2); `CALC4 = IN2 + 1 - 3` compiles to coefficient 1 at
index 1 and constant -2. -/
theorem C9_subtraction_chain_groups_right :
    parse_lineq "CALC1 = 10 - 3 - 2".toList 8 = .ok (0, [0, 0, 0, 0, 0, 0, 0, 0], 9) ∧
    parse_lineq "CALC1 = 10 - 3 + 2".toList 8 = .ok (0, [0, 0, 0, 0, 0, 0, 0, 0], 5) ∧
    parse_lineq "CALC4 = IN2 + 1 - 3".toList 8 = .ok (3, [0, 1, 0, 0, 0, 0, 0, 0], -2) := by
  refine ⟨?_, ?_, ?_⟩ <;> with_unfolding_all decide

/-- C10, as stated, fails: with `A = IN1`, `B = IN2` and `C = 3` only one of
`B`, `C` carries a variable, yet at `n = 8` the text `CALC4 = IN1 * IN2 + 3`
does not compile. -/
theorem C10_counterexample :
    (Atom.inp '1').wf 8 = true ∧ (Atom.inp '2').wf 8 = true ∧
    (Atom.lit "3".toList).wf 8 = true ∧
    ((Atom.inp '2').is_var && (Atom.lit "3".toList).is_var) = false ∧
    "CALC".toList ++ ['4'] ++ " = ".toList ++ (Atom.inp '1').text ++ " * ".toList ++
      (Atom.inp '2').text ++ " + ".toList ++ (Atom.lit "3".toList).text =
      "CALC4 = IN1 * IN2 + 3".toList ∧
    parse_lineq "CALC4 = IN1 * IN2 + 3".toList 8 = .error := by
  refine ⟨?_, ?_, ?_, ?_, ?_, ?_⟩ <;> with_unfolding_all decide

/-- C10 (amended). `*` and `/` bind tighter than `+`: for every `n` and all
terms `A`, `B`, `C` that are plain literals or input references to slots below
`n`, written with blanks around the operators, `CALCk = A + B * C` compiles to
the form of `A` plus the form of `B * C` when at most one of `B`, `C` carries
a variable, and `CALCk = A * B + C` compiles to the form of `A * B` plus the
form of `C` when at most one of `A`, `B` carries a variable.  For every `n`
the text `CALC4 = 10 / 5 + 3` gives the constant 5, and for every `n ≥ 3` the
texts `CALC4 = 4.68 + ((IN2 + 3) + (IN3 + 5)) / 2` and
`CALC4 = ((IN2 + 3) + (IN3 + 5)) / 2 + 4.68` compile to the same form:
coefficient 1/2 at the indices 1 and 2, 0 elsewhere, constant 8.68. -/
theorem C10_product_before_sum :
    (∀ (n : Nat) (k : Char) (A B C : Atom), is_digit19 k = true →
      A.wf n = true → B.wf n = true → C.wf n = true →
      (B.is_var && C.is_var) = false →
      parse_lineq ("CALC".toList ++ [k] ++ " = ".toList ++ A.text ++ " + ".toList ++ B.text ++
          " * ".toList ++ C.text) n =
        .ok (slot k, vec n (form_add A.form (form_mul B.form C.form)).1,
          (form_add A.form (form_mul B.form C.form)).2)) ∧
    (∀ (n : Nat) (k : Char) (A B C : Atom), is_digit19 k = true →
      A.wf n = true → B.wf n = true → C.wf n = true →
      (A.is_var && B.is_var) = false →
      parse_lineq ("CALC".toList ++ [k] ++ " = ".toList ++ A.text ++ " * ".toList ++ B.text ++
          " + ".toList ++ C.text) n =
        .ok (slot k, vec n (form_add (form_mul A.form B.form) C.form).1,
          (form_add (form_mul A.form B.form) C.form).2)) ∧
    (∀ n : Nat, parse_lineq "CALC4 = 10 / 5 + 3".toList n = .ok (3, List.replicate n 0, 5)) ∧
    (∀ n : Nat, 3 ≤ n →
      parse_lineq "CALC4 = 4.68 + ((IN2 + 3) + (IN3 + 5)) / 2".toList n =
        .ok (3, vec n (fun i => if i = 1 ∨ i = 2 then 1 / 2 else 0), 868 / 100) ∧
      parse_lineq "CALC4 = ((IN2 + 3) + (IN3 + 5)) / 2 + 4.68".toList n =
        .ok (3, vec n (fun i => if i = 1 ∨ i = 2 then 1 / 2 else 0), 868 / 100)) := by
  refine ⟨?_, ?_, ?_, ?_⟩
  · intro n k A B C hk hA hB hC hBC
    apply parse_lineq_of_fuel 8
    · rcases A with a | a <;> rcases B with b | b <;> rcases C with c | c <;>
        simp only [Atom.wf, Bool.and_eq_true, decide_eq_true_eq, ← not_le] at hA hB hC <;>
        simp [Atom.is_var] at hBC <;>
        simp [Atom.text, Atom.form, form_add, form_mul,
          parse_lineq_fuel, parse_addsub_expr, parse_one_term_loop, parse_addsub_expr_loop,
          parse_tok_CALC, parse_tok_IN, parse_tok_space, parse_tok_eq, parse_tok_add,
          parse_tok_mul, parse_tok_nil, parse_tok_lit, parse_tok_lit_end, delim_space,
          digit_index_of_digit19, hk, hA, hB, hC, muldiv_right_const, muldiv_left_const,
          vec_all_zero, vec_all_unit_of_not_le, replicate_eq_vec, vec_set, vec_zipWith, vec_map]
    · cases A <;> cases B <;> cases C <;> simp [Atom.text] <;> omega
  · intro n k A B C hk hA hB hC hAB
    apply parse_lineq_of_fuel 8
    · rcases A with a | a <;> rcases B with b | b <;> rcases C with c | c <;>
        simp only [Atom.wf, Bool.and_eq_true, decide_eq_true_eq, ← not_le] at hA hB hC <;>
        simp [Atom.is_var] at hAB <;>
        simp [Atom.text, Atom.form, form_add, form_mul,
          parse_lineq_fuel, parse_addsub_expr, parse_one_term_loop, parse_addsub_expr_loop,
          parse_tok_CALC, parse_tok_IN, parse_tok_space, parse_tok_eq, parse_tok_add,
          parse_tok_mul, parse_tok_nil, parse_tok_lit, parse_tok_lit_end, delim_space,
          digit_index_of_digit19, hk, hA, hB, hC, muldiv_right_const, muldiv_left_const,
          vec_all_zero, vec_all_unit_of_not_le, replicate_eq_vec, vec_set, vec_zipWith, vec_map]
    · cases A <;> cases B <;> cases C <;> simp [Atom.text] <;> omega
  · intro n
    apply parse_lineq_of_fuel 8
    · simp [parse_lineq_fuel, parse_addsub_expr, parse_one_term_loop, parse_addsub_expr_loop,
        parse_tok, skip_ws, is_ws, op_tok, parse_real, scan_real, is_real, is_digit, is_sign,
        strtod, strtod_unsigned, spanDigits, digitsToNat, parse_in, parse_calc, parse_in_or_calc,
        digit_index, muldiv, is_real_zero, epsilon]
      norm_num
    · simp
  · intro n hn
    exact ⟨test_sum_then_quotient n hn, test_quotient_then_sum n hn⟩

theorem C10_product_before_sum_witness :
    parse_lineq ("CALC".toList ++ ['2'] ++ " = ".toList ++ (Atom.inp '1').text ++
        " + ".toList ++ (Atom.lit "2.5".toList).text ++ " * ".toList ++ (Atom.inp '2').text) 2 =
      .ok (slot '2',
        vec 2 (form_add (Atom.inp '1').form
          (form_mul (Atom.lit "2.5".toList).form (Atom.inp '2').form)).1,
        (form_add (Atom.inp '1').form
          (form_mul (Atom.lit "2.5".toList).form (Atom.inp '2').form)).2) :=
  C10_product_before_sum.1 2 '2' (Atom.inp '1') (Atom.lit "2.5".toList) (Atom.inp '2')
    (by decide) (by decide) (by decide) (by decide) (by decide)

/-- C11. Range check of an input reference: for every slot count `n`, every
target digit `k` and every digit `d` from 1 to 9, the text `CALCk = INd`
compiles if and only if `d - 1 < n`; when it does, the form has coefficient 1
at index `d - 1`, 0 elsewhere and constant 0, and when `d - 1 ≥ n` the parse
fails.  So `CALC4 = IN9` fails with `n = 8`. -/
theorem C11_input_range_check :
    (∀ (n : Nat) (k d : Char), is_digit19 k = true → is_digit19 d = true →
      (slot d < n →
        parse_lineq ("CALC".toList ++ [k] ++ " = IN".toList ++ [d]) n =
          .ok (slot k, vec n (fun i => if i = slot d then 1 else 0), 0)) ∧
      (n ≤ slot d →
        parse_lineq ("CALC".toList ++ [k] ++ " = IN".toList ++ [d]) n = .error) ∧
      ((∃ r, parse_lineq ("CALC".toList ++ [k] ++ " = IN".toList ++ [d]) n = .ok r) ↔
        slot d < n)) ∧
    parse_lineq "CALC4 = IN9".toList 8 = .error := by
  have hok : ∀ (n : Nat) (k d : Char), is_digit19 k = true → is_digit19 d = true →
      slot d < n →
      parse_lineq ("CALC".toList ++ [k] ++ " = IN".toList ++ [d]) n =
        .ok (slot k, vec n (fun i => if i = slot d then 1 else 0), 0) := by
    intro n k d hk hd hdn
    have hd2 : ¬ (n ≤ slot d) := by omega
    apply parse_lineq_of_fuel 4
    · simp [parse_lineq_fuel, parse_addsub_expr, parse_one_term_loop, parse_addsub_expr_loop,
        parse_tok_CALC, parse_tok_IN, parse_tok_space, parse_tok_eq, parse_tok_nil,
        digit_index_of_digit19, hk, hd, hd2, replicate_eq_vec, vec_set, vec_map]
    · simp
  have herr : ∀ (n : Nat) (k d : Char), is_digit19 k = true → is_digit19 d = true →
      n ≤ slot d →
      parse_lineq ("CALC".toList ++ [k] ++ " = IN".toList ++ [d]) n = .error := by
    intro n k d hk hd hdn
    apply parse_lineq_error_of_fuel 4
    · simp [parse_lineq_fuel, parse_addsub_expr, parse_one_term_loop, parse_addsub_expr_loop,
        parse_tok_CALC, parse_tok_IN, parse_tok_space, parse_tok_eq, parse_tok_nil,
        digit_index_of_digit19, hk, hd, hdn]
    · simp
  refine ⟨?_, ?_⟩
  · intro n k d hk hd
    refine ⟨hok n k d hk hd, herr n k d hk hd, ?_⟩
    constructor
    · rintro ⟨r, hr⟩
      by_contra hlt
      rw [herr n k d hk hd (by omega)] at hr
      cases hr
    · intro hlt
      exact ⟨_, hok n k d hk hd hlt⟩
  · exact herr 8 '4' '9' (by decide) (by decide) (by decide)

theorem C11_input_range_check_witness :
    parse_lineq ("CALC".toList ++ ['1'] ++ " = IN".toList ++ ['3']) 3 =
        .ok (slot '1', vec 3 (fun i => if i = slot '3' then 1 else 0), 0) ∧
    parse_lineq ("CALC".toList ++ ['1'] ++ " = IN".toList ++ ['3']) 2 = .error :=
  ⟨(C11_input_range_check.1 3 '1' '3' (by decide) (by decide)).1 (by decide),
    (C11_input_range_check.1 2 '1' '3' (by decide) (by decide)).2.1 (by decide)⟩

/-- C12, as stated, fails at the threshold: at `n = 2` the left operand
`IN1 * 0.00000000100000000000000001` reduces to a form whose coefficient at
index 0 is the stored constant `epsilon`, above 1e-9, and the right operand
`IN2` has the coefficient 1; yet the product with `IN2` does not fail, the
zero test accepts that coefficient and the text
`CALC1 = IN1 * 0.00000000100000000000000001 * IN2` compiles to the all-zero
form. -/
theorem C12_counterexample :
    parse_addsub_expr64 4 "IN1 * 0.00000000100000000000000001 * IN2".toList 2 =
      .ok ([.num 0, .num 0], .num 0, []) ∧
    parse_addsub_expr_loop64 3 " * 0.00000000100000000000000001 * IN2".toList 2
      [.num 1, .num 0] (.num 0) =
      parse_addsub_expr_loop64 2 " * IN2".toList 2
        [.num (4835703278458517 / 4835703278458516698824704), .num 0] (.num 0) ∧
    parse_tok " * IN2".toList = (some .MUL, " IN2".toList) ∧
    parse_one_term64 1 " IN2".toList 2 = .ok ([.num 0, .num 1], .num 0, []) ∧
    (1 / 1000000000 : ℚ) < |4835703278458517 / 4835703278458516698824704| ∧
    (1 / 1000000000 : ℚ) < |1| ∧
    parse_addsub_expr_loop64 (1 + 1) " * IN2".toList 2
      [.num (4835703278458517 / 4835703278458516698824704), .num 0] (.num 0) =
      .ok ([.num 0, .num 0], .num 0, []) ∧
    parse_lineq64 "CALC1 = IN1 * 0.00000000100000000000000001 * IN2".toList 2 =
      .ok (0, [.num 0, .num 0], .num 0) := by
  refine ⟨?_, ?_, ?_, ?_, ?_, ?_, ?_, ?_⟩ <;> decide!

/-- C12 (amended). Non-linear terms are rejected, with the zero test the code
performs on doubles: in the operator loop with accumulated `(a, b)`, when the
next token is `*` or `/`, the term after it reduces to `(ar, br)`, and both
`a` and `ar` hold a coefficient that `is_real_zero` does not accept (one below
`-epsilon` or above `epsilon` for the stored double `epsilon`, or not a
number), the loop fails, and with it `parse_addsub_expr` and `parse_lineq`.
For every `n ≥ 3` and target digit `k` the texts `CALCk = IN2 * IN3` and
`CALCk = IN2 / IN3` fail. -/
theorem C12_nonlinear_rejected :
    (∀ (fuel : Nat) (s s1 s2 : List Char) (n : Nat) (a : List F64) (b : F64) (ar : List F64)
      (br : F64) (tok : lineq_tok), (tok = .MUL ∨ tok = .DIV) →
      parse_tok s = (some tok, s1) →
      parse_one_term64 fuel s1 n = .ok (ar, br, s2) →
      (∃ x ∈ a, is_real_zero64 x = false) →
      (∃ x ∈ ar, is_real_zero64 x = false) →
      parse_addsub_expr_loop64 (fuel + 1) s n a b = .error) ∧
    (∀ (n : Nat) (k : Char), 3 ≤ n → is_digit19 k = true →
      parse_lineq64 ("CALC".toList ++ [k] ++ " = IN2 * IN3".toList) n = .error ∧
      parse_lineq64 ("CALC".toList ++ [k] ++ " = IN2 / IN3".toList) n = .error) := by
  constructor
  · intro fuel s s1 s2 n a b ar br tok htok hs hterm ha har
    have h1 := all_is_real_zero64_false a ha
    have h2 := all_is_real_zero64_false ar har
    unfold parse_one_term64 at hterm
    rw [parse_addsub_expr_loop64]
    rcases htok with rfl | rfl
    · simp only [hs, hterm, muldiv64_nonlinear _ a b ar br h2 h1]
    · simp only [hs, hterm, muldiv64_nonlinear _ a b ar br h2 h1]
  · intro n k hn hk
    have h1 : ¬ (n ≤ 1) := by omega
    have h2 : ¬ (n ≤ 2) := by omega
    have d2 : digit_index '2' = 1 := by decide
    have d3 : digit_index '3' = 2 := by decide
    have u1 := vec64_all_unit_of_not_le n 1 h1
    have u2 := vec64_all_unit_of_not_le n 2 h2
    constructor
    · apply parse_lineq64_error_of_fuel 6
      · simp only [parse_lineq_fuel64, parse_addsub_expr64, parse_one_term_loop64,
          parse_addsub_expr_loop64, parse_tok_CALC, parse_tok_IN, parse_tok_space, parse_tok_eq,
          parse_tok_mul, parse_tok_nil, digit_index_of_digit19, hk, d2, d3, h1, h2, term_unit64,
          muldiv64_nonlinear _ _ _ _ _ u2 u1, List.append_assoc, List.cons_append,
          List.nil_append, String.toList, ge_iff_le, if_false]
      · simp
    · apply parse_lineq64_error_of_fuel 6
      · simp only [parse_lineq_fuel64, parse_addsub_expr64, parse_one_term_loop64,
          parse_addsub_expr_loop64, parse_tok_CALC, parse_tok_IN, parse_tok_space, parse_tok_eq,
          parse_tok_div, parse_tok_nil, digit_index_of_digit19, hk, d2, d3, h1, h2, term_unit64,
          muldiv64_nonlinear _ _ _ _ _ u2 u1, List.append_assoc, List.cons_append,
          List.nil_append, String.toList, ge_iff_le, if_false]
      · simp

theorem C12_nonlinear_rejected_witness :
    parse_addsub_expr_loop64 (1 + 1) " * IN1".toList 2 [.num 0, .num 3] (.num 5) = .error :=
  C12_nonlinear_rejected.1 1 " * IN1".toList " IN1".toList [] 2 [.num 0, .num 3] (.num 5)
    [.num 1, .num 0] (.num 0) .MUL (Or.inl rfl) (by decide) (by decide!)
    ⟨.num 3, by simp, by decide!⟩ ⟨.num 1, by simp, by decide!⟩

/-- C13. Division by zero is not an error, on the doubles the code computes
with: in the operator loop, when the next token is `/` and the constant that
the side detection determines is a finite double of absolute value at most
1e-9, the step does not fail and the loop goes on with the all-zero form (the
stored double `epsilon` lies above 1e-9, so the zero test accepts every such
constant).  That holds when the right term is the constant side (the zero
test accepts all its coefficients, its constant `k` is the divisor) and when
the sides are swapped (the zero test rejects a coefficient of the right term
and accepts all accumulated coefficients, the accumulated constant is the
divisor).  For every `n ≥ 2` the texts `CALCk = (IN2 + 5) / 0` and
`CALCk = IN2 / (3 - 3)` compile to the all-zero form. -/
theorem C13_division_by_zero_zeroes :
    (∀ (fuel : Nat) (s s1 s2 : List Char) (n : Nat) (a : List F64) (b : F64) (ar : List F64)
      (k : ℚ),
      parse_tok s = (some .DIV, s1) →
      parse_one_term64 fuel s1 n = .ok (ar, .num k, s2) →
      (∀ x ∈ ar, is_real_zero64 x = true) →
      |k| ≤ 1 / 1000000000 →
      parse_addsub_expr_loop64 (fuel + 1) s n a b =
        parse_addsub_expr_loop64 fuel s2 n (List.replicate a.length (.num 0)) (.num 0)) ∧
    (∀ (fuel : Nat) (s s1 s2 : List Char) (n : Nat) (a : List F64) (k : ℚ) (ar : List F64)
      (br : F64),
      parse_tok s = (some .DIV, s1) →
      parse_one_term64 fuel s1 n = .ok (ar, br, s2) →
      (∃ x ∈ ar, is_real_zero64 x = false) →
      (∀ x ∈ a, is_real_zero64 x = true) →
      |k| ≤ 1 / 1000000000 →
      parse_addsub_expr_loop64 (fuel + 1) s n a (.num k) =
        parse_addsub_expr_loop64 fuel s2 n (List.replicate ar.length (.num 0)) (.num 0)) ∧
    (∀ (n : Nat) (k : Char), 2 ≤ n → is_digit19 k = true →
      parse_lineq64 ("CALC".toList ++ [k] ++ " = (IN2 + 5) / 0".toList) n =
        .ok (slot k, List.replicate n (.num 0), .num 0) ∧
      parse_lineq64 ("CALC".toList ++ [k] ++ " = IN2 / (3 - 3)".toList) n =
        .ok (slot k, List.replicate n (.num 0), .num 0)) := by
  refine ⟨?_, ?_, ?_⟩
  · intro fuel s s1 s2 n a b ar k hs hterm har hk
    have h1 : ar.all is_real_zero64 = true := List.all_eq_true.mpr har
    have h2 : is_real_zero64 (.num k) = true := is_real_zero64_of_abs_le k hk
    unfold parse_one_term64 at hterm
    rw [parse_addsub_expr_loop64]
    simp only [hs, hterm, muldiv64_right_const _ a b ar (.num k) h1, h2, if_true]
    simp
  · intro fuel s s1 s2 n a k ar br hs hterm har ha hk
    have h1 := all_is_real_zero64_false ar har
    have h0 : a.all is_real_zero64 = true := List.all_eq_true.mpr ha
    have h2 : is_real_zero64 (.num k) = true := is_real_zero64_of_abs_le k hk
    unfold parse_one_term64 at hterm
    rw [parse_addsub_expr_loop64]
    simp only [hs, hterm, muldiv64_left_const _ a (.num k) ar br h1 h0, h2, if_true]
    simp
  · intro n k hn hk
    constructor
    · have h := sum_over_zero64 n k '2' "5".toList "0".toList hk (by decide)
        (by simp [slot]; omega) (by decide) (by decide) (by decide!)
      have e : "CALC".toList ++ [k] ++ " = (IN".toList ++ ['2'] ++ " + ".toList ++ "5".toList ++
          ") / ".toList ++ "0".toList = "CALC".toList ++ [k] ++ " = (IN2 + 5) / 0".toList := by
        simp
      rw [e] at h
      exact h
    · have h := ref_over_difference64 n k '2' "3".toList "3".toList hk (by decide)
        (by simp [slot]; omega) (by decide) (by decide) (by decide!)
      have e : "CALC".toList ++ [k] ++ " = IN".toList ++ ['2'] ++ " / (".toList ++ "3".toList ++
          " - ".toList ++ "3".toList ++ ")".toList =
          "CALC".toList ++ [k] ++ " = IN2 / (3 - 3)".toList := by
        simp
      rw [e] at h
      exact h

theorem C13_division_by_zero_zeroes_witness :
    parse_addsub_expr_loop64 (1 + 1) " / 0".toList 2 [.num 1, .num 0] (.num 8) =
      parse_addsub_expr_loop64 1 [] 2 (List.replicate [F64.num 1, .num 0].length (.num 0))
        (.num 0) :=
  C13_division_by_zero_zeroes.1 1 " / 0".toList " 0".toList [] 2 [.num 1, .num 0] (.num 8)
    [.num 0, .num 0] 0 (by decide) (by decide!) (by decide!) (by norm_num)

/-- C14. Equation header: whenever `parse_lineq` succeeds, the first token of
the text is a `CALC` reference, the second token is `=`, and the returned
target index is the index of that reference; a text whose first token is not a
`CALC` reference fails, and so does a text whose second token is not `=`.  On
every success of a text that starts with `CALCd`, `d` a digit from 1 to 9, the
target index is `d - 1` whatever follows; `CALC4` gives 3. -/
theorem C14_equation_header :
    (∀ (s : List Char) (n : Nat) (r : Nat × List ℚ × ℚ), parse_lineq s n = .ok r →
      ∃ id s1 s2, parse_tok s = (some (.CALC id), s1) ∧ parse_tok s1 = (some .EQ, s2) ∧
        r.1 = id) ∧
    (∀ (s : List Char) (n : Nat), (∀ id s1, parse_tok s ≠ (some (.CALC id), s1)) →
      parse_lineq s n = .error) ∧
    (∀ (s s1 : List Char) (n id : Nat), parse_tok s = (some (.CALC id), s1) →
      (∀ s2, parse_tok s1 ≠ (some .EQ, s2)) → parse_lineq s n = .error) ∧
    (∀ (d : Char) (rest : List Char) (n : Nat) (r : Nat × List ℚ × ℚ), is_digit19 d = true →
      parse_lineq ("CALC".toList ++ d :: rest) n = .ok r → r.1 = slot d) ∧
    (∀ (rest : List Char) (n : Nat) (r : Nat × List ℚ × ℚ),
      parse_lineq ("CALC4".toList ++ rest) n = .ok r → r.1 = 3) := by
  have first : ∀ (s : List Char) (n : Nat) (r : Nat × List ℚ × ℚ), parse_lineq s n = .ok r →
      ∃ id s1 s2, parse_tok s = (some (.CALC id), s1) ∧ parse_tok s1 = (some .EQ, s2) ∧
        r.1 = id := by
    intro s n r h
    unfold parse_lineq parse_lineq_fuel at h
    rcases hp : parse_tok s with ⟨_ | tok, s1⟩
    · simp [hp] at h
    · cases tok <;> simp only [hp] at h <;> try (exact absurd h (by simp))
      case CALC id =>
        rcases hq : parse_tok s1 with ⟨_ | tok2, s2⟩
        · simp [hq] at h
        · cases tok2 <;> simp only [hq] at h <;> try (exact absurd h (by simp))
          case EQ =>
            refine ⟨id, s1, s2, rfl, hq, ?_⟩
            rcases he : parse_addsub_expr (2 * s.length + 2) s2 n with ⟨a, b, s3⟩ | _ | _
            · simp only [he, Res.ok.injEq] at h
              rw [← h]
            · simp [he] at h
            · simp [he] at h
  have digit : ∀ (d : Char) (rest : List Char) (n : Nat) (r : Nat × List ℚ × ℚ),
      is_digit19 d = true → parse_lineq ("CALC".toList ++ d :: rest) n = .ok r →
      r.1 = slot d := by
    intro d rest n r hd h
    obtain ⟨id, s1, s2, h1, -, h3⟩ := first _ n r h
    have e : "CALC".toList ++ d :: rest = 'C' :: 'A' :: 'L' :: 'C' :: d :: rest := by simp
    rw [e, parse_tok_CALC, digit_index_of_digit19 d hd] at h1
    simp only [Prod.mk.injEq, Option.some.injEq, lineq_tok.CALC.injEq] at h1
    rw [h3, ← h1.1]
  refine ⟨first, ?_, ?_, digit, ?_⟩
  · intro s n h
    unfold parse_lineq parse_lineq_fuel
    rcases hp : parse_tok s with ⟨_ | tok, s1⟩
    · rfl
    · cases tok <;> simp only
      case CALC id => exact absurd hp (h id s1)
  · intro s s1 n id hs h
    unfold parse_lineq parse_lineq_fuel
    rcases hq : parse_tok s1 with ⟨_ | tok2, s2⟩
    · simp only [hs, hq]
    · cases tok2 <;> simp only [hs, hq]
      case EQ => exact absurd hq (h s2)
  · intro rest n r h
    have e : "CALC4".toList ++ rest = "CALC".toList ++ '4' :: rest := by simp
    rw [e] at h
    have := digit '4' rest n r (by decide) h
    rw [this]
    decide

theorem C14_equation_header_witness :
    ∃ id s1 s2, parse_tok "CALC4 = 3.15".toList = (some (.CALC id), s1) ∧
      parse_tok s1 = (some .EQ, s2) ∧
      ((3, List.replicate 8 0, 315 / 100) : Nat × List ℚ × ℚ).1 = id :=
  C14_equation_header.1 "CALC4 = 3.15".toList 8 (3, List.replicate 8 0, 315 / 100)
    (by with_unfolding_all decide)

/-- C15. The identifier scan does not look at what follows the prefix: at
`n = 8` the text `CALCx = 1` compiles with target index 71 (the code of `x`
minus the code of `1`) and `CALC= = 1` compiles with target index 12;
`parse_calc` succeeds on `CALCx` and `parse_in` succeeds on `INx`, each with
index 71. -/
theorem C15_identifier_without_digit :
    parse_calc "CALCx".toList = (some 71, []) ∧
    parse_in "INx".toList = (some 71, []) ∧
    parse_lineq "CALCx = 1".toList 8 = .ok (71, [0, 0, 0, 0, 0, 0, 0, 0], 1) ∧
    parse_lineq "CALC= = 1".toList 8 = .ok (12, [0, 0, 0, 0, 0, 0, 0, 0], 1) := by
  refine ⟨?_, ?_, ?_, ?_⟩ <;> with_unfolding_all decide

/-- C16. A numeric scan that fills the 32-character buffer makes `parse_real`
fail but leaves the cursor behind the 32 characters, and `parse_tok` goes on
from there: on 32 digits followed by `IN1` it returns the token `IN` with
index 0, and at `n = 8` the text `CALC1 = ` followed by 32 digits and `IN1`
compiles to coefficient 1 at index 0 and constant 0. -/
theorem C16_overlong_literal_then_reference :
    parse_real "11111111111111111111111111111111IN1".toList = (none, "IN1".toList) ∧
    parse_tok "11111111111111111111111111111111IN1".toList = (some (.IN 0), []) ∧
    parse_lineq "CALC1 = 11111111111111111111111111111111IN1".toList 8 =
      .ok (0, [1, 0, 0, 0, 0, 0, 0, 0], 0) := by
  refine ⟨?_, ?_, ?_⟩ <;> with_unfolding_all decide

/-- C17, as stated, fails at the threshold: at `n = 1` the left operand
`0.00000000100000000000000001` is a pure constant `k`, the stored constant
`epsilon`, above 1e-9, and the right term `IN1` has the coefficient 1; yet
`k / IN1` is the all-zero form, not `([1 / k], 0 / k)`, because the zero test
accepts `k`.  The text `CALC1 = 0.00000000100000000000000001 / IN1` compiles
to the all-zero form. -/
theorem C17_counterexample :
    parse_one_term64 1 "0.00000000100000000000000001 / IN1".toList 1 =
      .ok ([.num 0], .num (4835703278458517 / 4835703278458516698824704), " / IN1".toList) ∧
    parse_tok " / IN1".toList = (some .DIV, " IN1".toList) ∧
    parse_one_term64 1 " IN1".toList 1 = .ok ([.num 1], .num 0, []) ∧
    is_real_zero64 (.num 0) = true ∧ |(0 : ℚ)| ≤ 1 / 1000000000 ∧
    is_real_zero64 (.num 1) = false ∧ (1 / 1000000000 : ℚ) < |1| ∧
    (1 / 1000000000 : ℚ) < |4835703278458517 / 4835703278458516698824704| ∧
    parse_addsub_expr_loop64 (1 + 1) " / IN1".toList 1 [.num 0]
      (.num (4835703278458517 / 4835703278458516698824704)) = .ok ([.num 0], .num 0, []) ∧
    parse_addsub_expr_loop64 1 [] 1
      ([F64.num 1].map (fun x => fdiv x (.num (4835703278458517 / 4835703278458516698824704))))
      (fdiv (.num 0) (.num (4835703278458517 / 4835703278458516698824704))) ≠
      .ok ([.num 0], .num 0, []) ∧
    parse_lineq64 "CALC1 = 0.00000000100000000000000001 / IN1".toList 1 =
      .ok (0, [.num 0], .num 0) := by
  refine ⟨?_, ?_, ?_, ?_, ?_, ?_, ?_, ?_, ?_, ?_, ?_⟩ <;> decide!

/-- C17 (amended). Side swap for a constant left operand, in binary64
arithmetic and with the zero test the code performs: in the operator loop
with accumulated `(a, k)` where `is_real_zero` accepts every entry of `a`,
when the next token is `*` or `/` and the term after it reduces to `(ar, br)`
with some entry of `ar` that `is_real_zero` does not accept, the loop goes on
as if the sides were swapped: with `(k * ar[i], k * br)` for `*`, and for `/`
with `(ar[i] / k, br / k)` when `is_real_zero` does not accept `k` (`k` below
`-epsilon` or above `epsilon` for the stored double `epsilon`, or not a
number).  For every `n ≥ 1` the text `CALCk = 6 / IN1` compiles to the
coefficient `1 / 6` (the double nearest to it) at index 0 and constant 0, the
same form as `CALCk = IN1 / 6`. -/
theorem C17_constant_left_operand_swaps :
    (∀ (fuel : Nat) (s s1 s2 : List Char) (n : Nat) (a : List F64) (k : F64) (ar : List F64)
      (br : F64),
      parse_tok s = (some .MUL, s1) →
      parse_one_term64 fuel s1 n = .ok (ar, br, s2) →
      (∀ x ∈ a, is_real_zero64 x = true) →
      (∃ x ∈ ar, is_real_zero64 x = false) →
      parse_addsub_expr_loop64 (fuel + 1) s n a k =
        parse_addsub_expr_loop64 fuel s2 n (ar.map (fun x => fmul k x)) (fmul k br)) ∧
    (∀ (fuel : Nat) (s s1 s2 : List Char) (n : Nat) (a : List F64) (k : F64) (ar : List F64)
      (br : F64),
      parse_tok s = (some .DIV, s1) →
      parse_one_term64 fuel s1 n = .ok (ar, br, s2) →
      (∀ x ∈ a, is_real_zero64 x = true) →
      (∃ x ∈ ar, is_real_zero64 x = false) →
      is_real_zero64 k = false →
      parse_addsub_expr_loop64 (fuel + 1) s n a k =
        parse_addsub_expr_loop64 fuel s2 n (ar.map (fun x => fdiv x k)) (fdiv br k)) ∧
    (∀ (n : Nat) (k : Char), 1 ≤ n → is_digit19 k = true →
      parse_lineq64 ("CALC".toList ++ [k] ++ " = 6 / IN1".toList) n =
        .ok (slot k, vec64 n (fun i => if i = 0 then round64 (1 / 6) else .num 0), .num 0) ∧
      parse_lineq64 ("CALC".toList ++ [k] ++ " = IN1 / 6".toList) n =
        .ok (slot k, vec64 n (fun i => if i = 0 then round64 (1 / 6) else .num 0), .num 0)) := by
  refine ⟨?_, ?_, ?_⟩
  · intro fuel s s1 s2 n a k ar br hs hterm ha har
    have h1 := all_is_real_zero64_false ar har
    have h0 : a.all is_real_zero64 = true := List.all_eq_true.mpr ha
    unfold parse_one_term64 at hterm
    rw [parse_addsub_expr_loop64]
    simp only [hs, hterm, muldiv64_left_const _ a k ar br h1 h0]
    simp [fmul_comm k]
  · intro fuel s s1 s2 n a k ar br hs hterm ha har hk
    have h1 := all_is_real_zero64_false ar har
    have h0 : a.all is_real_zero64 = true := List.all_eq_true.mpr ha
    unfold parse_one_term64 at hterm
    rw [parse_addsub_expr_loop64]
    simp only [hs, hterm, muldiv64_left_const _ a k ar br h1 h0, hk]
    simp
  · intro n k hn hk
    have v6 : fdiv (.num 1) (round64 (literal_value "6".toList)) = round64 (1 / 6) := by decide!
    have s1 : slot '1' = 0 := by decide
    have hz : is_real_zero64 (round64 (literal_value "6".toList)) = false := by decide!
    constructor
    · have h := constant_over_ref64 n k '1' "6".toList hk (by decide) (by simp [slot]; omega)
        (by decide) hz
      have e : "CALC".toList ++ [k] ++ " = ".toList ++ "6".toList ++ " / IN".toList ++ ['1'] =
          "CALC".toList ++ [k] ++ " = 6 / IN1".toList := by simp
      rw [e, v6, s1] at h
      exact h
    · have h := ref_over_constant64 n k '1' "6".toList hk (by decide) (by simp [slot]; omega)
        (by decide) hz
      have e : "CALC".toList ++ [k] ++ " = IN".toList ++ ['1'] ++ " / ".toList ++ "6".toList =
          "CALC".toList ++ [k] ++ " = IN1 / 6".toList := by simp
      rw [e, v6, s1] at h
      exact h

theorem C17_constant_left_operand_swaps_witness :
    parse_addsub_expr_loop64 (1 + 1) " * IN2".toList 2 [.num 0, .num 0] (.num 3) =
      parse_addsub_expr_loop64 1 [] 2 ([F64.num 0, .num 1].map (fun x => fmul (.num 3) x))
        (fmul (.num 3) (.num 0)) :=
  C17_constant_left_operand_swaps.1 1 " * IN2".toList " IN2".toList [] 2 [.num 0, .num 0]
    (.num 3) [.num 0, .num 1] (.num 0) (by decide) (by decide!) (by decide!)
    ⟨.num 1, by simp, by decide!⟩

/-- C18. The parser terminates on every input.  A successful `parse_tok`
leaves a strict suffix of the cursor it was given, and on every outcome it
leaves a suffix; on success `parse_one_term` and `parse_addsub_expr` leave a
strict suffix of their cursor (the restore of the `)` lookahead puts back the
cursor the loop had, never an earlier one).  Hence the recursion is bounded by
the remaining length: with fuel of at least twice that length plus two
`parse_addsub_expr` does not run out of fuel, and `parse_lineq` returns
success or failure for every text and every `n`. -/
theorem C18_parser_terminates :
    (∀ (s : List Char) (tok : lineq_tok) (s1 : List Char), parse_tok s = (some tok, s1) →
      s1 <:+ s ∧ s1.length < s.length) ∧
    (∀ s : List Char, (parse_tok s).2 <:+ s) ∧
    (∀ (fuel : Nat) (s : List Char) (n : Nat) (a : List ℚ) (b : ℚ) (s1 : List Char),
      parse_one_term fuel s n = .ok (a, b, s1) → s1 <:+ s ∧ s1.length < s.length) ∧
    (∀ (fuel : Nat) (s : List Char) (n : Nat) (a : List ℚ) (b : ℚ) (s1 : List Char),
      parse_addsub_expr fuel s n = .ok (a, b, s1) → s1 <:+ s ∧ s1.length < s.length) ∧
    (∀ (fuel : Nat) (s : List Char) (n : Nat), 2 * s.length + 2 ≤ fuel →
      parse_addsub_expr fuel s n ≠ .nofuel) ∧
    (∀ (s : List Char) (n : Nat), (∃ r, parse_lineq s n = .ok r) ∨ parse_lineq s n = .error) := by
  refine ⟨?_, parse_tok_suffix, ?_, ?_, ?_, ?_⟩
  · intro s tok s1 h
    exact ⟨parse_tok_suffix_of_eq s _ s1 h, parse_tok_length s tok s1 h⟩
  · intro fuel s n a b s1 h
    exact (parsers_cursor fuel).1 s n 1 a b s1 h
  · intro fuel s n a b s1 h
    exact (parsers_cursor fuel).2.1 s n a b s1 h
  · intro fuel s n h
    exact (fuel_enough fuel).2.1 s n h
  · intro s n
    have h := parse_lineq_ne_nofuel s n
    rcases hr : parse_lineq s n with r | _ | _
    · exact Or.inl ⟨r, rfl⟩
    · exact Or.inr rfl
    · exact absurd hr h

theorem C18_parser_terminates_witness :
    " = 3.15".toList <:+ "CALC4 = 3.15".toList ∧
      " = 3.15".toList.length < "CALC4 = 3.15".toList.length :=
  C18_parser_terminates.1 "CALC4 = 3.15".toList (.CALC 3) " = 3.15".toList (by decide)

/-- C19. A sum of terms compiles to the reference affine sum: for every `n`
and every non-empty list of terms, each a plain (unsigned) decimal literal or
an input reference `INd` to a slot below `n`, written as `t1 + t2 + ... + tm`
with ` + ` between the terms, `CALCk = t1 + t2 + ... + tm` compiles, the
coefficient at every index `i` is the number of times `IN(i+1)` occurs in the
list, and the constant is the sum of the literals. -/
theorem C19_sum_of_terms :
    ∀ (n : Nat) (k : Char) (t : Atom) (ts : List Atom), is_digit19 k = true →
      t.wf n = true → (∀ u ∈ ts, u.wf n = true) →
      parse_lineq ("CALC".toList ++ [k] ++ " = ".toList ++ t.text ++ plus_chain ts) n =
        .ok (slot k, vec n (fun i => (occurrences (t :: ts) i : ℚ)), literal_sum (t :: ts)) := by
  intro n k t ts hk hw hts
  apply parse_lineq_of_fuel (2 * (ts.length + 1))
  · have h := parse_addsub_expr_plus_chain n ts t (2 * (ts.length + 1)) (le_refl _) hw hts
    have e : "CALC".toList ++ [k] ++ " = ".toList ++ t.text ++ plus_chain ts =
        'C' :: 'A' :: 'L' :: 'C' :: k :: ' ' :: '=' :: ' ' :: (t.text ++ plus_chain ts) := by
      simp
    rw [e, parse_lineq_fuel, parse_tok_CALC, digit_index_of_digit19 k hk]
    simp only [parse_tok_space, parse_tok_eq]
    rw [parse_addsub_expr_ws _ ' ' _ _ (by decide), h]
  · have := plus_chain_length ts
    simp
    omega

theorem C19_sum_of_terms_witness :
    parse_lineq ("CALC".toList ++ ['4'] ++ " = ".toList ++ (Atom.inp '2').text ++
        plus_chain [Atom.lit "1.5".toList, Atom.inp '2', Atom.lit "2".toList, Atom.inp '1']) 3 =
      .ok (slot '4',
        vec 3 (fun i => (occurrences [Atom.inp '2', Atom.lit "1.5".toList, Atom.inp '2',
          Atom.lit "2".toList, Atom.inp '1'] i : ℚ)),
        literal_sum [Atom.inp '2', Atom.lit "1.5".toList, Atom.inp '2', Atom.lit "2".toList,
          Atom.inp '1']) :=
  C19_sum_of_terms 3 '4' (Atom.inp '2')
    [Atom.lit "1.5".toList, Atom.inp '2', Atom.lit "2".toList, Atom.inp '1'] (by decide)
    (by decide) (by decide)

/-- C20. A token that is no operator is skipped in operator position: in the
operator loop, a scanned token of kind `REAL`, `IN`, `CALC`, `=` or `(` is
consumed and the loop goes on with the accumulated form unchanged, without a
failure and without a range check of a skipped `IN`.  So for every `n`, every
digit `p` naming a slot below `n` and all digits `q`, `r` from 1 to 9, the
texts `CALCk = INp INq` and `CALCk = INp 7 CALCr` compile to exactly the form
of `CALCk = INp`: coefficient 1 at index `p - 1` and constant 0. -/
theorem C20_non_operator_tokens_skipped :
    (∀ (fuel : Nat) (s s1 : List Char) (n : Nat) (a : List ℚ) (b : ℚ) (tok : lineq_tok),
      parse_tok s = (some tok, s1) →
      ((∃ x, tok = .REAL x) ∨ (∃ id, tok = .IN id) ∨ (∃ id, tok = .CALC id) ∨ tok = .EQ ∨
        tok = .LPAR) →
      parse_addsub_expr_loop (fuel + 1) s n a b = parse_addsub_expr_loop fuel s1 n a b) ∧
    (∀ (n : Nat) (k p q r : Char), is_digit19 k = true → is_digit19 p = true → slot p < n →
      is_digit19 q = true → is_digit19 r = true →
      parse_lineq ("CALC".toList ++ [k] ++ " = IN".toList ++ [p] ++ " IN".toList ++ [q]) n =
        .ok (slot k, vec n (fun i => if i = slot p then 1 else 0), 0) ∧
      parse_lineq ("CALC".toList ++ [k] ++ " = IN".toList ++ [p] ++ " 7 CALC".toList ++ [r]) n =
        .ok (slot k, vec n (fun i => if i = slot p then 1 else 0), 0) ∧
      parse_lineq ("CALC".toList ++ [k] ++ " = IN".toList ++ [p]) n =
        .ok (slot k, vec n (fun i => if i = slot p then 1 else 0), 0)) := by
  constructor
  · intro fuel s s1 n a b tok hs htok
    rw [parse_addsub_expr_loop]
    rcases htok with ⟨x, rfl⟩ | ⟨id, rfl⟩ | ⟨id, rfl⟩ | rfl | rfl <;> simp only [hs]
  · intro n k p q r hk hp hpn hq hr
    have hp2 : ¬ (n ≤ slot p) := by omega
    have t7 : ∀ rest : List Char,
        parse_tok ('7' :: ' ' :: rest) = (some (.REAL 7), ' ' :: rest) := by
      intro rest
      have h := parse_tok_lit "7".toList (' ' :: rest) (by decide) (delim_space _)
      have v7 : literal_value "7".toList = 7 := by with_unfolding_all decide
      rw [v7] at h
      simpa using h
    refine ⟨?_, ?_, ?_⟩
    · apply parse_lineq_of_fuel 6
      · simp [parse_lineq_fuel, parse_addsub_expr, parse_one_term_loop, parse_addsub_expr_loop,
          parse_tok_CALC, parse_tok_IN, parse_tok_space, parse_tok_eq, parse_tok_nil,
          digit_index_of_digit19, hk, hp, hp2, replicate_eq_vec, vec_set, vec_map]
      · simp
    · apply parse_lineq_of_fuel 6
      · simp [parse_lineq_fuel, parse_addsub_expr, parse_one_term_loop, parse_addsub_expr_loop,
          parse_tok_CALC, parse_tok_IN, parse_tok_space, parse_tok_eq, parse_tok_nil, t7,
          digit_index_of_digit19, hk, hp, hp2, replicate_eq_vec, vec_set, vec_map]
      · simp
    · apply parse_lineq_of_fuel 6
      · simp [parse_lineq_fuel, parse_addsub_expr, parse_one_term_loop, parse_addsub_expr_loop,
          parse_tok_CALC, parse_tok_IN, parse_tok_space, parse_tok_eq, parse_tok_nil,
          digit_index_of_digit19, hk, hp, hp2, replicate_eq_vec, vec_set, vec_map]
      · simp

theorem C20_non_operator_tokens_skipped_witness :
    parse_addsub_expr_loop (1 + 1) " IN9".toList 2 [1, 0] 0 =
      parse_addsub_expr_loop 1 [] 2 [1, 0] 0 :=
  C20_non_operator_tokens_skipped.1 1 " IN9".toList [] 2 [1, 0] 0 (.IN 8) (by decide)
    (Or.inr (Or.inl ⟨8, rfl⟩))
